import Mathlib

/-!
Verification of the accumulator-merge core of this repository
(`src/accumulate.py`: `add`, `iadd`, `accumulate`).

The Python functions are dynamically typed and operate on mutable
objects, so we use a small-step heap model: a heap is a list of nodes
addressed by their index, and every Python object of interest is a node.
The universe of modelled values is a representative closed set of
Python `Accumulatable` inhabitants:

* `int` — an `Addable` (has `__add__`);
* `list` of ints — also `Addable` (list concatenation); element type is
  restricted to `int` (immutable), which is observationally sufficient
  for the properties below;
* `set` of ints — a `MutableSet`;
* ordered mappings (`dict`, a `dict` subclass, an unrelated
  `MutableMapping` class, and a `Counter`-like `dict` subclass that
  also implements `__add__`) whose values are arbitrary heap
  references, hence arbitrarily nested;
* an opaque `object()` which satisfies none of the three protocols.

Mutation is explicit heap update; `copy-producing` functions only
allocate.  Recursive functions take an explicit fuel argument and are
structurally recursive in it so that they reduce definitionally on
concrete inputs; `none` means the fuel was exhausted (never reachable
for readable, i.e. acyclic, inputs given enough fuel).
-/

set_option maxHeartbeats 1000000

namespace Accumulate

/-- Runtime classes of the modelled mapping-like values.  `subDictT`
and `counterT` are subclasses of `dictT`; `otherT` is an unrelated
`MutableMapping` implementation. -/
inductive MapType where
  | dictT | subDictT | otherT | counterT
deriving DecidableEq, Repr

/-- `MapType.isInst t u` models `isinstance(x, u)` for `x` of runtime
class `t`: `t` is `u` or a subclass of `u`. -/
def MapType.isInst : MapType → MapType → Bool
  | .subDictT, .dictT => true
  | .counterT, .dictT => true
  | t, u => t == u

/-- A heap node: one Python object. Mapping entries hold addresses of
their value objects; list/set elements are ints (immutables held
inline). -/
inductive Node where
  | intNode (n : Int)
  | listNode (xs : List Int)
  | setNode (xs : List Int)
  | mapNode (ty : MapType) (es : List (String × Nat))
  | opqNode (tag : Nat)
deriving DecidableEq, Repr

/-- The deep (pure) value of an object, used to state properties. -/
inductive PVal where
  | vint (n : Int)
  | vlist (xs : List Int)
  | vset (xs : List Int)
  | vmap (ty : MapType) (es : List (String × PVal))
  | vopq (tag : Nat)
deriving Repr

/-- Errors surfaced by the combine functions.  `typeIncompatible`
models the `ValueError("Cannot add ... incompatible type (A vs. B)")`
raised by this code, carrying both operand runtime type names;
`otherError` models any error raised by a delegated operation itself
(e.g. the `TypeError` of `operator.add` on `int + list`). -/
inductive Err where
  | typeIncompatible (ta tb : String)
  | otherError
deriving DecidableEq, Repr

abbrev Heap := List Node

/-- Read an address. -/
def hget (h : Heap) (i : Nat) : Option Node := h.get? i

/-- Overwrite an address (in-place mutation of one object). -/
def hset (h : Heap) (i : Nat) (n : Node) : Heap := h.set i n

/-- Allocate a new object; its address is the old heap length. -/
def alloc (h : Heap) (n : Node) : Nat × Heap := (h.length, h ++ [n])

/-- Runtime type name of a node, as it appears in error messages. -/
def typeName : Node → String
  | .intNode _ => "int"
  | .listNode _ => "list"
  | .setNode _ => "set"
  | .mapNode .dictT _ => "dict"
  | .mapNode .subDictT _ => "SubDict"
  | .mapNode .otherT _ => "OtherMapping"
  | .mapNode .counterT _ => "Counter"
  | .opqNode _ => "object"

/-- Type name of a deep value (agrees with `typeName` on the node). -/
def typeNameV : PVal → String
  | .vint _ => "int"
  | .vlist _ => "list"
  | .vset _ => "set"
  | .vmap .dictT _ => "dict"
  | .vmap .subDictT _ => "SubDict"
  | .vmap .otherT _ => "OtherMapping"
  | .vmap .counterT _ => "Counter"
  | .vopq _ => "object"

/-- `isinstance(x, Addable)`: `int`, `list` and the Counter-like class
have `__add__`. -/
def isAddable : Node → Bool
  | .intNode _ => true
  | .listNode _ => true
  | .mapNode .counterT _ => true
  | _ => false

/-- `isinstance(x, MutableSet)`. -/
def isMutableSet : Node → Bool
  | .setNode _ => true
  | _ => false

/-- `isinstance(x, MutableMapping)`. -/
def isMutableMapping : Node → Bool
  | .mapNode _ _ => true
  | _ => false

/-- Python `set` union `xs | ys` (membership union; we keep `xs`'s
elements then the novel elements of `ys`). -/
def setUnion (xs ys : List Int) : List Int :=
  xs ++ ys.filter (fun y => !(xs.contains y))

/-- Key lookup in an ordered entry list. -/
def lookupEnt (es : List (String × Nat)) (k : String) : Option Nat :=
  (es.find? (fun p => p.1 == k)).map (·.2)

/-- Key membership in an ordered entry list. -/
def hasKey {α : Type} (es : List (String × α)) (k : String) : Bool :=
  es.any (fun p => p.1 == k)

/-- Dict assignment `d[k] = v` on an entry list: replace in place if
the key exists (keeping its position), else append. -/
def mapAssign (es : List (String × Nat)) (k : String) (v : Nat) :
    List (String × Nat) :=
  if hasKey es k then
    es.map (fun p => if p.1 == k then (p.1, v) else p)
  else es ++ [(k, v)]

/-- `d[k] = v` where `d` is the mapping object at address `out`. -/
def outAssign (h : Heap) (out : Nat) (k : String) (v : Nat) : Heap :=
  match hget h out with
  | some (.mapNode ty es) => hset h out (.mapNode ty (mapAssign es k v))
  | _ => h

/-- Entry-list reader, parameterised by the reader for value
addresses. -/
def readEntriesGo (rec : Nat → Option PVal) :
    List (String × Nat) → Option (List (String × PVal))
  | [] => some []
  | (k, x) :: rest =>
    match rec x, readEntriesGo rec rest with
    | some v, some vs => some ((k, v) :: vs)
    | _, _ => none

/-- Deep read of the value of the object at an address.  Structural in
the fuel, so it computes; `none` on dangling references or insufficient
fuel (in particular on cyclic structures, for every fuel). -/
def readVal : Nat → Heap → Nat → Option PVal
  | 0, _, _ => none
  | fuel + 1, h, x =>
    match hget h x with
    | some (.intNode n) => some (.vint n)
    | some (.listNode xs) => some (.vlist xs)
    | some (.setNode xs) => some (.vset xs)
    | some (.opqNode t) => some (.vopq t)
    | some (.mapNode ty es) => (readEntriesGo (readVal fuel h) es).map (.vmap ty)
    | none => none

/-- The object at `a` has deep value `v` (with some sufficient fuel). -/
def Reads (h : Heap) (a : Nat) (v : PVal) : Prop :=
  ∃ fuel, readVal fuel h a = some v

/-- Addresses reachable from an address (the object plus,
transitively, its mapping values); entry-list helper. -/
def reachEntriesGo (rec : Nat → List Nat) :
    List (String × Nat) → List Nat
  | [] => []
  | (_, x) :: rest => rec x ++ reachEntriesGo rec rest

/-- Fueled reachable-address list. -/
def reachAddrs : Nat → Heap → Nat → List Nat
  | 0, _, _ => []
  | fuel + 1, h, x =>
    x :: (match hget h x with
          | some (.mapNode _ es) => reachEntriesGo (reachAddrs fuel h) es
          | _ => [])

/-- `i` is reachable from `a` in `h`. -/
def InReach (h : Heap) (a i : Nat) : Prop :=
  ∃ fuel, i ∈ reachAddrs fuel h a

/-! ### `copy.deepcopy`

Model of `copy.deepcopy` on this universe.  Every node of the copy is
freshly allocated (Python keeps atomic immutables shared and memoises
diamonds; as our ints are immutable and never compared by identity,
this is observationally equivalent for the properties below). -/

/-- Deep copy of an entry list, parameterised by the copier for value
addresses; threads the heap. -/
def deepcopyEntriesGo (rec : Heap → Nat → Option (Nat × Heap)) :
    Heap → List (String × Nat) → Option (List (String × Nat) × Heap)
  | h, [] => some ([], h)
  | h, (k, x) :: rest =>
    match rec h x with
    | some (c, h') =>
      match deepcopyEntriesGo rec h' rest with
      | some (cs, h'') => some ((k, c) :: cs, h'')
      | none => none
    | none => none

/-- `copy.deepcopy(x)`: returns the address of the copy and the
extended heap. -/
def deepcopy : Nat → Heap → Nat → Option (Nat × Heap)
  | 0, _, _ => none
  | fuel + 1, h, x =>
    match hget h x with
    | some (.intNode n) => some (alloc h (.intNode n))
    | some (.listNode xs) => some (alloc h (.listNode xs))
    | some (.setNode xs) => some (alloc h (.setNode xs))
    | some (.opqNode t) => some (alloc h (.opqNode t))
    | some (.mapNode ty es) =>
      match deepcopyEntriesGo (deepcopy fuel) h es with
      | some (cs, h') => some (alloc h' (.mapNode ty cs))
      | none => none
    | none => none

/-! ### The delegated operators

`operator.add`, `operator.or_`, `operator.iadd`, `operator.ior` on the
modelled values.  The Counter-like class models a caller-defined
`dict` subclass with `__add__`/`__iadd__` that combines equal keys by
integer addition (shared keys must hold ints, else the operation
itself fails), keeps exclusive keys, and appends the other operand's
novel keys; `__iadd__` mutates in place and returns `self`. -/

/-- First loop of the Counter-like combine: `self`'s entries, with
shared keys re-bound to freshly allocated sums. -/
def counterAddA (h : Heap) : List (String × Nat) → List (String × Nat) →
    Except Err (List (String × Nat) × Heap)
  | [], _ => .ok ([], h)
  | (k, x) :: rest, eb =>
    match lookupEnt eb k with
    | some y =>
      match hget h x, hget h y with
      | some (.intNode m), some (.intNode n) =>
        let (r, h') := alloc h (.intNode (m + n))
        match counterAddA h' rest eb with
        | .ok (cs, h'') => .ok ((k, r) :: cs, h'')
        | .error e => .error e
      | _, _ => .error .otherError
    | none =>
      match counterAddA h rest eb with
      | .ok (cs, h'') => .ok ((k, x) :: cs, h'')
      | .error e => .error e

/-- `operator.add(a, b)` for two `Addable`s.  A mismatched pair (e.g.
`int + list`, `Counter + dict`) raises its own `TypeError`, modelled
as `otherError`. -/
def opAdd (h : Heap) (a b : Nat) : Except Err (Nat × Heap) :=
  match hget h a, hget h b with
  | some (.intNode m), some (.intNode n) => .ok (alloc h (.intNode (m + n)))
  | some (.listNode xs), some (.listNode ys) => .ok (alloc h (.listNode (xs ++ ys)))
  | some (.mapNode .counterT ea), some (.mapNode .counterT eb) =>
    match counterAddA h ea eb with
    | .ok (cs, h') =>
      .ok (alloc h' (.mapNode .counterT (cs ++ eb.filter (fun p => !(hasKey ea p.1)))))
    | .error e => .error e
  | _, _ => .error .otherError

/-- `operator.iadd(a, b)`: `int` has no `__iadd__`, so the combined
value is a fresh object (a rebind); `list` extends in place and
returns `a`; the Counter-like class updates in place and returns
`a`. -/
def opIadd (h : Heap) (a b : Nat) : Except Err (Nat × Heap) :=
  match hget h a, hget h b with
  | some (.intNode m), some (.intNode n) => .ok (alloc h (.intNode (m + n)))
  | some (.listNode xs), some (.listNode ys) => .ok (a, hset h a (.listNode (xs ++ ys)))
  | some (.mapNode .counterT ea), some (.mapNode .counterT eb) =>
    match counterAddA h ea eb with
    | .ok (cs, h') =>
      .ok (a, hset h' a (.mapNode .counterT (cs ++ eb.filter (fun p => !(hasKey ea p.1)))))
    | .error e => .error e
  | _, _ => .error .otherError

/-- `operator.or_(a, b)` for two `MutableSet`s: a fresh union. -/
def opOr (h : Heap) (a b : Nat) : Except Err (Nat × Heap) :=
  match hget h a, hget h b with
  | some (.setNode xs), some (.setNode ys) => .ok (alloc h (.setNode (setUnion xs ys)))
  | _, _ => .error .otherError

/-- `operator.ior(a, b)` for two `MutableSet`s: union `b` into `a` in
place and return `a`. -/
def opIor (h : Heap) (a b : Nat) : Except Err (Nat × Heap) :=
  match hget h a, hget h b with
  | some (.setNode xs), some (.setNode ys) => .ok (a, hset h a (.setNode (setUnion xs ys)))
  | _, _ => .error .otherError

/-! ### `add` — the copy-producing combine (src/accumulate.py:25-59) -/

/-- First loop of `add`'s mapping branch (`for key in a: ...`),
parameterised by the recursive combine and the deep copier; `out` is
the freshly built output mapping. -/
def addEntriesAGo (rec : Heap → Nat → Nat → Option (Except Err (Nat × Heap)))
    (cp : Heap → Nat → Option (Nat × Heap)) :
    Heap → Nat → List (String × Nat) → List (String × Nat) →
    Option (Except Err Heap)
  | h, _, [], _ => some (.ok h)
  | h, out, (k, av) :: rest, eb =>
    match lookupEnt eb k with
    | some bv =>
      -- key in rhs: out[key] = add(a[key], b[key])
      match rec h av bv with
      | some (.ok (r, h')) => addEntriesAGo rec cp (outAssign h' out k r) out rest eb
      | some (.error e) => some (.error e)
      | none => none
    | none =>
      -- out[key] = copy.deepcopy(a[key])
      match cp h av with
      | some (c, h') => addEntriesAGo rec cp (outAssign h' out k c) out rest eb
      | none => none

/-- Second loop of `add`'s mapping branch (`for key in b: if key not
in lhs: ...`), over `b`'s novel entries. -/
def addEntriesBGo (cp : Heap → Nat → Option (Nat × Heap)) :
    Heap → Nat → List (String × Nat) → Option Heap
  | h, _, [] => some h
  | h, out, (k, bv) :: rest =>
    match cp h bv with
    | some (c, h') => addEntriesBGo cp (outAssign h' out k c) out rest
    | none => none

/-- Model of `add` (src/accumulate.py:25): combine two accumulatables
without altering the inputs.  Dispatch follows the source's
`isinstance` chain: both `Addable` first, then both `MutableSet`, then
both `MutableMapping`; anything else raises the incompatible-type
`ValueError`.  In the mapping branch the output shell's runtime type
follows `copy.copy(a)`/`copy.copy(b)` + `clear()`. -/
def add : Nat → Heap → Nat → Nat → Option (Except Err (Nat × Heap))
  | 0, _, _, _ => none
  | fuel + 1, h, a, b =>
    match hget h a, hget h b with
    | some na, some nb =>
      if isAddable na && isAddable nb then some (opAdd h a b)
      else if isMutableSet na && isMutableSet nb then some (opOr h a b)
      else if isMutableMapping na && isMutableMapping nb then
        match na, nb with
        | .mapNode ta ea, .mapNode tb eb =>
          if tb.isInst ta || ta.isInst tb then
            let outTy := if tb.isInst ta then ta else tb
            let (out, h1) := alloc h (.mapNode outTy [])
            match addEntriesAGo (add fuel) (deepcopy fuel) h1 out ea eb with
            | some (.ok h2) =>
              match addEntriesBGo (deepcopy fuel) h2 out
                  (eb.filter (fun p => !(hasKey ea p.1))) with
              | some h3 => some (.ok (out, h3))
              | none => none
            | some (.error e) => some (.error e)
            | none => none
          else some (.error (.typeIncompatible (typeName na) (typeName nb)))
        | _, _ => some (.error .otherError)
      else some (.error (.typeIncompatible (typeName na) (typeName nb)))
    | _, _ => none

/-! ### `iadd` — the in-place combine (src/accumulate.py:62-84) -/

/-- First loop of `iadd`'s mapping branch (`for key in a: if key in
rhs: a[key] = iadd(a[key], b[key])`).  `ks` is the snapshot of `a`'s
keys, `rhs` the snapshot of `b`'s key set; values are looked up live
on the current heap. -/
def iaddEntriesAGo (rec : Heap → Nat → Nat → Option (Except Err (Nat × Heap))) :
    Heap → Nat → Nat → List String → List String →
    Option (Except Err Heap)
  | h, _, _, [], _ => some (.ok h)
  | h, a, b, k :: ks, rhs =>
    if rhs.contains k then
      match hget h a, hget h b with
      | some (.mapNode _ ea), some (.mapNode _ eb) =>
        match lookupEnt ea k, lookupEnt eb k with
        | some av, some bv =>
          match rec h av bv with
          | some (.ok (r, h')) => iaddEntriesAGo rec (outAssign h' a k r) a b ks rhs
          | some (.error e) => some (.error e)
          | none => none
        | _, _ => some (.error .otherError)
      | _, _ => some (.error .otherError)
    else iaddEntriesAGo rec h a b ks rhs

/-- Second loop of `iadd`'s mapping branch (`for key in b: if key not
in lhs: a[key] = copy.deepcopy(b[key])`), over `b`'s novel entries. -/
def iaddEntriesBGo (cp : Heap → Nat → Option (Nat × Heap)) :
    Heap → Nat → List (String × Nat) → Option Heap
  | h, _, [] => some h
  | h, a, (k, bv) :: rest =>
    match cp h bv with
    | some (c, h') => iaddEntriesBGo cp (outAssign h' a k c) a rest
    | none => none

/-- Model of `iadd` (src/accumulate.py:62): combine two accumulatables
assuming the first is mutable.  Same dispatch chain as `add`, but the
mapping branch requires `isinstance(b, type(a))` only, mutates `a` in
place and returns it. -/
def iadd : Nat → Heap → Nat → Nat → Option (Except Err (Nat × Heap))
  | 0, _, _, _ => none
  | fuel + 1, h, a, b =>
    match hget h a, hget h b with
    | some na, some nb =>
      if isAddable na && isAddable nb then some (opIadd h a b)
      else if isMutableSet na && isMutableSet nb then some (opIor h a b)
      else if isMutableMapping na && isMutableMapping nb then
        match na, nb with
        | .mapNode ta ea, .mapNode tb eb =>
          if tb.isInst ta then
            match iaddEntriesAGo (iadd fuel) h a b (ea.map Prod.fst)
                (eb.map Prod.fst) with
            | some (.ok h2) =>
              match iaddEntriesBGo (deepcopy fuel) h2 a
                  (eb.filter (fun p => !(hasKey ea p.1))) with
              | some h3 => some (.ok (a, h3))
              | none => none
            | some (.error e) => some (.error e)
            | none => none
          else some (.error (.typeIncompatible (typeName na) (typeName nb)))
        | _, _ => some (.error .otherError)
      else some (.error (.typeIncompatible (typeName na) (typeName nb)))
    | _, _ => none

/-! ### `accumulate` — the sequence reducer (src/accumulate.py:87-101) -/

/-- The `while True: accum = iadd(accum, next(gen))` loop. -/
def foldIadd (step : Heap → Nat → Nat → Option (Except Err (Nat × Heap))) :
    Heap → Nat → List Nat → Option (Except Err (Nat × Heap))
  | h, c, [] => some (.ok (c, h))
  | h, c, x :: rest =>
    match step h c x with
    | some (.ok (c', h')) => foldIadd step h' c' rest
    | some (.error e) => some (.error e)
    | none => none

/-- Model of `accumulate` (src/accumulate.py:87): reduce a sequence of
optional accumulatables.  `none` entries model Python `None` and are
filtered out; with no initial accumulator the first two items are
combined by copy-producing `add` and the rest folded in-place by
`iadd`; an empty filtered sequence returns the absent result. -/
def accumulate (fuel : Nat) (h : Heap) (items : List (Option Nat))
    (accum : Option Nat) : Option (Except Err (Option Nat × Heap)) :=
  let gen := items.filterMap id
  match accum with
  | some c =>
    match foldIadd (iadd fuel) h c gen with
    | some (.ok (c', h')) => some (.ok (some c', h'))
    | some (.error e) => some (.error e)
    | none => none
  | none =>
    match gen with
    | [] => some (.ok (none, h))
    | [x] => some (.ok (some x, h))
    | x :: y :: rest =>
      match add fuel h x y with
      | some (.ok (c, h')) =>
        match foldIadd (iadd fuel) h' c rest with
        | some (.ok (c', h'')) => some (.ok (some c', h''))
        | some (.error e) => some (.error e)
        | none => none
      | some (.error e) => some (.error e)
      | none => none

/-! ### Pure mirror

The same algorithms on deep values, with fuel consumed at exactly the
same points as the heap versions.  These serve as the specification
that the heap-level functions are proved to refine. -/

/-- Key lookup in a deep entry list. -/
def plookup (es : List (String × PVal)) (k : String) : Option PVal :=
  (es.find? (fun p => p.1 == k)).map (·.2)

/-- `isinstance(x, Addable)` on deep values. -/
def pureIsAddable : PVal → Bool
  | .vint _ => true
  | .vlist _ => true
  | .vmap .counterT _ => true
  | _ => false

/-- `isinstance(x, MutableSet)` on deep values. -/
def pureIsSet : PVal → Bool
  | .vset _ => true
  | _ => false

/-- `isinstance(x, MutableMapping)` on deep values. -/
def pureIsMap : PVal → Bool
  | .vmap _ _ => true
  | _ => false

/-- Whether `deepcopy` succeeds with the given fuel on a value of this
shape (the copy itself is the identity on deep values). -/
def pureCopyOk : Nat → PVal → Bool
  | 0, _ => false
  | fuel + 1, .vmap _ es => es.all (fun p => pureCopyOk fuel p.2)
  | _ + 1, _ => true

/-- Pure mirror of `counterAddA`. -/
def pureCounterA : List (String × PVal) → List (String × PVal) →
    Except Err (List (String × PVal))
  | [], _ => .ok []
  | (k, x) :: rest, eb =>
    match plookup eb k with
    | some y =>
      match x, y with
      | .vint m, .vint n =>
        match pureCounterA rest eb with
        | .ok cs => .ok ((k, .vint (m + n)) :: cs)
        | .error e => .error e
      | _, _ => .error .otherError
    | none =>
      match pureCounterA rest eb with
      | .ok cs => .ok ((k, x) :: cs)
      | .error e => .error e

/-- Pure mirror of `operator.add`/`operator.iadd` on `Addable`s (the
produced deep values coincide; they differ only in identity). -/
def pureOpAdd : PVal → PVal → Except Err PVal
  | .vint m, .vint n => .ok (.vint (m + n))
  | .vlist xs, .vlist ys => .ok (.vlist (xs ++ ys))
  | .vmap .counterT ea, .vmap .counterT eb =>
    match pureCounterA ea eb with
    | .ok cs => .ok (.vmap .counterT (cs ++ eb.filter (fun p => !(hasKey ea p.1))))
    | .error e => .error e
  | _, _ => .error .otherError

/-- Pure mirror of `addEntriesAGo`. -/
def pureEntriesAGo (rec : PVal → PVal → Option (Except Err PVal))
    (cpOk : PVal → Bool) :
    List (String × PVal) → List (String × PVal) →
    Option (Except Err (List (String × PVal)))
  | [], _ => some (.ok [])
  | (k, x) :: rest, eb =>
    match plookup eb k with
    | some y =>
      match rec x y with
      | some (.ok v) =>
        match pureEntriesAGo rec cpOk rest eb with
        | some (.ok cs) => some (.ok ((k, v) :: cs))
        | some (.error e) => some (.error e)
        | none => none
      | some (.error e) => some (.error e)
      | none => none
    | none =>
      if cpOk x then
        match pureEntriesAGo rec cpOk rest eb with
        | some (.ok cs) => some (.ok ((k, x) :: cs))
        | some (.error e) => some (.error e)
        | none => none
      else none

/-- Pure mirror of `add`. -/
def pureAdd : Nat → PVal → PVal → Option (Except Err PVal)
  | 0, _, _ => none
  | fuel + 1, va, vb =>
    if pureIsAddable va && pureIsAddable vb then some (pureOpAdd va vb)
    else if pureIsSet va && pureIsSet vb then
      match va, vb with
      | .vset xs, .vset ys => some (.ok (.vset (setUnion xs ys)))
      | _, _ => some (.error .otherError)
    else if pureIsMap va && pureIsMap vb then
      match va, vb with
      | .vmap ta ea, .vmap tb eb =>
        if tb.isInst ta || ta.isInst tb then
          let outTy := if tb.isInst ta then ta else tb
          let novel := eb.filter (fun p => !(hasKey ea p.1))
          match pureEntriesAGo (pureAdd fuel) (pureCopyOk fuel) ea eb with
          | some (.ok cs) =>
            if novel.all (fun p => pureCopyOk fuel p.2) then
              some (.ok (.vmap outTy (cs ++ novel)))
            else none
          | some (.error e) => some (.error e)
          | none => none
        else some (.error (.typeIncompatible (typeNameV va) (typeNameV vb)))
      | _, _ => some (.error .otherError)
    else some (.error (.typeIncompatible (typeNameV va) (typeNameV vb)))

/-- Pure mirror of `iaddEntriesAGo`: exclusive keys of `a` are left
untouched (no copy). -/
def pureIaddEntriesAGo (rec : PVal → PVal → Option (Except Err PVal)) :
    List (String × PVal) → List (String × PVal) →
    Option (Except Err (List (String × PVal)))
  | [], _ => some (.ok [])
  | (k, x) :: rest, eb =>
    match plookup eb k with
    | some y =>
      match rec x y with
      | some (.ok v) =>
        match pureIaddEntriesAGo rec rest eb with
        | some (.ok cs) => some (.ok ((k, v) :: cs))
        | some (.error e) => some (.error e)
        | none => none
      | some (.error e) => some (.error e)
      | none => none
    | none =>
      match pureIaddEntriesAGo rec rest eb with
      | some (.ok cs) => some (.ok ((k, x) :: cs))
      | some (.error e) => some (.error e)
      | none => none

/-- Pure mirror of `iadd`; in the mapping branch only
`isinstance(b, type(a))` is accepted and the result keeps `a`'s
runtime type. -/
def pureIadd : Nat → PVal → PVal → Option (Except Err PVal)
  | 0, _, _ => none
  | fuel + 1, va, vb =>
    if pureIsAddable va && pureIsAddable vb then some (pureOpAdd va vb)
    else if pureIsSet va && pureIsSet vb then
      match va, vb with
      | .vset xs, .vset ys => some (.ok (.vset (setUnion xs ys)))
      | _, _ => some (.error .otherError)
    else if pureIsMap va && pureIsMap vb then
      match va, vb with
      | .vmap ta ea, .vmap tb eb =>
        if tb.isInst ta then
          let novel := eb.filter (fun p => !(hasKey ea p.1))
          match pureIaddEntriesAGo (pureIadd fuel) ea eb with
          | some (.ok cs) =>
            if novel.all (fun p => pureCopyOk fuel p.2) then
              some (.ok (.vmap ta (cs ++ novel)))
            else none
          | some (.error e) => some (.error e)
          | none => none
        else some (.error (.typeIncompatible (typeNameV va) (typeNameV vb)))
      | _, _ => some (.error .otherError)
    else some (.error (.typeIncompatible (typeNameV va) (typeNameV vb)))

/-! ### Well-formedness and allocation of deep values -/

/-- Keys of an entry list are pairwise distinct (the dict invariant). -/
def keysNodup {α : Type} : List (String × α) → Bool
  | [] => true
  | (k, _) :: rest => !(hasKey rest k) && keysNodup rest

mutual
/-- Well-formed deep value: every nested mapping has distinct keys. -/
def wfV : PVal → Bool
  | .vint _ => true
  | .vlist _ => true
  | .vset _ => true
  | .vopq _ => true
  | .vmap _ es => keysNodup es && wfEntries es

/-- All entry values are well-formed. -/
def wfEntries : List (String × PVal) → Bool
  | [] => true
  | (_, v) :: rest => wfV v && wfEntries rest
end

mutual
/-- Materialise a deep value as a fresh tree of heap objects. -/
def allocVal : Heap → PVal → Nat × Heap
  | h, .vint n => alloc h (.intNode n)
  | h, .vlist xs => alloc h (.listNode xs)
  | h, .vset xs => alloc h (.setNode xs)
  | h, .vopq t => alloc h (.opqNode t)
  | h, .vmap ty es =>
    let (cs, h') := allocEntries h es
    alloc h' (.mapNode ty cs)

/-- Materialise each entry value in order. -/
def allocEntries : Heap → List (String × PVal) → List (String × Nat) × Heap
  | h, [] => ([], h)
  | h, (k, v) :: rest =>
    let (c, h') := allocVal h v
    let (cs, h'') := allocEntries h' rest
    ((k, c) :: cs, h'')
end

/-! ## Basic heap lemmas -/

theorem hget_lt_length {h : Heap} {i : Nat} {n : Node} (e : hget h i = some n) :
    i < h.length := by
  rw [hget, List.get?_eq_some] at e; exact e.1

theorem hget_ge_none {h : Heap} {i : Nat} (e : h.length ≤ i) : hget h i = none := by
  rw [hget, List.get?_eq_none]; exact e

theorem hget_append {h : Heap} {i : Nat} {n : Node} (e : hget h i = some n)
    (l : List Node) : hget (h ++ l) i = some n := by
  rw [hget, List.get?_append (hget_lt_length e)]; exact e

theorem hget_alloc_self (h : Heap) (n : Node) : hget (h ++ [n]) h.length = some n := by
  rw [hget]
  rw [List.get?_append_right (Nat.le_refl _)]
  simp

theorem hget_hset_ne (h : Heap) (j : Nat) (n : Node) {i : Nat} (ne : i ≠ j) :
    hget (hset h j n) i = hget h i := by
  rw [hget, hget, hset, List.get?_set_ne _ _ (fun e => ne e.symm)]

theorem hget_hset_self {h : Heap} {j : Nat} (n : Node) (lt : j < h.length) :
    hget (hset h j n) j = some n :=
  List.get?_set_eq_of_lt n lt

theorem length_hset (h : Heap) (j : Nat) (n : Node) :
    (hset h j n).length = h.length := by simp [hset]

/-- Heap extension: every existing object is unchanged (new objects
may have been allocated). -/
def Ext (h h' : Heap) : Prop :=
  ∀ i n, hget h i = some n → hget h' i = some n

theorem Ext.rfl {h : Heap} : Ext h h := fun _ _ e => e

theorem Ext.trans {h1 h2 h3 : Heap} (e1 : Ext h1 h2) (e2 : Ext h2 h3) :
    Ext h1 h3 := fun i n e => e2 i n (e1 i n e)

theorem ext_append (h : Heap) (l : List Node) : Ext h (h ++ l) :=
  fun _ _ e => hget_append e l

theorem ext_alloc (h : Heap) (n : Node) : Ext h (alloc h n).2 :=
  ext_append h [n]

/-- Writing at a fresh address (relative to `h`) preserves all of
`h`'s objects. -/
theorem ext_hset_fresh {h h' : Heap} (e : Ext h h') {j : Nat}
    (fresh : h.length ≤ j) (n : Node) : Ext h (hset h' j n) := by
  intro i m hi
  have : i ≠ j := fun eq => absurd (hget_lt_length hi) (by omega)
  rw [hget_hset_ne h' j n this]; exact e i m hi

theorem outAssign_ext {h h' : Heap} (e : Ext h h') {out : Nat}
    (fresh : h.length ≤ out) (k : String) (v : Nat) :
    Ext h (outAssign h' out k v) := by
  unfold outAssign
  match hget h' out with
  | some (.mapNode ty es) => exact ext_hset_fresh e fresh _
  | some (.intNode n) => exact e
  | some (.listNode xs) => exact e
  | some (.setNode xs) => exact e
  | some (.opqNode t) => exact e
  | none => exact e

theorem length_outAssign (h : Heap) (out : Nat) (k : String) (v : Nat) :
    h.length ≤ (outAssign h out k v).length := by
  unfold outAssign
  match hget h out with
  | some (.mapNode ty es) => rw [length_hset]
  | some (.intNode n) => exact Nat.le_refl _
  | some (.listNode xs) => exact Nat.le_refl _
  | some (.setNode xs) => exact Nat.le_refl _
  | some (.opqNode t) => exact Nat.le_refl _
  | none => exact Nat.le_refl _

/-! ## `readVal` lemmas -/

theorem readEntriesGo_congr {r1 r2 : Nat → Option PVal}
    (hr : ∀ x v, r1 x = some v → r2 x = some v) :
    ∀ {es : List (String × Nat)} {vs : List (String × PVal)},
      readEntriesGo r1 es = some vs → readEntriesGo r2 es = some vs := by
  intro es
  induction es with
  | nil => intro vs e; exact e
  | cons p rest ih =>
    intro vs e
    obtain ⟨k, x⟩ := p
    rw [readEntriesGo] at e ⊢
    match e1 : r1 x, e2 : readEntriesGo r1 rest with
    | some v, some vs' =>
      rw [e1, e2] at e
      rw [hr x v e1, ih e2]
      exact e
    | some v, none => rw [e1, e2] at e; exact absurd e (by simp)
    | none, _ => rw [e1] at e; exact absurd e (by simp)

theorem readVal_mono : ∀ {f f' : Nat} {h : Heap} {a : Nat} {v : PVal},
    readVal f h a = some v → f ≤ f' → readVal f' h a = some v := by
  intro f
  induction f with
  | zero => intro f' h a v e; exact absurd e (by simp [readVal])
  | succ f ih =>
    intro f' h a v e le
    obtain ⟨f'', rfl⟩ : ∃ f'', f' = f'' + 1 :=
      ⟨f' - 1, by omega⟩
    rw [readVal] at e ⊢
    match eg : hget h a with
    | some (.intNode n) => rw [eg] at e; exact e
    | some (.listNode xs) => rw [eg] at e; exact e
    | some (.setNode xs) => rw [eg] at e; exact e
    | some (.opqNode t) => rw [eg] at e; exact e
    | some (.mapNode ty es) =>
      rw [eg] at e
      have e' : Option.map (PVal.vmap ty) (readEntriesGo (readVal f h) es) = some v := e
      show Option.map (PVal.vmap ty) (readEntriesGo (readVal f'' h) es) = some v
      match e1 : readEntriesGo (readVal f h) es with
      | some vs =>
        rw [e1] at e'
        rw [readEntriesGo_congr (fun x v ex => ih ex (by omega)) e1]
        exact e'
      | none => rw [e1] at e'; exact absurd e' (by simp)
    | none => rw [eg] at e; exact absurd e (by simp)

theorem readVal_ext : ∀ {f : Nat} {h h' : Heap} (e : Ext h h') {a : Nat} {v : PVal},
    readVal f h a = some v → readVal f h' a = some v := by
  intro f
  induction f with
  | zero => intro h h' e a v ev; exact absurd ev (by simp [readVal])
  | succ f ih =>
    intro h h' e a v ev
    rw [readVal] at ev ⊢
    match eg : hget h a with
    | some (.intNode n) => rw [eg] at ev; rw [e _ _ eg]; exact ev
    | some (.listNode xs) => rw [eg] at ev; rw [e _ _ eg]; exact ev
    | some (.setNode xs) => rw [eg] at ev; rw [e _ _ eg]; exact ev
    | some (.opqNode t) => rw [eg] at ev; rw [e _ _ eg]; exact ev
    | some (.mapNode ty es) =>
      rw [eg] at ev; rw [e _ _ eg]
      have ev' : Option.map (PVal.vmap ty) (readEntriesGo (readVal f h) es) = some v := ev
      show Option.map (PVal.vmap ty) (readEntriesGo (readVal f h') es) = some v
      match e1 : readEntriesGo (readVal f h) es with
      | some vs =>
        rw [e1] at ev'
        rw [readEntriesGo_congr (fun x v ex => ih e ex) e1]
        exact ev'
      | none => rw [e1] at ev'; exact absurd ev' (by simp)
    | none => rw [eg] at ev; exact absurd ev (by simp)

theorem Reads.ext {h h' : Heap} (e : Ext h h') {a : Nat} {v : PVal}
    (r : Reads h a v) : Reads h' a v := by
  obtain ⟨f, ef⟩ := r; exact ⟨f, readVal_ext e ef⟩

theorem Reads.lt_length {h : Heap} {a : Nat} {v : PVal} (r : Reads h a v) :
    a < h.length := by
  obtain ⟨f, ef⟩ := r
  match f with
  | 0 => exact absurd ef (by simp [readVal])
  | f + 1 =>
    rw [readVal] at ef
    match eg : hget h a with
    | some n => exact hget_lt_length eg
    | none => rw [eg] at ef; exact absurd ef (by simp)

/-! ## Frame machinery

`add` writes only to its freshly allocated output mappings.  During
one mapping-branch fold all heap changes are either pure extensions or
rewrites of the single output address `out`; `ExtOut out` captures
that. -/

/-- The addresses a node refers to directly. -/
def nodeRefs : Node → List Nat
  | .mapNode _ es => es.map (·.2)
  | _ => []

/-- All objects except the one at `out` are preserved. -/
def ExtOut (out : Nat) (h h' : Heap) : Prop :=
  ∀ i n, i ≠ out → hget h i = some n → hget h' i = some n

theorem ext_to_extOut {h h' : Heap} (e : Ext h h') (out : Nat) : ExtOut out h h' :=
  fun i n _ hi => e i n hi

theorem extOut_trans {out : Nat} {h1 h2 h3 : Heap} (e1 : ExtOut out h1 h2)
    (e2 : ExtOut out h2 h3) : ExtOut out h1 h3 :=
  fun i n ne hi => e2 i n ne (e1 i n ne hi)

theorem extOut_outAssign (h : Heap) (out : Nat) (k : String) (v : Nat) :
    ExtOut out h (outAssign h out k v) := by
  intro i n ne hi
  unfold outAssign
  match hget h out with
  | some (.mapNode ty es) => rw [hget_hset_ne h out _ ne]; exact hi
  | some (.intNode m) => exact hi
  | some (.listNode xs) => exact hi
  | some (.setNode xs) => exact hi
  | some (.opqNode t) => exact hi
  | none => exact hi

/-- Reading a value whose source heap predates `out` is unaffected by
rewrites of `out`. -/
theorem readVal_extOut : ∀ {f : Nat} {h h' : Heap} {out : Nat}
    (e : ExtOut out h h') (hout : h.length ≤ out) {a : Nat} {v : PVal},
    readVal f h a = some v → readVal f h' a = some v := by
  intro f
  induction f with
  | zero => intro h h' out e hout a v ev; exact absurd ev (by simp [readVal])
  | succ f ih =>
    intro h h' out e hout a v ev
    rw [readVal] at ev ⊢
    match eg : hget h a with
    | some (.intNode n) =>
      rw [eg] at ev; rw [e _ _ (by have := hget_lt_length eg; omega) eg]; exact ev
    | some (.listNode xs) =>
      rw [eg] at ev; rw [e _ _ (by have := hget_lt_length eg; omega) eg]; exact ev
    | some (.setNode xs) =>
      rw [eg] at ev; rw [e _ _ (by have := hget_lt_length eg; omega) eg]; exact ev
    | some (.opqNode t) =>
      rw [eg] at ev; rw [e _ _ (by have := hget_lt_length eg; omega) eg]; exact ev
    | some (.mapNode ty es) =>
      rw [eg] at ev; rw [e _ _ (by have := hget_lt_length eg; omega) eg]
      have ev' : Option.map (PVal.vmap ty) (readEntriesGo (readVal f h) es) = some v := ev
      show Option.map (PVal.vmap ty) (readEntriesGo (readVal f h') es) = some v
      match e1 : readEntriesGo (readVal f h) es with
      | some vs =>
        rw [e1] at ev'
        rw [readEntriesGo_congr (fun x v ex => ih e hout ex) e1]
        exact ev'
      | none => rw [e1] at ev'; exact absurd ev' (by simp)
    | none => rw [eg] at ev; exact absurd ev (by simp)

theorem reads_extOut {h h' : Heap} {out : Nat} (e : ExtOut out h h')
    (hout : h.length ≤ out) {a : Nat} {v : PVal} (r : Reads h a v) :
    Reads h' a v := by
  obtain ⟨f, ef⟩ := r; exact ⟨f, readVal_extOut e hout ef⟩

/-- The heap window `[n0, n1)` holds a self-contained cluster of
objects: every node in it refers only into the window. -/
def WindowClosed (n0 n1 : Nat) (h : Heap) : Prop :=
  ∀ i nd, n0 ≤ i → i < n1 → hget h i = some nd →
    ∀ j, j ∈ nodeRefs nd → n0 ≤ j ∧ j < n1

theorem windowClosed_empty {n0 : Nat} {h : Heap} : WindowClosed n0 n0 h :=
  fun _ _ le lt _ _ _ => absurd (Nat.lt_of_le_of_lt le lt) (Nat.lt_irrefl _)

/-- Two adjacent closed windows compose (the left one transported
along an extension). -/
theorem hget_lt_some {h : Heap} {i : Nat} (lt : i < h.length) :
    ∃ n, hget h i = some n := by
  rw [hget, List.get?_eq_get lt]; exact ⟨_, rfl⟩

theorem ext_agree_below {h h' : Heap} (e : Ext h h') {i : Nat}
    (lt : i < h.length) : hget h' i = hget h i := by
  obtain ⟨n, en⟩ := hget_lt_some lt
  rw [en]; exact e _ _ en

/-- Two adjacent closed windows compose (the left one transported
along an extension). -/
theorem windowClosed_compose {n0 n1 n2 : Nat} {h1 h2 : Heap}
    (w1 : WindowClosed n0 n1 h1) (e : Ext h1 h2) (bound : n1 ≤ h1.length)
    (w2 : WindowClosed n1 n2 h2) (le : n0 ≤ n1) (le2 : n1 ≤ n2) :
    WindowClosed n0 n2 h2 := by
  intro i nd hle hlt hg j hj
  rcases Nat.lt_or_ge i n1 with lt1 | ge1
  · have hi1 : hget h1 i = some nd := by
      rw [ext_agree_below e (by omega)] at hg; exact hg
    have := w1 i nd hle lt1 hi1 j hj
    omega
  · have := w2 i nd ge1 hlt hg j hj
    omega

theorem reachEntriesGo_mem {rec : Nat → List Nat} :
    ∀ {es : List (String × Nat)} {i : Nat},
      i ∈ reachEntriesGo rec es → ∃ p, p ∈ es ∧ i ∈ rec p.2 := by
  intro es
  induction es with
  | nil => intro i hi; exact absurd hi (by simp [reachEntriesGo])
  | cons p rest ih =>
    intro i hi
    obtain ⟨k, x⟩ := p
    simp only [reachEntriesGo] at hi
    rcases List.mem_append.mp hi with hx | hrest
    · exact ⟨(k, x), by simp, hx⟩
    · obtain ⟨q, hq, hiq⟩ := ih hrest
      exact ⟨q, by simp [hq], hiq⟩

/-- All addresses reachable from inside a closed window stay inside
it. -/
theorem windowClosed_reach {n0 n1 : Nat} {h : Heap} (w : WindowClosed n0 n1 h) :
    ∀ {g : Nat} {c : Nat}, n0 ≤ c → c < n1 →
      ∀ i, i ∈ reachAddrs g h c → n0 ≤ i ∧ i < n1 := by
  intro g
  induction g with
  | zero => intro c _ _ i hi; exact absurd hi (by simp [reachAddrs])
  | succ g ih =>
    intro c hc0 hc1 i hi
    rw [reachAddrs] at hi
    rcases List.mem_cons.mp hi with rfl | hi'
    · exact ⟨hc0, hc1⟩
    · match eg : hget h c with
      | some (.mapNode ty es) =>
        rw [eg] at hi'
        obtain ⟨p, hp, hip⟩ := reachEntriesGo_mem hi'
        have hxw := w c _ hc0 hc1 eg p.2 (List.mem_map_of_mem _ hp)
        exact ih hxw.1 hxw.2 i hip
      | some (.intNode n) => rw [eg] at hi'; exact absurd hi' (by simp)
      | some (.listNode xs) => rw [eg] at hi'; exact absurd hi' (by simp)
      | some (.setNode xs) => rw [eg] at hi'; exact absurd hi' (by simp)
      | some (.opqNode t) => rw [eg] at hi'; exact absurd hi' (by simp)
      | none => rw [eg] at hi'; exact absurd hi' (by simp)

/-- A closed window is untouched by heap changes that only rewrite
addresses outside it, so it stays closed and keeps its reach
containment. -/
theorem windowClosed_stable {n0 n1 : Nat} {h h' : Heap}
    (w : WindowClosed n0 n1 h)
    (agree : ∀ i, n0 ≤ i → i < n1 → hget h' i = hget h i) :
    WindowClosed n0 n1 h' := by
  intro i nd hle hlt hg j hj
  rw [agree i hle hlt] at hg
  exact w i nd hle hlt hg j hj

/-- Appending one node whose references point into the closed prefix
window extends the window by one. -/
theorem windowClosed_snoc {n0 : Nat} {h : Heap}
    (w : WindowClosed n0 h.length h) (nd : Node)
    (refs : ∀ j, j ∈ nodeRefs nd → n0 ≤ j ∧ j < h.length) :
    WindowClosed n0 (h.length + 1) (h ++ [nd]) := by
  intro i nd' hle hlt hg j hj
  rcases Nat.lt_or_ge i h.length with lt | ge
  · rw [ext_agree_below (ext_append h [nd]) lt] at hg
    have := w i nd' hle lt hg j hj
    omega
  · have : i = h.length := by omega
    subst this
    rw [hget_alloc_self h nd] at hg
    cases hg
    have := refs j hj
    omega

/-! ## Inversion and construction lemmas for `readVal` -/

/-- Pointwise correspondence between heap entries and deep entries. -/
def EntriesRead (h : Heap) (es : List (String × Nat))
    (vs : List (String × PVal)) : Prop :=
  List.Forall₂ (fun p q => p.1 = q.1 ∧ Reads h p.2 q.2) es vs

theorem entriesRead_ext {h h' : Heap} (e : Ext h h') {es vs}
    (er : EntriesRead h es vs) : EntriesRead h' es vs :=
  List.Forall₂.imp (fun _ _ hpq => ⟨hpq.1, hpq.2.ext e⟩) er

theorem entriesRead_extOut {h h' : Heap} {out : Nat} (e : ExtOut out h h')
    (hout : h.length ≤ out) {es vs} (er : EntriesRead h es vs) :
    EntriesRead h' es vs :=
  List.Forall₂.imp (fun _ _ hpq => ⟨hpq.1, reads_extOut e hout hpq.2⟩) er

theorem readEntriesGo_inv {F : Nat} {h : Heap} :
    ∀ {es : List (String × Nat)} {vs : List (String × PVal)},
      readEntriesGo (readVal F h) es = some vs → EntriesRead h es vs := by
  intro es
  induction es with
  | nil =>
    intro vs e
    rw [readEntriesGo] at e
    cases e
    exact List.Forall₂.nil
  | cons p rest ih =>
    intro vs e
    obtain ⟨k, x⟩ := p
    rw [readEntriesGo] at e
    match e1 : readVal F h x, e2 : readEntriesGo (readVal F h) rest with
    | some v, some vs' =>
      rw [e1, e2] at e
      cases e
      exact List.Forall₂.cons ⟨rfl, F, e1⟩ (ih e2)
    | some v, none => rw [e1, e2] at e; exact absurd e (by simp)
    | none, _ => rw [e1] at e; exact absurd e (by simp)

theorem readEntriesGo_of_entriesRead {h : Heap} :
    ∀ {es : List (String × Nat)} {vs : List (String × PVal)},
      EntriesRead h es vs → ∃ F, readEntriesGo (readVal F h) es = some vs := by
  intro es
  induction es with
  | nil =>
    intro vs er
    cases er
    exact ⟨0, rfl⟩
  | cons p rest ih =>
    intro vs er
    obtain ⟨k, x⟩ := p
    cases er with
    | cons hpq hrest =>
      obtain ⟨hk, F1, e1⟩ := hpq
      obtain ⟨F2, e2⟩ := ih hrest
      refine ⟨max F1 F2, ?_⟩
      rw [readEntriesGo, readVal_mono e1 (Nat.le_max_left _ _),
        readEntriesGo_congr (fun x v ex => readVal_mono ex (Nat.le_max_right F1 F2)) e2]
      cases hk
      rfl

theorem reads_intNode {h : Heap} {c : Nat} {n : Int}
    (eg : hget h c = some (.intNode n)) : Reads h c (.vint n) :=
  ⟨1, by rw [readVal, eg]⟩

theorem reads_listNode {h : Heap} {c : Nat} {xs : List Int}
    (eg : hget h c = some (.listNode xs)) : Reads h c (.vlist xs) :=
  ⟨1, by rw [readVal, eg]⟩

theorem reads_setNode {h : Heap} {c : Nat} {xs : List Int}
    (eg : hget h c = some (.setNode xs)) : Reads h c (.vset xs) :=
  ⟨1, by rw [readVal, eg]⟩

theorem reads_opqNode {h : Heap} {c : Nat} {t : Nat}
    (eg : hget h c = some (.opqNode t)) : Reads h c (.vopq t) :=
  ⟨1, by rw [readVal, eg]⟩

theorem reads_mapNode {h : Heap} {c : Nat} {ty : MapType}
    {cs : List (String × Nat)} {vs : List (String × PVal)}
    (eg : hget h c = some (.mapNode ty cs)) (er : EntriesRead h cs vs) :
    Reads h c (.vmap ty vs) := by
  obtain ⟨F, eF⟩ := readEntriesGo_of_entriesRead er
  exact ⟨F + 1, by rw [readVal, eg]; simp [eF]⟩

theorem reads_inv_intNode {h : Heap} {x : Nat} {v : PVal} {n : Int}
    (r : Reads h x v) (eg : hget h x = some (.intNode n)) : v = .vint n := by
  obtain ⟨F, eF⟩ := r
  match F with
  | 0 => exact absurd eF (by simp [readVal])
  | F + 1 => rw [readVal, eg] at eF; cases eF; rfl

theorem reads_inv_listNode {h : Heap} {x : Nat} {v : PVal} {xs : List Int}
    (r : Reads h x v) (eg : hget h x = some (.listNode xs)) : v = .vlist xs := by
  obtain ⟨F, eF⟩ := r
  match F with
  | 0 => exact absurd eF (by simp [readVal])
  | F + 1 => rw [readVal, eg] at eF; cases eF; rfl

theorem reads_inv_setNode {h : Heap} {x : Nat} {v : PVal} {xs : List Int}
    (r : Reads h x v) (eg : hget h x = some (.setNode xs)) : v = .vset xs := by
  obtain ⟨F, eF⟩ := r
  match F with
  | 0 => exact absurd eF (by simp [readVal])
  | F + 1 => rw [readVal, eg] at eF; cases eF; rfl

theorem reads_inv_opqNode {h : Heap} {x : Nat} {v : PVal} {t : Nat}
    (r : Reads h x v) (eg : hget h x = some (.opqNode t)) : v = .vopq t := by
  obtain ⟨F, eF⟩ := r
  match F with
  | 0 => exact absurd eF (by simp [readVal])
  | F + 1 => rw [readVal, eg] at eF; cases eF; rfl

theorem reads_inv_mapNode {h : Heap} {x : Nat} {v : PVal} {ty : MapType}
    {es : List (String × Nat)}
    (r : Reads h x v) (eg : hget h x = some (.mapNode ty es)) :
    ∃ vs, v = .vmap ty vs ∧ EntriesRead h es vs := by
  obtain ⟨F, eF⟩ := r
  match F with
  | 0 => exact absurd eF (by simp [readVal])
  | F + 1 =>
    rw [readVal, eg] at eF
    have eF' : Option.map (PVal.vmap ty) (readEntriesGo (readVal F h) es) = some v := eF
    match e1 : readEntriesGo (readVal F h) es with
    | some vs =>
      rw [e1] at eF'
      cases eF'
      exact ⟨vs, rfl, readEntriesGo_inv e1⟩
    | none => rw [e1] at eF'; exact absurd eF' (by simp)

theorem reads_inv_none {h : Heap} {x : Nat} {v : PVal}
    (r : Reads h x v) (eg : hget h x = none) : False := by
  obtain ⟨F, eF⟩ := r
  match F with
  | 0 => exact absurd eF (by simp [readVal])
  | F + 1 => rw [readVal, eg] at eF; exact absurd eF (by simp)

/-! ## `deepcopy` lemmas -/

/-- Structural properties of one copier call: the heap only grows, the
copy sits in the fresh window, and the window is closed. -/
def CopierProps (cp : Heap → Nat → Option (Nat × Heap)) : Prop :=
  ∀ {h : Heap} {x c : Nat} {h' : Heap}, cp h x = some (c, h') →
    Ext h h' ∧ h.length ≤ h'.length ∧ h.length ≤ c ∧ c < h'.length ∧
    WindowClosed h.length h'.length h'

theorem deepcopyEntriesGo_props {cp : Heap → Nat → Option (Nat × Heap)}
    (ih : CopierProps cp) :
    ∀ {es : List (String × Nat)} {h : Heap} {cs : List (String × Nat)} {h' : Heap},
      deepcopyEntriesGo cp h es = some (cs, h') →
      Ext h h' ∧ h.length ≤ h'.length ∧ WindowClosed h.length h'.length h' ∧
      ∀ p, p ∈ cs → h.length ≤ p.2 ∧ p.2 < h'.length := by
  intro es
  induction es with
  | nil =>
    intro h cs h' e
    rw [deepcopyEntriesGo] at e
    cases e
    exact ⟨Ext.rfl, Nat.le_refl _, windowClosed_empty, fun p hp => absurd hp (by simp)⟩
  | cons p rest ihes =>
    intro h cs h' e
    obtain ⟨k, x⟩ := p
    rw [deepcopyEntriesGo] at e
    match e1 : cp h x with
    | some (c1, h1) =>
      rw [e1] at e
      have e' : (match deepcopyEntriesGo cp h1 rest with
                 | some (cs2, h2) => some ((k, c1) :: cs2, h2)
                 | none => none) = some (cs, h') := e
      match e2 : deepcopyEntriesGo cp h1 rest with
      | some (cs2, h2) =>
        rw [e2] at e'
        cases e'
        obtain ⟨x1, l1, c1a, c1b, w1⟩ := ih e1
        obtain ⟨x2, l2, w2, bnd2⟩ := ihes e2
        refine ⟨x1.trans x2, by omega, ?_, ?_⟩
        · exact windowClosed_compose w1 x2 (Nat.le_refl _) w2 l1 l2
        · intro q hq
          rcases List.mem_cons.mp hq with rfl | hq'
          · exact ⟨c1a, by omega⟩
          · have := bnd2 q hq'
            omega
      | none => rw [e2] at e'; exact absurd e' (by simp)
    | none => rw [e1] at e; exact absurd e (by simp)

theorem deepcopy_props : ∀ {f : Nat}, CopierProps (deepcopy f) := by
  intro f
  induction f with
  | zero => intro h x c h' e; exact absurd e (by simp [deepcopy])
  | succ f ih =>
    intro h x c h' e
    rw [deepcopy] at e
    match eg : hget h x with
    | some (.intNode n) =>
      rw [eg] at e
      cases e
      refine ⟨ext_alloc h _, by simp [alloc], by simp [alloc], by simp [alloc], ?_⟩
      have hw := @windowClosed_snoc h.length h windowClosed_empty
        (.intNode n) (fun j hj => absurd hj (by simp [nodeRefs]))
      simpa [alloc] using hw
    | some (.listNode xs) =>
      rw [eg] at e
      cases e
      refine ⟨ext_alloc h _, by simp [alloc], by simp [alloc], by simp [alloc], ?_⟩
      have hw := @windowClosed_snoc h.length h windowClosed_empty
        (.listNode xs) (fun j hj => absurd hj (by simp [nodeRefs]))
      simpa [alloc] using hw
    | some (.setNode xs) =>
      rw [eg] at e
      cases e
      refine ⟨ext_alloc h _, by simp [alloc], by simp [alloc], by simp [alloc], ?_⟩
      have hw := @windowClosed_snoc h.length h windowClosed_empty
        (.setNode xs) (fun j hj => absurd hj (by simp [nodeRefs]))
      simpa [alloc] using hw
    | some (.opqNode t) =>
      rw [eg] at e
      cases e
      refine ⟨ext_alloc h _, by simp [alloc], by simp [alloc], by simp [alloc], ?_⟩
      have hw := @windowClosed_snoc h.length h windowClosed_empty
        (.opqNode t) (fun j hj => absurd hj (by simp [nodeRefs]))
      simpa [alloc] using hw
    | some (.mapNode ty es) =>
      rw [eg] at e
      have e' : (match deepcopyEntriesGo (deepcopy f) h es with
                 | some (cs, h2) => some (alloc h2 (.mapNode ty cs))
                 | none => none) = some (c, h') := e
      match e1 : deepcopyEntriesGo (deepcopy f) h es with
      | some (cs, h2) =>
        rw [e1] at e'
        simp only [alloc] at e'
        cases e'
        obtain ⟨x2, l2, w2, bnd2⟩ := deepcopyEntriesGo_props ih e1
        refine ⟨x2.trans (ext_append h2 _), by simp; omega, by omega, by simp, ?_⟩
        have refsb : ∀ j, j ∈ nodeRefs (.mapNode ty cs) → h.length ≤ j ∧ j < h2.length := by
          intro j hj
          simp only [nodeRefs, List.mem_map] at hj
          obtain ⟨q, hq, rfl⟩ := hj
          exact bnd2 q hq
        have hw := windowClosed_snoc w2 (.mapNode ty cs) refsb
        simpa using hw
      | none => rw [e1] at e'; exact absurd e' (by simp)
    | none => rw [eg] at e; exact absurd e (by simp)

/-- Simulation of `deepcopy` against `pureCopyOk`: with enough fuel
the copy exists and reads back as the same deep value; with too little
fuel the copier returns `none` (never an error). -/
theorem deepcopy_sim : ∀ {f : Nat} {h : Heap} {x : Nat} {v : PVal},
    Reads h x v →
    (pureCopyOk f v = false → deepcopy f h x = none) ∧
    (pureCopyOk f v = true → ∃ c h', deepcopy f h x = some (c, h') ∧ Reads h' c v) := by
  intro f
  induction f with
  | zero =>
    intro h x v r
    constructor
    · intro _; simp [deepcopy]
    · intro e; exact absurd e (by simp [pureCopyOk])
  | succ f ih =>
    intro h x v r
    match eg : hget h x with
    | some (.intNode n) =>
      cases reads_inv_intNode r eg
      constructor
      · intro e; exact absurd e (by simp [pureCopyOk])
      · intro _
        refine ⟨(alloc h (.intNode n)).1, (alloc h (.intNode n)).2, by rw [deepcopy, eg], ?_⟩
        exact reads_intNode (hget_alloc_self h _)
    | some (.listNode xs) =>
      cases reads_inv_listNode r eg
      constructor
      · intro e; exact absurd e (by simp [pureCopyOk])
      · intro _
        refine ⟨(alloc h (.listNode xs)).1, (alloc h (.listNode xs)).2, by rw [deepcopy, eg], ?_⟩
        exact reads_listNode (hget_alloc_self h _)
    | some (.setNode xs) =>
      cases reads_inv_setNode r eg
      constructor
      · intro e; exact absurd e (by simp [pureCopyOk])
      · intro _
        refine ⟨(alloc h (.setNode xs)).1, (alloc h (.setNode xs)).2, by rw [deepcopy, eg], ?_⟩
        exact reads_setNode (hget_alloc_self h _)
    | some (.opqNode t) =>
      cases reads_inv_opqNode r eg
      constructor
      · intro e; exact absurd e (by simp [pureCopyOk])
      · intro _
        refine ⟨(alloc h (.opqNode t)).1, (alloc h (.opqNode t)).2, by rw [deepcopy, eg], ?_⟩
        exact reads_opqNode (hget_alloc_self h _)
    | some (.mapNode ty es) =>
      obtain ⟨vs, rfl, er⟩ := reads_inv_mapNode r eg
      have key : ∀ {es' : List (String × Nat)} {vs' : List (String × PVal)} {h0 : Heap},
          EntriesRead h0 es' vs' →
          ((vs'.all fun p => pureCopyOk f p.2) = false →
            deepcopyEntriesGo (deepcopy f) h0 es' = none) ∧
          ((vs'.all fun p => pureCopyOk f p.2) = true →
            ∃ cs h2, deepcopyEntriesGo (deepcopy f) h0 es' = some (cs, h2) ∧
              Ext h0 h2 ∧ EntriesRead h2 cs vs') := by
        intro es'
        induction es' with
        | nil =>
          intro vs' h0 er0
          cases er0
          exact ⟨fun e => absurd e (by simp), fun _ =>
            ⟨[], h0, rfl, Ext.rfl, List.Forall₂.nil⟩⟩
        | cons p rest ihes =>
          intro vs' h0 er0
          obtain ⟨k, x0⟩ := p
          cases er0 with
          | cons hpq hrest =>
            rename_i q vrest
            obtain ⟨hk, rx⟩ := hpq
            rcases ec : pureCopyOk f q.2 with _ | _
            · -- head uncopyable with this fuel
              have hnone := (ih rx).1 ec
              constructor
              · intro _
                rw [deepcopyEntriesGo, hnone]
              · intro hall
                simp only [List.all_cons, ec, Bool.false_and] at hall
                exact absurd hall (by decide)
            · obtain ⟨c1, h1, e1, r1⟩ := (ih rx).2 ec
              obtain ⟨x1, l1, _, _, _⟩ := deepcopy_props e1
              have hrest1 : EntriesRead h1 rest vrest := entriesRead_ext x1 hrest
              have ihr := ihes hrest1
              rcases ea : (vrest.all fun p => pureCopyOk f p.2) with _ | _
              · have hnone := ihr.1 ea
                constructor
                · intro _
                  rw [deepcopyEntriesGo, e1]
                  show (match deepcopyEntriesGo (deepcopy f) h1 rest with
                        | some (cs, h'') => some ((k, c1) :: cs, h'')
                        | none => none) = none
                  rw [hnone]
                · intro hall
                  simp only [List.all_cons, ec, ea, Bool.true_and] at hall
                  exact absurd hall (by decide)
              · obtain ⟨cs2, h2, e2, x2, er2⟩ := ihr.2 ea
                constructor
                · intro hall
                  simp only [List.all_cons, ec, ea, Bool.true_and] at hall
                  exact absurd hall (by decide)
                · intro _
                  refine ⟨(k, c1) :: cs2, h2, ?_, x1.trans x2, ?_⟩
                  · rw [deepcopyEntriesGo, e1]
                    show (match deepcopyEntriesGo (deepcopy f) h1 rest with
                          | some (cs, h'') => some ((k, c1) :: cs, h'')
                          | none => none) = some ((k, c1) :: cs2, h2)
                    rw [e2]
                  · exact List.Forall₂.cons ⟨hk, r1.ext x2⟩ er2
      have hkey := key er
      constructor
      · intro hc
        rw [pureCopyOk] at hc
        have hnone := hkey.1 hc
        rw [deepcopy, eg]
        show (match deepcopyEntriesGo (deepcopy f) h es with
              | some (cs, h') => some (alloc h' (.mapNode ty cs))
              | none => none) = none
        rw [hnone]
      · intro hc
        rw [pureCopyOk] at hc
        obtain ⟨cs, h2, e2, x2, er2⟩ := hkey.2 hc
        refine ⟨(alloc h2 (.mapNode ty cs)).1, (alloc h2 (.mapNode ty cs)).2, ?_, ?_⟩
        · rw [deepcopy, eg]
          show (match deepcopyEntriesGo (deepcopy f) h es with
                | some (cs, h') => some (alloc h' (.mapNode ty cs))
                | none => none) = some (alloc h2 (.mapNode ty cs))
          rw [e2]
        · exact reads_mapNode (hget_alloc_self h2 _) (entriesRead_ext (ext_alloc h2 _) er2)
    | none => exact absurd (reads_inv_none r eg) (fun c => c)

/-! ## Reach-set lemmas -/

theorem self_mem_reachAddrs (h : Heap) (x : Nat) (g : Nat) :
    x ∈ reachAddrs (g + 1) h x := by
  rw [reachAddrs]; exact List.mem_cons_self _ _

theorem reach_subset_of_entry {h : Heap} {x : Nat} {ty : MapType}
    {es : List (String × Nat)} (eg : hget h x = some (.mapNode ty es))
    {p : String × Nat} (hp : p ∈ es) {g : Nat} {i : Nat}
    (hi : i ∈ reachAddrs g h p.2) : i ∈ reachAddrs (g + 1) h x := by
  rw [reachAddrs, eg]
  refine List.mem_cons_of_mem _ ?_
  clear eg
  induction es with
  | nil => exact absurd hp (by simp)
  | cons q rest ih =>
    simp only [reachEntriesGo]
    rcases List.mem_cons.mp hp with rfl | hp'
    · exact List.mem_append_left _ hi
    · exact List.mem_append_right _ (ih hp')

theorem reachEntriesGo_congr_mem {r1 r2 : Nat → List Nat} :
    ∀ {es : List (String × Nat)}, (∀ p, p ∈ es → r1 p.2 = r2 p.2) →
      reachEntriesGo r1 es = reachEntriesGo r2 es := by
  intro es
  induction es with
  | nil => intro _; rfl
  | cons p rest ih =>
    intro hr
    simp only [reachEntriesGo]
    rw [hr p (by simp), ih (fun q hq => hr q (by simp [hq]))]

theorem readEntriesGo_congr_mem {r1 r2 : Nat → Option PVal} :
    ∀ {es : List (String × Nat)} {vs : List (String × PVal)},
      (∀ p, p ∈ es → ∀ v, r1 p.2 = some v → r2 p.2 = some v) →
      readEntriesGo r1 es = some vs → readEntriesGo r2 es = some vs := by
  intro es
  induction es with
  | nil => intro vs _ e; exact e
  | cons p rest ih =>
    intro vs hr e
    obtain ⟨k, x⟩ := p
    rw [readEntriesGo] at e ⊢
    match e1 : r1 x, e2 : readEntriesGo r1 rest with
    | some v, some vs' =>
      rw [e1, e2] at e
      rw [hr (k, x) (by simp) v e1, ih (fun q hq => hr q (by simp [hq])) e2]
      exact e
    | some v, none => rw [e1, e2] at e; exact absurd e (by simp)
    | none, _ => rw [e1] at e; exact absurd e (by simp)

/-- If the heaps agree on every address reachable from `x`, the reach
sets from `x` coincide. -/
theorem reachAddrs_agree {h h' : Heap} :
    ∀ {g : Nat} {x : Nat},
      (∀ g' i, i ∈ reachAddrs g' h x → hget h' i = hget h i) →
      reachAddrs g h' x = reachAddrs g h x := by
  intro g
  induction g with
  | zero => intro x _; rfl
  | succ g ih =>
    intro x agr
    have hx : hget h' x = hget h x := agr 1 x (self_mem_reachAddrs h x 0)
    rw [reachAddrs, reachAddrs, hx]
    match eg : hget h x with
    | some (.mapNode ty es) =>
      have heq : reachEntriesGo (reachAddrs g h') es = reachEntriesGo (reachAddrs g h) es := by
        refine reachEntriesGo_congr_mem (fun p hp => ih ?_)
        intro g' i hi
        exact agr (g' + 1) i (reach_subset_of_entry eg hp hi)
      show x :: reachEntriesGo (reachAddrs g h') es = x :: reachEntriesGo (reachAddrs g h) es
      rw [heq]
    | some (.intNode n) => rfl
    | some (.listNode xs) => rfl
    | some (.setNode xs) => rfl
    | some (.opqNode t) => rfl
    | none => rfl

/-- If the heaps agree on every address reachable from `x`, the value
read from `x` is unchanged. -/
theorem readVal_reach_agree {h h' : Heap} :
    ∀ {F : Nat} {x : Nat} {v : PVal},
      (∀ g i, i ∈ reachAddrs g h x → hget h' i = hget h i) →
      readVal F h x = some v → readVal F h' x = some v := by
  intro F
  induction F with
  | zero => intro x v _ e; exact absurd e (by simp [readVal])
  | succ F ih =>
    intro x v agr e
    have hx : hget h' x = hget h x := agr 1 x (self_mem_reachAddrs h x 0)
    rw [readVal] at e ⊢
    rw [hx]
    match eg : hget h x with
    | some (.intNode n) => rw [eg] at e; exact e
    | some (.listNode xs) => rw [eg] at e; exact e
    | some (.setNode xs) => rw [eg] at e; exact e
    | some (.opqNode t) => rw [eg] at e; exact e
    | some (.mapNode ty es) =>
      rw [eg] at e
      have e' : Option.map (PVal.vmap ty) (readEntriesGo (readVal F h) es) = some v := e
      show Option.map (PVal.vmap ty) (readEntriesGo (readVal F h') es) = some v
      match e1 : readEntriesGo (readVal F h) es with
      | some vs =>
        rw [e1] at e'
        have : readEntriesGo (readVal F h') es = some vs := by
          refine readEntriesGo_congr_mem (fun p hp v' ev' => ih ?_ ev') e1
          intro g i hi
          exact agr (g + 1) i (reach_subset_of_entry eg hp hi)
        rw [this]
        exact e'
      | none => rw [e1] at e'; exact absurd e' (by simp)
    | none => rw [eg] at e; exact absurd e (by simp)

theorem forall2_mem_left {α β : Type} {R : α → β → Prop} :
    ∀ {l1 : List α} {l2 : List β}, List.Forall₂ R l1 l2 →
      ∀ {p : α}, p ∈ l1 → ∃ q, q ∈ l2 ∧ R p q := by
  intro l1
  induction l1 with
  | nil => intro l2 hf p hp; exact absurd hp (by simp)
  | cons a rest ih =>
    intro l2 hf p hp
    cases hf with
    | cons hab hrest =>
      rcases List.mem_cons.mp hp with rfl | hp'
      · exact ⟨_, by simp, hab⟩
      · obtain ⟨q, hq, hr⟩ := ih hrest hp'
        exact ⟨q, by simp [hq], hr⟩

/-- Every address reachable from a readable object is allocated. -/
theorem reads_reach_dom {h : Heap} :
    ∀ {g : Nat} {x : Nat} {v : PVal}, Reads h x v →
      ∀ i, i ∈ reachAddrs g h x → i < h.length := by
  intro g
  induction g with
  | zero => intro x v _ i hi; exact absurd hi (by simp [reachAddrs])
  | succ g ih =>
    intro x v r i hi
    rw [reachAddrs] at hi
    rcases List.mem_cons.mp hi with rfl | hi'
    · exact r.lt_length
    · match eg : hget h x with
      | some (.mapNode ty es) =>
        rw [eg] at hi'
        obtain ⟨p, hp, hip⟩ := reachEntriesGo_mem hi'
        obtain ⟨vs, _, er⟩ := reads_inv_mapNode r eg
        obtain ⟨q, _, _, rq⟩ := forall2_mem_left er hp
        exact ih rq i hip
      | some (.intNode n) => rw [eg] at hi'; exact absurd hi' (by simp)
      | some (.listNode xs) => rw [eg] at hi'; exact absurd hi' (by simp)
      | some (.setNode xs) => rw [eg] at hi'; exact absurd hi' (by simp)
      | some (.opqNode t) => rw [eg] at hi'; exact absurd hi' (by simp)
      | none => rw [eg] at hi'; exact absurd hi' (by simp)

/-- Every address reachable from `x` satisfies `P`. -/
def ReachIn (h : Heap) (x : Nat) (P : Nat → Prop) : Prop :=
  ∀ g i, i ∈ reachAddrs g h x → P i

theorem ReachIn.mono {h : Heap} {x : Nat} {P Q : Nat → Prop}
    (ri : ReachIn h x P) (imp : ∀ i, P i → Q i) : ReachIn h x Q :=
  fun g i hi => imp i (ri g i hi)

/-- Transport of `ReachIn` and `Reads` along a heap change that agrees
on the reach set. -/
theorem ReachIn.agree {h h' : Heap} {x : Nat} {P : Nat → Prop}
    (ri : ReachIn h x P)
    (agr : ∀ g i, i ∈ reachAddrs g h x → hget h' i = hget h i) :
    ReachIn h' x P := by
  intro g i hi
  rw [reachAddrs_agree agr] at hi
  exact ri g i hi

theorem Reads.reach_agree {h h' : Heap} {x : Nat} {v : PVal}
    (r : Reads h x v)
    (agr : ∀ g i, i ∈ reachAddrs g h x → hget h' i = hget h i) :
    Reads h' x v := by
  obtain ⟨F, eF⟩ := r
  exact ⟨F, readVal_reach_agree agr eF⟩

/-! ## Key and lookup correspondence -/

theorem entriesRead_keys {h : Heap} :
    ∀ {es : List (String × Nat)} {vs : List (String × PVal)},
      EntriesRead h es vs → es.map Prod.fst = vs.map Prod.fst := by
  intro es
  induction es with
  | nil => intro vs er; cases er; rfl
  | cons p rest ih =>
    intro vs er
    cases er with
    | cons hpq hrest =>
      simp only [List.map_cons]
      rw [hpq.1, ih hrest]

theorem hasKey_congr {α β : Type} :
    ∀ {es : List (String × α)} {vs : List (String × β)},
      es.map Prod.fst = vs.map Prod.fst → ∀ k, hasKey es k = hasKey vs k := by
  intro es
  induction es with
  | nil =>
    intro vs hk k
    cases vs with
    | nil => rfl
    | cons q vrest => exact absurd hk (by simp)
  | cons p rest ih =>
    intro vs hk k
    cases vs with
    | nil => exact absurd hk (by simp)
    | cons q vrest =>
      simp only [List.map_cons, List.cons.injEq] at hk
      simp only [hasKey, List.any_cons]
      rw [hk.1]
      have hrec := ih hk.2 k
      simp only [hasKey] at hrec
      rw [hrec]

theorem entriesRead_lookup {h : Heap} :
    ∀ {es : List (String × Nat)} {vs : List (String × PVal)},
      EntriesRead h es vs → ∀ k,
      (lookupEnt es k = none → plookup vs k = none) ∧
      (∀ y, lookupEnt es k = some y → ∃ vy, plookup vs k = some vy ∧ Reads h y vy) := by
  intro es
  induction es with
  | nil =>
    intro vs er k
    cases er
    exact ⟨fun _ => rfl, fun y hy => absurd hy (by simp [lookupEnt])⟩
  | cons p rest ih =>
    intro vs er k
    obtain ⟨kp, x⟩ := p
    cases er with
    | cons hpq hrest =>
      rename_i q vrest
      obtain ⟨hk, rx⟩ := hpq
      obtain ⟨kq, vq⟩ := q
      simp only at hk
      subst hk
      rcases ek : (kp == k) with _ | _
      · constructor
        · intro hnone
          rw [lookupEnt] at hnone
          rw [plookup]
          simp only [List.find?, ek] at hnone ⊢
          exact (ih hrest k).1 hnone
        · intro y hy
          rw [lookupEnt] at hy
          rw [plookup]
          simp only [List.find?, ek] at hy ⊢
          exact (ih hrest k).2 y hy
      · constructor
        · intro hnone
          rw [lookupEnt] at hnone
          simp only [List.find?, ek] at hnone
          exact absurd hnone (by simp)
        · intro y hy
          rw [lookupEnt] at hy
          rw [plookup]
          simp only [List.find?, ek] at hy ⊢
          cases hy
          exact ⟨vq, by simp, rx⟩

theorem entriesRead_filter_novel {h : Heap} {ea : List (String × Nat)}
    {pea : List (String × PVal)} (hk : ea.map Prod.fst = pea.map Prod.fst) :
    ∀ {eb : List (String × Nat)} {peb : List (String × PVal)},
      EntriesRead h eb peb →
      EntriesRead h (eb.filter (fun p => !(hasKey ea p.1)))
        (peb.filter (fun p => !(hasKey pea p.1))) := by
  intro eb
  induction eb with
  | nil => intro peb er; cases er; exact List.Forall₂.nil
  | cons p rest ih =>
    intro peb er
    cases er with
    | cons hpq hrest =>
      rename_i q vrest
      have hkeq : hasKey pea q.1 = hasKey ea p.1 := by
        rw [← hasKey_congr hk q.1, hpq.1]
      rcases hke : hasKey ea p.1 with _ | _
      · rw [hke] at hkeq
        rw [List.filter_cons_of_pos (by simp [hke]),
            List.filter_cons_of_pos (by simp [hkeq])]
        exact List.Forall₂.cons hpq (ih hrest)
      · rw [hke] at hkeq
        rw [List.filter_cons_of_neg (by simp [hke]),
            List.filter_cons_of_neg (by simp [hkeq])]
        exact ih hrest

/-! ## Well-formedness helpers -/

theorem wfV_map_elim {ty : MapType} {es : List (String × PVal)}
    (w : wfV (.vmap ty es) = true) :
    keysNodup es = true ∧ ∀ p, p ∈ es → wfV p.2 = true := by
  rw [wfV, Bool.and_eq_true] at w
  refine ⟨w.1, ?_⟩
  have we := w.2
  clear w
  induction es with
  | nil => intro p hp; exact absurd hp (by simp)
  | cons q rest ih =>
    intro p hp
    rw [wfEntries, Bool.and_eq_true] at we
    rcases List.mem_cons.mp hp with rfl | hp'
    · exact we.1
    · exact ih we.2 p hp'

theorem keysNodup_head {α : Type} {k : String} {x : α} {rest : List (String × α)}
    (w : keysNodup ((k, x) :: rest) = true) :
    hasKey rest k = false ∧ keysNodup rest = true := by
  rw [keysNodup, Bool.and_eq_true, Bool.not_eq_true'] at w
  exact w

theorem keysNodup_congr {α β : Type} :
    ∀ {es : List (String × α)} {vs : List (String × β)},
      es.map Prod.fst = vs.map Prod.fst → keysNodup es = keysNodup vs := by
  intro es
  induction es with
  | nil =>
    intro vs hk
    cases vs with
    | nil => rfl
    | cons q vrest => exact absurd hk (by simp)
  | cons p rest ih =>
    intro vs hk
    cases vs with
    | nil => exact absurd hk (by simp)
    | cons q vrest =>
      simp only [List.map_cons, List.cons.injEq] at hk
      obtain ⟨kp, x⟩ := p
      obtain ⟨kq, y⟩ := q
      simp only at hk
      rw [keysNodup, keysNodup, ih hk.2, hasKey_congr hk.2 kp, hk.1]

theorem hasKey_append {α : Type} (l1 l2 : List (String × α)) (k : String) :
    hasKey (l1 ++ l2) k = (hasKey l1 k || hasKey l2 k) := by
  simp [hasKey, List.any_append]

theorem hasKey_false_mem {α : Type} {rest : List (String × α)} {k : String}
    (hf : hasKey rest k = false) {p : String × α} (hp : p ∈ rest) :
    (p.1 == k) = false := by
  by_contra hc
  rw [Bool.not_eq_false] at hc
  have ht : hasKey rest k = true := by
    unfold hasKey
    rw [List.any_eq_true]
    exact ⟨p, hp, hc⟩
  rw [hf] at ht
  exact absurd ht (by decide)

theorem plookup_mem : ∀ {vs : List (String × PVal)} {k : String} {vy : PVal},
    plookup vs k = some vy → ∃ k', (k', vy) ∈ vs := by
  intro vs
  induction vs with
  | nil => intro k vy e; exact absurd e (by simp [plookup])
  | cons q vrest ih =>
    intro k vy e
    obtain ⟨kq, y⟩ := q
    rw [plookup] at e
    simp only [List.find?] at e
    rcases ek : (kq == k) with _ | _
    · rw [ek] at e
      obtain ⟨k', hk'⟩ := ih (k := k) (by rw [plookup]; exact e)
      exact ⟨k', by simp [hk']⟩
    · rw [ek] at e
      simp only [Option.map_some'] at e
      cases e
      exact ⟨kq, by simp⟩

/-- Reverse-direction node inversion: the deep value determines the
node constructor. -/
theorem reads_vint_node {h : Heap} {x : Nat} {n : Int}
    (r : Reads h x (.vint n)) : hget h x = some (.intNode n) := by
  match eg : hget h x with
  | some (.intNode m) => cases reads_inv_intNode r eg; rfl
  | some (.listNode xs) => cases reads_inv_listNode r eg
  | some (.setNode xs) => cases reads_inv_setNode r eg
  | some (.opqNode t) => cases reads_inv_opqNode r eg
  | some (.mapNode ty es) =>
    obtain ⟨vs, hv, _⟩ := reads_inv_mapNode r eg
    cases hv
  | none => cases reads_inv_none r eg

theorem reads_vlist_node {h : Heap} {x : Nat} {xs : List Int}
    (r : Reads h x (.vlist xs)) : hget h x = some (.listNode xs) := by
  match eg : hget h x with
  | some (.intNode m) => cases reads_inv_intNode r eg
  | some (.listNode ys) => cases reads_inv_listNode r eg; rfl
  | some (.setNode ys) => cases reads_inv_setNode r eg
  | some (.opqNode t) => cases reads_inv_opqNode r eg
  | some (.mapNode ty es) =>
    obtain ⟨vs, hv, _⟩ := reads_inv_mapNode r eg
    cases hv
  | none => cases reads_inv_none r eg

theorem reads_vset_node {h : Heap} {x : Nat} {xs : List Int}
    (r : Reads h x (.vset xs)) : hget h x = some (.setNode xs) := by
  match eg : hget h x with
  | some (.intNode m) => cases reads_inv_intNode r eg
  | some (.listNode ys) => cases reads_inv_listNode r eg
  | some (.setNode ys) => cases reads_inv_setNode r eg; rfl
  | some (.opqNode t) => cases reads_inv_opqNode r eg
  | some (.mapNode ty es) =>
    obtain ⟨vs, hv, _⟩ := reads_inv_mapNode r eg
    cases hv
  | none => cases reads_inv_none r eg

theorem reads_vopq_node {h : Heap} {x : Nat} {t : Nat}
    (r : Reads h x (.vopq t)) : hget h x = some (.opqNode t) := by
  match eg : hget h x with
  | some (.intNode m) => cases reads_inv_intNode r eg
  | some (.listNode ys) => cases reads_inv_listNode r eg
  | some (.setNode ys) => cases reads_inv_setNode r eg
  | some (.opqNode u) => cases reads_inv_opqNode r eg; rfl
  | some (.mapNode ty es) =>
    obtain ⟨vs, hv, _⟩ := reads_inv_mapNode r eg
    cases hv
  | none => cases reads_inv_none r eg

theorem reads_vmap_node {h : Heap} {x : Nat} {ty : MapType} {vs : List (String × PVal)}
    (r : Reads h x (.vmap ty vs)) :
    ∃ es, hget h x = some (.mapNode ty es) ∧ EntriesRead h es vs := by
  match eg : hget h x with
  | some (.intNode m) => cases reads_inv_intNode r eg
  | some (.listNode ys) => cases reads_inv_listNode r eg
  | some (.setNode ys) => cases reads_inv_setNode r eg
  | some (.opqNode u) => cases reads_inv_opqNode r eg
  | some (.mapNode ty' es) =>
    obtain ⟨vs', hv, er⟩ := reads_inv_mapNode r eg
    cases hv
    exact ⟨es, rfl, er⟩
  | none => cases reads_inv_none r eg

/-- The reach of a node without references is itself. -/
theorem reach_eq_self {h : Heap} {x : Nat} {nd : Node}
    (eg : hget h x = some nd) (hnd : nodeRefs nd = []) :
    ∀ g i, i ∈ reachAddrs g h x → i = x := by
  intro g i hi
  match g with
  | 0 => exact absurd hi (by simp [reachAddrs])
  | g + 1 =>
    rw [reachAddrs, eg] at hi
    match nd with
    | .intNode n => simpa using hi
    | .listNode xs => simpa using hi
    | .setNode xs => simpa using hi
    | .opqNode t => simpa using hi
    | .mapNode ty es =>
      have : es = [] := by
        rw [nodeRefs] at hnd
        exact List.map_eq_nil.mp hnd
      subst this
      simpa [reachEntriesGo] using hi

/-- `ReachIn` for a mapping node from per-entry `ReachIn`s. -/
theorem reachIn_mapNode {h : Heap} {x : Nat} {ty : MapType}
    {es : List (String × Nat)} {P : Nat → Prop}
    (eg : hget h x = some (.mapNode ty es))
    (hes : ∀ p, p ∈ es → ReachIn h p.2 P) (hx : P x) : ReachIn h x P := by
  intro g i hi
  match g with
  | 0 => exact absurd hi (by simp [reachAddrs])
  | g + 1 =>
    rw [reachAddrs, eg] at hi
    rcases List.mem_cons.mp hi with rfl | hi'
    · exact hx
    · obtain ⟨p, hp, hip⟩ := reachEntriesGo_mem hi'
      exact hes p hp g i hip

/-! ## Transport of readings along the combine's heap effects -/

/-- Transport along a pure extension. -/
theorem transport_ext {h h' : Heap} (e : Ext h h') {x : Nat} {v : PVal}
    {P : Nat → Prop} (r : Reads h x v) (ri : ReachIn h x P) :
    Reads h' x v ∧ ReachIn h' x P := by
  have agr : ∀ g i, i ∈ reachAddrs g h x → hget h' i = hget h i := by
    intro g i hi
    exact ext_agree_below e (reads_reach_dom r i hi)
  exact ⟨r.reach_agree agr, ri.agree agr⟩

/-- Transport along any change that only rewrites `out`, for an object
whose reach avoids `out`. -/
theorem transport_extOut {out : Nat} {h h' : Heap} (e : ExtOut out h h')
    {x : Nat} {v : PVal} {P : Nat → Prop} (r : Reads h x v) (ri : ReachIn h x P)
    (hP : ∀ i, P i → i ≠ out) :
    Reads h' x v ∧ ReachIn h' x P := by
  have agr : ∀ g i, i ∈ reachAddrs g h x → hget h' i = hget h i := by
    intro g i hi
    obtain ⟨nd, en⟩ := hget_lt_some (reads_reach_dom r i hi)
    rw [en]
    exact e i nd (hP i (ri g i hi)) en
  exact ⟨r.reach_agree agr, ri.agree agr⟩

theorem windowClosed_extOut {n1 n2 out : Nat} {h h' : Heap}
    (w : WindowClosed n1 n2 h) (bnd : n2 ≤ h.length) (hout : out < n1)
    (e : ExtOut out h h') : WindowClosed n1 n2 h' := by
  refine windowClosed_stable w ?_
  intro i hle hlt
  obtain ⟨nd, en⟩ := hget_lt_some (show i < h.length by omega)
  rw [en]
  exact e i nd (by omega) en

/-! ## `outAssign` lemmas -/

theorem outAssign_hget_ne {h : Heap} {out : Nat} (k : String) (v : Nat)
    {i : Nat} (ne : i ≠ out) : hget (outAssign h out k v) i = hget h i := by
  unfold outAssign
  match hget h out with
  | some (.mapNode ty es) => exact hget_hset_ne h out _ ne
  | some (.intNode n) => rfl
  | some (.listNode xs) => rfl
  | some (.setNode xs) => rfl
  | some (.opqNode t) => rfl
  | none => rfl

theorem outAssign_append {h : Heap} {out : Nat} {ty : MapType}
    {acc : List (String × Nat)} (eg : hget h out = some (.mapNode ty acc))
    {k : String} (hk : hasKey acc k = false) (v : Nat) :
    hget (outAssign h out k v) out = some (.mapNode ty (acc ++ [(k, v)])) := by
  have hma : mapAssign acc k v = acc ++ [(k, v)] := by
    unfold mapAssign
    rw [hk]
    simp
  unfold outAssign
  rw [eg]
  show hget (hset h out (.mapNode ty (mapAssign acc k v))) out = _
  rw [hma]
  exact hget_hset_self _ (hget_lt_length eg)

theorem outAssign_length {h : Heap} (out : Nat) (k : String) (v : Nat) :
    (outAssign h out k v).length = h.length := by
  unfold outAssign
  match hget h out with
  | some (.mapNode ty es) => exact length_hset h out _
  | some (.intNode n) => rfl
  | some (.listNode xs) => rfl
  | some (.setNode xs) => rfl
  | some (.opqNode t) => rfl
  | none => rfl

/-- Transport along one `outAssign`. -/
theorem transport_outAssign {h : Heap} {out : Nat} (k : String) (c : Nat)
    {x : Nat} {v : PVal} {P : Nat → Prop} (r : Reads h x v) (ri : ReachIn h x P)
    (hP : ∀ i, P i → i ≠ out) :
    Reads (outAssign h out k c) x v ∧ ReachIn (outAssign h out k c) x P := by
  have agr : ∀ g i, i ∈ reachAddrs g h x → hget (outAssign h out k c) i = hget h i :=
    fun g i hi => outAssign_hget_ne k c (hP i (ri g i hi))
  exact ⟨r.reach_agree agr, ri.agree agr⟩

/-! ## Simulation of the delegated operators -/

theorem pureCounterA_cons_err {peb : List (String × PVal)} {k : String}
    {vy : PVal} (hplk : plookup peb k = some vy) (vx : PVal)
    {prest : List (String × PVal)}
    (hbad : ∀ m n, ¬(vx = .vint m ∧ vy = .vint n)) :
    pureCounterA ((k, vx) :: prest) peb = .error .otherError := by
  simp only [pureCounterA, hplk]
  cases vx <;> cases vy <;>
    first
    | rfl
    | exact absurd ⟨rfl, rfl⟩ (hbad _ _)

theorem counterAddA_cons_err {h : Heap} {eb : List (String × Nat)} {k : String}
    {x y : Nat} (hlk : lookupEnt eb k = some y) {ndx ndy : Node}
    (hx : hget h x = some ndx) (hy : hget h y = some ndy)
    {rest : List (String × Nat)}
    (hbad : ∀ m n, ¬(ndx = .intNode m ∧ ndy = .intNode n)) :
    counterAddA h ((k, x) :: rest) eb = .error .otherError := by
  simp only [counterAddA, hlk, hx, hy]
  cases ndx <;> cases ndy <;>
    first
    | rfl
    | exact absurd ⟨rfl, rfl⟩ (hbad _ _)

theorem counterAddA_sim :
    ∀ {ea : List (String × Nat)} {pea : List (String × PVal)} {h : Heap},
      EntriesRead h ea pea →
      ∀ {eb : List (String × Nat)} {peb : List (String × PVal)},
      EntriesRead h eb peb →
      match pureCounterA pea peb with
      | .error e => counterAddA h ea eb = .error e
      | .ok pcs => ∃ cs h', counterAddA h ea eb = .ok (cs, h') ∧ Ext h h' ∧
          h.length ≤ h'.length ∧ EntriesRead h' cs pcs ∧
          ∀ p, p ∈ cs →
            (h.length ≤ p.2 ∧ p.2 < h'.length ∧ ∃ m, hget h' p.2 = some (.intNode m)) ∨
            p ∈ ea := by
  intro ea
  induction ea with
  | nil =>
    intro pea h era eb peb erb
    cases era
    simp only [pureCounterA]
    exact ⟨[], h, rfl, Ext.rfl, Nat.le_refl _, List.Forall₂.nil,
      fun p hp => absurd hp (by simp)⟩
  | cons p rest ih =>
    intro pea h era eb peb erb
    obtain ⟨k, x⟩ := p
    cases era with
    | cons hpq hrest =>
      rename_i q prest
      obtain ⟨hk, rx⟩ := hpq
      obtain ⟨kq, vx⟩ := q
      simp only at hk
      subst hk
      have hlkc := entriesRead_lookup erb k
      match hlk : lookupEnt eb k with
      | some y =>
        obtain ⟨vy, hplk, ry⟩ := hlkc.2 y hlk
        by_cases hii : ∃ m n, vx = PVal.vint m ∧ vy = PVal.vint n
        · obtain ⟨m, n, rfl, rfl⟩ := hii
          have hx := reads_vint_node rx
          have hy := reads_vint_node ry
          have hhs : counterAddA h ((k, x) :: rest) eb =
              (match counterAddA (h ++ [Node.intNode (m + n)]) rest eb with
               | .ok (cs, h'') => .ok ((k, h.length) :: cs, h'')
               | .error e => .error e) := by
            simp only [counterAddA, hlk, hx, hy, alloc]
          have xal : Ext h (h ++ [Node.intNode (m + n)]) := ext_append h _
          have hrest' := entriesRead_ext xal hrest
          have erb' := entriesRead_ext xal erb
          have ihm := ih hrest' erb'
          match epc : pureCounterA prest peb with
          | .error e =>
            rw [epc] at ihm
            have hps : pureCounterA ((k, PVal.vint m) :: prest) peb = .error e := by
              simp only [pureCounterA, hplk, epc]
            rw [hps, hhs, ihm]
          | .ok pcs2 =>
            rw [epc] at ihm
            obtain ⟨cs2, h2, ecs, x2, l2, er2, mem2⟩ := ihm
            have hps : pureCounterA ((k, PVal.vint m) :: prest) peb =
                .ok ((k, PVal.vint (m + n)) :: pcs2) := by
              simp only [pureCounterA, hplk, epc]
            rw [hps]
            have hr0 : Reads (h ++ [Node.intNode (m + n)]) h.length (.vint (m + n)) :=
              reads_intNode (hget_alloc_self h _)
            refine ⟨(k, h.length) :: cs2, h2, by rw [hhs, ecs], xal.trans x2,
              by simp at l2 ⊢; omega, List.Forall₂.cons ⟨rfl, hr0.ext x2⟩ er2, ?_⟩
            intro p hp
            rcases List.mem_cons.mp hp with rfl | hp2
            · refine Or.inl ⟨Nat.le_refl _, ?_, m + n, ?_⟩
              · have : h.length < (h ++ [Node.intNode (m + n)]).length := by simp
                omega
              · exact x2 _ _ (hget_alloc_self h _)
            · rcases mem2 p hp2 with ⟨l1, l2', nd⟩ | hin
              · exact Or.inl ⟨by simp at l1; omega, l2', nd⟩
              · exact Or.inr (List.mem_cons_of_mem _ hin)
        · have hbadv : ∀ m n, ¬(vx = PVal.vint m ∧ vy = PVal.vint n) :=
            fun m n hmn => hii ⟨m, n, hmn⟩
          obtain ⟨ndx, hx⟩ := hget_lt_some rx.lt_length
          obtain ⟨ndy, hy⟩ := hget_lt_some ry.lt_length
          have hbadn : ∀ m n, ¬(ndx = Node.intNode m ∧ ndy = Node.intNode n) := by
            intro m n hmn
            obtain ⟨h1, h2⟩ := hmn
            subst h1; subst h2
            exact hbadv m n ⟨reads_inv_intNode rx hx, reads_inv_intNode ry hy⟩
          have hps := @pureCounterA_cons_err peb k vy hplk vx prest hbadv
          rw [hps]
          exact counterAddA_cons_err hlk hx hy hbadn
      | none =>
        have hplk := hlkc.1 hlk
        have hps : pureCounterA ((k, vx) :: prest) peb =
            (match pureCounterA prest peb with
             | .ok cs => .ok ((k, vx) :: cs)
             | .error e => .error e) := by
          simp only [pureCounterA, hplk]
        have hhs : counterAddA h ((k, x) :: rest) eb =
            (match counterAddA h rest eb with
             | .ok (cs, h'') => .ok ((k, x) :: cs, h'')
             | .error e => .error e) := by
          simp only [counterAddA, hlk]
        have ihm := ih hrest erb
        match epc : pureCounterA prest peb with
        | .error e =>
          rw [epc] at ihm
          rw [hps, epc, hhs, ihm]
        | .ok pcs2 =>
          rw [epc] at ihm
          obtain ⟨cs2, h2, ecs, x2, l2, er2, mem2⟩ := ihm
          rw [hps, epc]
          refine ⟨(k, x) :: cs2, h2, by rw [hhs, ecs], x2, l2,
            List.Forall₂.cons ⟨rfl, rx.ext x2⟩ er2, ?_⟩
          intro p hp
          rcases List.mem_cons.mp hp with rfl | hp2
          · exact Or.inr (by simp)
          · rcases mem2 p hp2 with hfresh | hin
            · exact Or.inl hfresh
            · exact Or.inr (List.mem_cons_of_mem _ hin)

theorem forall2_append {α β : Type} {R : α → β → Prop} :
    ∀ {l1 : List α} {l2 : List β} {l3 : List α} {l4 : List β},
      List.Forall₂ R l1 l2 → List.Forall₂ R l3 l4 →
      List.Forall₂ R (l1 ++ l3) (l2 ++ l4) := by
  intro l1
  induction l1 with
  | nil => intro l2 l3 l4 h12 h34; cases h12; exact h34
  | cons a rest ih =>
    intro l2 l3 l4 h12 h34
    cases h12 with
    | cons hab hrest => exact List.Forall₂.cons hab (ih hrest h34)

/-- One fresh allocation: helper facts for the addable result. -/
theorem opAdd_fresh_case {h : Heap} {a b : Nat} (nd : Node)
    (hrefs : nodeRefs nd = []) {v : PVal}
    (hr : Reads (h ++ [nd]) h.length v) :
    ∃ r h', (Except.ok (alloc h nd) : Except Err (Nat × Heap)) = .ok (r, h') ∧ Ext h h' ∧
      h.length ≤ h'.length ∧ Reads h' r v ∧
      ReachIn h' r (fun i => InReach h a i ∨ InReach h b i ∨
        (h.length ≤ i ∧ i < h'.length)) := by
  refine ⟨h.length, h ++ [nd], rfl, ext_append h _, by simp, hr, ?_⟩
  intro g i hi
  have := reach_eq_self (hget_alloc_self h nd) hrefs g i hi
  subst this
  exact Or.inr (Or.inr ⟨Nat.le_refl _, by simp⟩)

theorem opAdd_sim {h : Heap} {a b : Nat} {va vb : PVal}
    (ra : Reads h a va) (rb : Reads h b vb)
    (hva : pureIsAddable va = true) (hvb : pureIsAddable vb = true) :
    match pureOpAdd va vb with
    | .error e => opAdd h a b = .error e
    | .ok v => ∃ r h', opAdd h a b = .ok (r, h') ∧ Ext h h' ∧
        h.length ≤ h'.length ∧ Reads h' r v ∧
        ReachIn h' r (fun i => InReach h a i ∨ InReach h b i ∨
          (h.length ≤ i ∧ i < h'.length)) := by
  cases va with
  | vset xs => exact absurd hva (by simp [pureIsAddable])
  | vopq t => exact absurd hva (by simp [pureIsAddable])
  | vint m =>
    have hx := reads_vint_node ra
    cases vb with
    | vset ys => exact absurd hvb (by simp [pureIsAddable])
    | vopq t => exact absurd hvb (by simp [pureIsAddable])
    | vint n =>
      have hy := reads_vint_node rb
      show ∃ r h', opAdd h a b = .ok (r, h') ∧ _
      have hh : opAdd h a b = .ok (alloc h (.intNode (m + n))) := by
        simp only [opAdd, hx, hy]
      rw [hh]
      exact opAdd_fresh_case (.intNode (m + n)) rfl (reads_intNode (hget_alloc_self h _))
    | vlist ys =>
      have hy := reads_vlist_node rb
      show opAdd h a b = .error .otherError
      simp only [opAdd, hx, hy]
    | vmap ty pev =>
      obtain ⟨eb', hy, _⟩ := reads_vmap_node rb
      cases ty with
      | counterT =>
        show opAdd h a b = .error .otherError
        simp only [opAdd, hx, hy]
      | dictT => exact absurd hvb (by simp [pureIsAddable])
      | subDictT => exact absurd hvb (by simp [pureIsAddable])
      | otherT => exact absurd hvb (by simp [pureIsAddable])
  | vlist xs =>
    have hx := reads_vlist_node ra
    cases vb with
    | vset ys => exact absurd hvb (by simp [pureIsAddable])
    | vopq t => exact absurd hvb (by simp [pureIsAddable])
    | vint n =>
      have hy := reads_vint_node rb
      show opAdd h a b = .error .otherError
      simp only [opAdd, hx, hy]
    | vlist ys =>
      have hy := reads_vlist_node rb
      show ∃ r h', opAdd h a b = .ok (r, h') ∧ _
      have hh : opAdd h a b = .ok (alloc h (.listNode (xs ++ ys))) := by
        simp only [opAdd, hx, hy]
      rw [hh]
      exact opAdd_fresh_case (.listNode (xs ++ ys)) rfl (reads_listNode (hget_alloc_self h _))
    | vmap ty pev =>
      obtain ⟨eb', hy, _⟩ := reads_vmap_node rb
      cases ty with
      | counterT =>
        show opAdd h a b = .error .otherError
        simp only [opAdd, hx, hy]
      | dictT => exact absurd hvb (by simp [pureIsAddable])
      | subDictT => exact absurd hvb (by simp [pureIsAddable])
      | otherT => exact absurd hvb (by simp [pureIsAddable])
  | vmap ty pea =>
    cases ty with
    | dictT => exact absurd hva (by simp [pureIsAddable])
    | subDictT => exact absurd hva (by simp [pureIsAddable])
    | otherT => exact absurd hva (by simp [pureIsAddable])
    | counterT =>
      obtain ⟨ea, hx, era⟩ := reads_vmap_node ra
      cases vb with
      | vset ys => exact absurd hvb (by simp [pureIsAddable])
      | vopq t => exact absurd hvb (by simp [pureIsAddable])
      | vint n =>
        have hy := reads_vint_node rb
        show opAdd h a b = .error .otherError
        simp only [opAdd, hx, hy]
      | vlist ys =>
        have hy := reads_vlist_node rb
        show opAdd h a b = .error .otherError
        simp only [opAdd, hx, hy]
      | vmap tyb peb =>
        obtain ⟨eb, hy, erb⟩ := reads_vmap_node rb
        cases tyb with
        | dictT => exact absurd hvb (by simp [pureIsAddable])
        | subDictT => exact absurd hvb (by simp [pureIsAddable])
        | otherT => exact absurd hvb (by simp [pureIsAddable])
        | counterT =>
          have sim := counterAddA_sim era erb
          match epc : pureCounterA pea peb with
          | .error e =>
            rw [epc] at sim
            have hps : pureOpAdd (.vmap .counterT pea) (.vmap .counterT peb) =
                .error e := by
              simp only [pureOpAdd, epc]
            rw [hps]
            simp only [opAdd, hx, hy, sim]
          | .ok pcs =>
            rw [epc] at sim
            obtain ⟨cs, h1, ecs, x1, l1, er1, mem1⟩ := sim
            have hps : pureOpAdd (.vmap .counterT pea) (.vmap .counterT peb) =
                .ok (.vmap .counterT
                  (pcs ++ peb.filter (fun p => !(hasKey pea p.1)))) := by
              simp only [pureOpAdd, epc]
            rw [hps]
            have hka := entriesRead_keys era
            have erf : EntriesRead h (eb.filter (fun p => !(hasKey ea p.1)))
                (peb.filter (fun p => !(hasKey pea p.1))) :=
              entriesRead_filter_novel hka erb
            have hh : opAdd h a b = .ok (alloc h1
                (.mapNode .counterT (cs ++ eb.filter (fun p => !(hasKey ea p.1))))) := by
              simp only [opAdd, hx, hy, ecs]
            set nd := Node.mapNode .counterT
              (cs ++ eb.filter (fun p => !(hasKey ea p.1))) with hnd
            have x2 : Ext h1 (h1 ++ [nd]) := ext_append h1 _
            have er2 : EntriesRead (h1 ++ [nd])
                (cs ++ eb.filter (fun p => !(hasKey ea p.1)))
                (pcs ++ peb.filter (fun p => !(hasKey pea p.1))) :=
              forall2_append (entriesRead_ext x2 er1) (entriesRead_ext x2 (entriesRead_ext x1 erf))
            refine ⟨h1.length, h1 ++ [nd], by rw [hh]; rfl, x1.trans x2,
              by simp at l1 ⊢; omega,
              reads_mapNode (hget_alloc_self h1 nd) er2, ?_⟩
            refine reachIn_mapNode (hget_alloc_self h1 nd) ?_
              (Or.inr (Or.inr ⟨by omega, by simp⟩))
            intro p hp
            rcases List.mem_append.mp hp with hpc | hpf
            · rcases mem1 p hpc with ⟨lf1, lf2, mm, ndint⟩ | hin
              · intro g i hi
                have hnode : hget (h1 ++ [nd]) p.2 = some (.intNode mm) :=
                  x2 _ _ ndint
                have := reach_eq_self hnode rfl g i hi
                subst this
                exact Or.inr (Or.inr ⟨lf1, by simp; omega⟩)
              · obtain ⟨q, _, _, rq⟩ := forall2_mem_left era hin
                have ri0 : ReachIn h p.2 (InReach h a) :=
                  fun g i hi => ⟨g + 1, reach_subset_of_entry hx hin hi⟩
                have t1 := transport_ext x1 rq ri0
                have t2 := transport_ext x2 t1.1 t1.2
                exact t2.2.mono (fun i hi => Or.inl hi)
            · have hpb : p ∈ eb := (List.mem_filter.mp hpf).1
              obtain ⟨q, _, _, rq⟩ := forall2_mem_left erb hpb
              have ri0 : ReachIn h p.2 (InReach h b) :=
                fun g i hi => ⟨g + 1, reach_subset_of_entry hy hpb hi⟩
              have t1 := transport_ext x1 rq ri0
              have t2 := transport_ext x2 t1.1 t1.2
              exact t2.2.mono (fun i hi => Or.inr (Or.inl hi))

theorem lookupEnt_mem : ∀ {es : List (String × Nat)} {k : String} {y : Nat},
    lookupEnt es k = some y → ∃ k', (k', y) ∈ es := by
  intro es
  induction es with
  | nil => intro k y e; exact absurd e (by simp [lookupEnt])
  | cons q rest ih =>
    intro k y e
    obtain ⟨kq, x⟩ := q
    rw [lookupEnt] at e
    simp only [List.find?] at e
    rcases ek : (kq == k) with _ | _
    · rw [ek] at e
      obtain ⟨k', hk'⟩ := ih (k := k) (by rw [lookupEnt]; exact e)
      exact ⟨k', by simp [hk']⟩
    · rw [ek] at e
      simp only [Option.map_some'] at e
      cases e
      exact ⟨kq, by simp⟩

/-- Transport a whole entry list with its per-entry `ReachIn`s, given
a transport for a single object. -/
theorem entriesRead_transport {h h' : Heap} {P : Nat → Prop}
    (T : ∀ x v, Reads h x v → ReachIn h x P → Reads h' x v ∧ ReachIn h' x P) :
    ∀ {es : List (String × Nat)} {vs : List (String × PVal)},
      EntriesRead h es vs → (∀ p, p ∈ es → ReachIn h p.2 P) →
      EntriesRead h' es vs ∧ ∀ p, p ∈ es → ReachIn h' p.2 P := by
  intro es
  induction es with
  | nil =>
    intro vs er _
    cases er
    exact ⟨List.Forall₂.nil, fun p hp => absurd hp (by simp)⟩
  | cons p rest ih =>
    intro vs er hri
    cases er with
    | cons hpq hrest =>
      have hd := T p.2 _ hpq.2 (hri p (by simp))
      have tl := ih hrest (fun q hq => hri q (by simp [hq]))
      refine ⟨List.Forall₂.cons ⟨hpq.1, hd.1⟩ tl.1, ?_⟩
      intro q hq
      rcases List.mem_cons.mp hq with rfl | hq'
      · exact hd.2
      · exact tl.2 q hq'

/-- The simulation property of `add` at a given fuel (established
below by induction on the fuel): with the heap operands reading as
well-formed deep values, `add` returns exactly what the pure mirror
returns, only allocating, and every address reachable from the result
is reachable from an input or fresh. -/
def AddSim (f : Nat) : Prop :=
  ∀ {h : Heap} {a b : Nat} {va vb : PVal}, Reads h a va → Reads h b vb →
    wfV va = true → wfV vb = true →
    match pureAdd f va vb with
    | none => add f h a b = none
    | some (.error e) => add f h a b = some (.error e)
    | some (.ok v) => ∃ r h', add f h a b = some (.ok (r, h')) ∧ Ext h h' ∧
        h.length ≤ h'.length ∧ Reads h' r v ∧
        ReachIn h' r (fun i => InReach h a i ∨ InReach h b i ∨
          (h.length ≤ i ∧ i < h'.length))

theorem addEntriesAGo_sim {f : Nat} (IH : AddSim f) {Pa Pb : Nat → Prop}
    {n0 out : Nat} (hP : ∀ i, Pa i ∨ Pb i → i < n0) (hn0 : n0 ≤ out)
    {eb : List (String × Nat)} {peb : List (String × PVal)}
    (hwb : ∀ q, q ∈ peb → wfV q.2 = true) :
    ∀ {es : List (String × Nat)} {pes : List (String × PVal)} {h : Heap}
      {acc : List (String × Nat)} {outTy : MapType},
      EntriesRead h es pes → EntriesRead h eb peb →
      (∀ p, p ∈ es → ReachIn h p.2 Pa) →
      (∀ p, p ∈ eb → ReachIn h p.2 Pb) →
      (∀ q, q ∈ pes → wfV q.2 = true) →
      keysNodup es = true →
      (∀ p, p ∈ es → hasKey acc p.1 = false) →
      out < h.length →
      hget h out = some (.mapNode outTy acc) →
      match pureEntriesAGo (pureAdd f) (pureCopyOk f) pes peb with
      | none => addEntriesAGo (add f) (deepcopy f) h out es eb = none
      | some (.error e) =>
          addEntriesAGo (add f) (deepcopy f) h out es eb = some (.error e)
      | some (.ok pcs) => ∃ h' newcs,
          addEntriesAGo (add f) (deepcopy f) h out es eb = some (.ok h') ∧
          ExtOut out h h' ∧ h.length ≤ h'.length ∧
          hget h' out = some (.mapNode outTy (acc ++ newcs)) ∧
          EntriesRead h' newcs pcs ∧
          newcs.map Prod.fst = es.map Prod.fst ∧
          (∀ p, p ∈ newcs → ReachIn h' p.2
            (fun i => Pa i ∨ Pb i ∨ (h.length ≤ i ∧ i < h'.length))) ∧
          EntriesRead h' eb peb ∧
          (∀ p, p ∈ eb → ReachIn h' p.2 Pb) ∧
          (∀ p, p ∈ newcs → lookupEnt eb p.1 = none →
            ∃ m1 m2, h.length ≤ m1 ∧ m1 ≤ p.2 ∧ p.2 < m2 ∧ m2 ≤ h'.length ∧
              WindowClosed m1 m2 h') := by
  intro es
  induction es with
  | nil =>
    intro pes h acc outTy era erb olda oldb hwa hnd hdisj hout houtnode
    cases era
    simp only [pureEntriesAGo]
    refine ⟨h, [], rfl, fun i n _ e => e, Nat.le_refl _, by simpa using houtnode,
      List.Forall₂.nil, rfl, fun p hp => absurd hp (by simp), erb, oldb,
      fun p hp => absurd hp (by simp)⟩
  | cons p rest ihes =>
    intro pes h acc outTy era erb olda oldb hwa hnd hdisj hout houtnode
    obtain ⟨k, x⟩ := p
    cases era with
    | cons hpq hrest =>
      rename_i q prest
      obtain ⟨hk, rx⟩ := hpq
      obtain ⟨kq, vx⟩ := q
      simp only at hk
      subst hk
      have hndh := keysNodup_head hnd
      have hlkc := entriesRead_lookup erb k
      have hQout : ∀ i, (fun i => Pa i ∨ Pb i ∨ (h.length ≤ i ∧ i < h.length + 0)) i → True :=
        fun _ _ => trivial
      match hlk : lookupEnt eb k with
      | some bv =>
        obtain ⟨vy, hplk, rby⟩ := hlkc.2 bv hlk
        have hwx : wfV vx = true := hwa (k, vx) (by simp)
        have hwy : wfV vy = true := by
          obtain ⟨k', hk'⟩ := plookup_mem hplk
          exact hwb (k', vy) hk'
        have ihm := IH rx rby hwx hwy
        match epa : pureAdd f vx vy with
        | none =>
          rw [epa] at ihm
          have hps : pureEntriesAGo (pureAdd f) (pureCopyOk f)
              ((k, vx) :: prest) peb = none := by
            simp only [pureEntriesAGo, hplk, epa]
          rw [hps]
          simp only [addEntriesAGo, hlk, ihm]
        | some (.error e) =>
          rw [epa] at ihm
          have hps : pureEntriesAGo (pureAdd f) (pureCopyOk f)
              ((k, vx) :: prest) peb = some (.error e) := by
            simp only [pureEntriesAGo, hplk, epa]
          rw [hps]
          simp only [addEntriesAGo, hlk, ihm]
        | some (.ok v) =>
          rw [epa] at ihm
          obtain ⟨r, h1, eadd, x1, l1, rr, rir⟩ := ihm
          -- attribute the result's old addresses to Pa/Pb
          have riQ : ReachIn h1 r
              (fun i => Pa i ∨ Pb i ∨ (h.length ≤ i ∧ i < h1.length)) := by
            refine rir.mono ?_
            intro i hi
            rcases hi with hx | hb | hf
            · obtain ⟨g, hg⟩ := hx
              exact Or.inl (olda (k, x) (by simp) g i hg)
            · obtain ⟨g, hg⟩ := hb
              obtain ⟨k', hk'⟩ := lookupEnt_mem hlk
              exact Or.inr (Or.inl (oldb (k', bv) hk' g i hg))
            · exact Or.inr (Or.inr hf)
          have hQne : ∀ i, (Pa i ∨ Pb i ∨ (h.length ≤ i ∧ i < h1.length)) → i ≠ out := by
            intro i hi
            rcases hi with hi | hi | hi
            · have := hP i (Or.inl hi); omega
            · have := hP i (Or.inr hi); omega
            · omega
          have hPane : ∀ i, Pa i → i ≠ out := by
            intro i hi; have := hP i (Or.inl hi); omega
          have hPbne : ∀ i, Pb i → i ≠ out := by
            intro i hi; have := hP i (Or.inr hi); omega
          -- step to h2 = outAssign
          have houtnode1 : hget h1 out = some (.mapNode outTy acc) :=
            x1 _ _ houtnode
          have hdk : hasKey acc k = false := hdisj (k, x) (by simp)
          have houtnode2 := outAssign_append houtnode1 hdk r
          have trest := entriesRead_transport (fun x' v' r' ri' => transport_ext x1 r' ri') hrest
            (fun p hp => olda p (by simp [hp]))
          have trest2 := entriesRead_transport
            (fun x' v' r' ri' => transport_outAssign k r r' ri' hPane) trest.1 trest.2
          have tb := entriesRead_transport (fun x' v' r' ri' => transport_ext x1 r' ri') erb oldb
          have tb2 := entriesRead_transport
            (fun x' v' r' ri' => transport_outAssign k r r' ri' hPbne) tb.1 tb.2
          have tr2 := transport_outAssign (h := h1) k r rr riQ hQne
          have hout2 : out < (outAssign h1 out k r).length := by
            rw [outAssign_length]; omega
          have hdisj2 : ∀ p, p ∈ rest → hasKey (acc ++ [(k, r)]) p.1 = false := by
            intro p hp
            rw [hasKey_append, hdisj p (by simp [hp]), Bool.false_or]
            have hne := hasKey_false_mem hndh.1 hp
            rw [hasKey]
            simp only [List.any_cons, List.any_nil, Bool.or_false]
            rw [beq_eq_false_iff_ne] at hne ⊢
            exact fun c => hne c.symm
          have ihr := ihes trest2.1 tb2.1 trest2.2 tb2.2
            (fun q hq => hwa q (by simp [hq])) hndh.2 hdisj2 hout2 houtnode2
          match epr : pureEntriesAGo (pureAdd f) (pureCopyOk f) prest peb with
          | none =>
            rw [epr] at ihr
            have hps : pureEntriesAGo (pureAdd f) (pureCopyOk f)
                ((k, vx) :: prest) peb = none := by
              simp only [pureEntriesAGo, hplk, epa, epr]
            rw [hps]
            simp only [addEntriesAGo, hlk, eadd, ihr]
          | some (.error e) =>
            rw [epr] at ihr
            have hps : pureEntriesAGo (pureAdd f) (pureCopyOk f)
                ((k, vx) :: prest) peb = some (.error e) := by
              simp only [pureEntriesAGo, hplk, epa, epr]
            rw [hps]
            simp only [addEntriesAGo, hlk, eadd, ihr]
          | some (.ok pcs2) =>
            rw [epr] at ihr
            obtain ⟨h', newcs2, erun, xo, lo, honode, ernew, hknew, rinew, erbf, ribf, hwin⟩ := ihr
            have hps : pureEntriesAGo (pureAdd f) (pureCopyOk f)
                ((k, vx) :: prest) peb = some (.ok ((k, v) :: pcs2)) := by
              simp only [pureEntriesAGo, hplk, epa, epr]
            rw [hps]
            have hhs : addEntriesAGo (add f) (deepcopy f) h out ((k, x) :: rest) eb =
                some (.ok h') := by
              simp only [addEntriesAGo, hlk, eadd, erun]
            have trfin := transport_extOut xo tr2.1 tr2.2 hQne
            refine ⟨h', (k, r) :: newcs2, hhs, ?_, ?_, ?_, ?_, ?_, ?_, erbf, ribf, ?_⟩
            · -- ExtOut out h h'
              intro i n ne hi
              have s1 : hget h1 i = some n := x1 i n hi
              have s2 : hget (outAssign h1 out k r) i = some n := by
                rw [outAssign_hget_ne k r ne]; exact s1
              exact xo i n ne s2
            · rw [outAssign_length] at lo; omega
            · rw [honode, List.append_assoc]; rfl
            · refine List.Forall₂.cons ⟨rfl, trfin.1⟩ ernew
            · simp [hknew]
            · intro p hp
              rcases List.mem_cons.mp hp with rfl | hp'
              · refine trfin.2.mono ?_
                intro i hi
                rcases hi with hi | hi | hi
                · exact Or.inl hi
                · exact Or.inr (Or.inl hi)
                · refine Or.inr (Or.inr ⟨hi.1, ?_⟩)
                  rw [outAssign_length] at lo
                  omega
              · refine (rinew p hp').mono ?_
                intro i hi
                rcases hi with hi | hi | hi
                · exact Or.inl hi
                · exact Or.inr (Or.inl hi)
                · refine Or.inr (Or.inr ⟨?_, hi.2⟩)
                  rw [outAssign_length] at hi
                  omega
            · intro p hp hnone
              rcases List.mem_cons.mp hp with rfl | hp'
              · rw [hlk] at hnone
                cases hnone
              · obtain ⟨m1, m2, hm1, hm2, hm3, hm4, hw⟩ := hwin p hp' hnone
                refine ⟨m1, m2, ?_, hm2, hm3, hm4, hw⟩
                rw [outAssign_length] at hm1
                omega
      | none =>
        have hplkn := hlkc.1 hlk
        have dsim := deepcopy_sim (f := f) rx
        match hcp : pureCopyOk f vx with
        | false =>
          have hdc := dsim.1 hcp
          have hps : pureEntriesAGo (pureAdd f) (pureCopyOk f)
              ((k, vx) :: prest) peb = none := by
            simp [pureEntriesAGo, hplkn, hcp]
          rw [hps]
          simp only [addEntriesAGo, hlk, hdc]
        | true =>
          obtain ⟨c, h1, ecp, rc⟩ := dsim.2 hcp
          obtain ⟨x1, l1, hc1, hc2, w1⟩ := deepcopy_props ecp
          have riC : ReachIn h1 c (fun i => h.length ≤ i ∧ i < h1.length) :=
            fun g i hi => windowClosed_reach w1 hc1 hc2 i hi
          have hCne : ∀ i, (h.length ≤ i ∧ i < h1.length) → i ≠ out := by
            intro i hi; omega
          have hPane : ∀ i, Pa i → i ≠ out := by
            intro i hi; have := hP i (Or.inl hi); omega
          have hPbne : ∀ i, Pb i → i ≠ out := by
            intro i hi; have := hP i (Or.inr hi); omega
          have houtnode1 : hget h1 out = some (.mapNode outTy acc) :=
            x1 _ _ houtnode
          have hdk : hasKey acc k = false := hdisj (k, x) (by simp)
          have houtnode2 := outAssign_append houtnode1 hdk c
          have trest := entriesRead_transport (fun x' v' r' ri' => transport_ext x1 r' ri') hrest
            (fun p hp => olda p (by simp [hp]))
          have trest2 := entriesRead_transport
            (fun x' v' r' ri' => transport_outAssign k c r' ri' hPane) trest.1 trest.2
          have tb := entriesRead_transport (fun x' v' r' ri' => transport_ext x1 r' ri') erb oldb
          have tb2 := entriesRead_transport
            (fun x' v' r' ri' => transport_outAssign k c r' ri' hPbne) tb.1 tb.2
          have tc2 := transport_outAssign (h := h1) k c rc riC hCne
          have w2 : WindowClosed h.length h1.length (outAssign h1 out k c) := by
            refine windowClosed_stable w1 ?_
            intro i hle hlt
            exact outAssign_hget_ne k c (by omega)
          have hout2 : out < (outAssign h1 out k c).length := by
            rw [outAssign_length]; omega
          have hdisj2 : ∀ p, p ∈ rest → hasKey (acc ++ [(k, c)]) p.1 = false := by
            intro p hp
            rw [hasKey_append, hdisj p (by simp [hp]), Bool.false_or]
            have hne := hasKey_false_mem hndh.1 hp
            rw [hasKey]
            simp only [List.any_cons, List.any_nil, Bool.or_false]
            rw [beq_eq_false_iff_ne] at hne ⊢
            exact fun cne => hne cne.symm
          have ihr := ihes trest2.1 tb2.1 trest2.2 tb2.2
            (fun q hq => hwa q (by simp [hq])) hndh.2 hdisj2 hout2 houtnode2
          match epr : pureEntriesAGo (pureAdd f) (pureCopyOk f) prest peb with
          | none =>
            rw [epr] at ihr
            have hps : pureEntriesAGo (pureAdd f) (pureCopyOk f)
                ((k, vx) :: prest) peb = none := by
              simp [pureEntriesAGo, hplkn, hcp, epr]
            rw [hps]
            simp only [addEntriesAGo, hlk, ecp, ihr]
          | some (.error e) =>
            rw [epr] at ihr
            have hps : pureEntriesAGo (pureAdd f) (pureCopyOk f)
                ((k, vx) :: prest) peb = some (.error e) := by
              simp [pureEntriesAGo, hplkn, hcp, epr]
            rw [hps]
            simp only [addEntriesAGo, hlk, ecp, ihr]
          | some (.ok pcs2) =>
            rw [epr] at ihr
            obtain ⟨h', newcs2, erun, xo, lo, honode, ernew, hknew, rinew, erbf, ribf, hwin⟩ := ihr
            have hps : pureEntriesAGo (pureAdd f) (pureCopyOk f)
                ((k, vx) :: prest) peb = some (.ok ((k, vx) :: pcs2)) := by
              simp [pureEntriesAGo, hplkn, hcp, epr]
            rw [hps]
            have hhs : addEntriesAGo (add f) (deepcopy f) h out ((k, x) :: rest) eb =
                some (.ok h') := by
              simp only [addEntriesAGo, hlk, ecp, erun]
            have trfin := transport_extOut xo tc2.1 tc2.2 hCne
            have wfin : WindowClosed h.length h1.length h' := by
              refine windowClosed_extOut w2 ?_ (by omega) xo
              rw [outAssign_length]
            refine ⟨h', (k, c) :: newcs2, hhs, ?_, ?_, ?_, ?_, ?_, ?_, erbf, ribf, ?_⟩
            · intro i n ne hi
              have s1 : hget h1 i = some n := x1 i n hi
              have s2 : hget (outAssign h1 out k c) i = some n := by
                rw [outAssign_hget_ne k c ne]; exact s1
              exact xo i n ne s2
            · rw [outAssign_length] at lo; omega
            · rw [honode, List.append_assoc]; rfl
            · exact List.Forall₂.cons ⟨rfl, trfin.1⟩ ernew
            · simp [hknew]
            · intro p hp
              rcases List.mem_cons.mp hp with rfl | hp'
              · refine trfin.2.mono ?_
                intro i hi
                refine Or.inr (Or.inr ⟨hi.1, ?_⟩)
                rw [outAssign_length] at lo
                omega
              · refine (rinew p hp').mono ?_
                intro i hi
                rcases hi with hi | hi | hi
                · exact Or.inl hi
                · exact Or.inr (Or.inl hi)
                · refine Or.inr (Or.inr ⟨?_, hi.2⟩)
                  rw [outAssign_length] at hi
                  omega
            · intro p hp hnone
              rcases List.mem_cons.mp hp with rfl | hp'
              · refine ⟨h.length, h1.length, Nat.le_refl _, hc1, hc2, ?_, wfin⟩
                rw [outAssign_length] at lo
                omega
              · obtain ⟨m1, m2, hm1, hm2, hm3, hm4, hw⟩ := hwin p hp' hnone
                refine ⟨m1, m2, ?_, hm2, hm3, hm4, hw⟩
                rw [outAssign_length] at hm1
                omega

theorem addEntriesBGo_sim {f : Nat} {Pb : Nat → Prop} {n0 out : Nat}
    (hP : ∀ i, Pb i → i < n0) (hn0 : n0 ≤ out) :
    ∀ {ebn : List (String × Nat)} {pebn : List (String × PVal)} {h : Heap}
      {acc : List (String × Nat)} {outTy : MapType},
      EntriesRead h ebn pebn →
      (∀ p, p ∈ ebn → ReachIn h p.2 Pb) →
      (∀ p, p ∈ ebn → hasKey acc p.1 = false) →
      keysNodup ebn = true →
      out < h.length →
      hget h out = some (.mapNode outTy acc) →
      ((pebn.all fun p => pureCopyOk f p.2) = false →
        addEntriesBGo (deepcopy f) h out ebn = none) ∧
      ((pebn.all fun p => pureCopyOk f p.2) = true → ∃ h' newcs,
        addEntriesBGo (deepcopy f) h out ebn = some h' ∧
        ExtOut out h h' ∧ h.length ≤ h'.length ∧
        hget h' out = some (.mapNode outTy (acc ++ newcs)) ∧
        EntriesRead h' newcs pebn ∧
        newcs.map Prod.fst = ebn.map Prod.fst ∧
        (∀ p, p ∈ newcs → ∃ m1 m2, h.length ≤ m1 ∧ m1 ≤ p.2 ∧ p.2 < m2 ∧
          m2 ≤ h'.length ∧ WindowClosed m1 m2 h')) := by
  intro ebn
  induction ebn with
  | nil =>
    intro pebn h acc outTy er ri hdisj hnd hout houtnode
    cases er
    constructor
    · intro hall
      exact absurd hall (by simp)
    · intro _
      exact ⟨h, [], rfl, fun i n _ e => e, Nat.le_refl _, by simpa using houtnode,
        List.Forall₂.nil, rfl, fun p hp => absurd hp (by simp)⟩
  | cons p rest ihes =>
    intro pebn h acc outTy er ri hdisj hnd hout houtnode
    obtain ⟨k, bv⟩ := p
    cases er with
    | cons hpq hrest =>
      rename_i q prest
      obtain ⟨hk, rbv⟩ := hpq
      obtain ⟨kq, vy⟩ := q
      simp only at hk
      subst hk
      have hndh := keysNodup_head hnd
      have dsim := deepcopy_sim (f := f) rbv
      match hcp : pureCopyOk f vy with
      | false =>
        have hdc := dsim.1 hcp
        constructor
        · intro _
          simp only [addEntriesBGo, hdc]
        · intro hall
          simp only [List.all_cons, hcp, Bool.false_and] at hall
          exact absurd hall (by decide)
      | true =>
        obtain ⟨c, h1, ecp, rc⟩ := dsim.2 hcp
        obtain ⟨x1, l1, hc1, hc2, w1⟩ := deepcopy_props ecp
        have riC : ReachIn h1 c (fun i => h.length ≤ i ∧ i < h1.length) :=
          fun g i hi => windowClosed_reach w1 hc1 hc2 i hi
        have hCne : ∀ i, (h.length ≤ i ∧ i < h1.length) → i ≠ out := by
          intro i hi; omega
        have hPbne : ∀ i, Pb i → i ≠ out := by
          intro i hi; have := hP i hi; omega
        have houtnode1 : hget h1 out = some (.mapNode outTy acc) :=
          x1 _ _ houtnode
        have hdk : hasKey acc k = false := hdisj (k, bv) (by simp)
        have houtnode2 := outAssign_append houtnode1 hdk c
        have trest := entriesRead_transport (fun x' v' r' ri' => transport_ext x1 r' ri') hrest
          (fun p hp => ri p (by simp [hp]))
        have trest2 := entriesRead_transport
          (fun x' v' r' ri' => transport_outAssign k c r' ri' hPbne) trest.1 trest.2
        have tc2 := transport_outAssign (h := h1) k c rc riC hCne
        have w2 : WindowClosed h.length h1.length (outAssign h1 out k c) := by
          refine windowClosed_stable w1 ?_
          intro i hle hlt
          exact outAssign_hget_ne k c (by omega)
        have hout2 : out < (outAssign h1 out k c).length := by
          rw [outAssign_length]; omega
        have hdisj2 : ∀ p, p ∈ rest → hasKey (acc ++ [(k, c)]) p.1 = false := by
          intro p hp
          rw [hasKey_append, hdisj p (by simp [hp]), Bool.false_or]
          have hne := hasKey_false_mem hndh.1 hp
          rw [hasKey]
          simp only [List.any_cons, List.any_nil, Bool.or_false]
          rw [beq_eq_false_iff_ne] at hne ⊢
          exact fun cne => hne cne.symm
        have ihr := ihes trest2.1 trest2.2 hdisj2 hndh.2 hout2 houtnode2
        constructor
        · intro hall
          simp only [List.all_cons, hcp, Bool.true_and] at hall
          have := ihr.1 hall
          simp only [addEntriesBGo, ecp, this]
        · intro hall
          simp only [List.all_cons, hcp, Bool.true_and] at hall
          obtain ⟨h', newcs2, erun, xo, lo, honode, ernew, hknew, hwin⟩ := ihr.2 hall
          have trfin := transport_extOut xo tc2.1 tc2.2 hCne
          have wfin : WindowClosed h.length h1.length h' := by
            refine windowClosed_extOut w2 ?_ (by omega) xo
            rw [outAssign_length]
          refine ⟨h', (k, c) :: newcs2, ?_, ?_, ?_, ?_, ?_, ?_, ?_⟩
          · simp only [addEntriesBGo, ecp, erun]
          · intro i n ne hi
            have s1 : hget h1 i = some n := x1 i n hi
            have s2 : hget (outAssign h1 out k c) i = some n := by
              rw [outAssign_hget_ne k c ne]; exact s1
            exact xo i n ne s2
          · rw [outAssign_length] at lo; omega
          · rw [honode, List.append_assoc]; rfl
          · exact List.Forall₂.cons ⟨rfl, trfin.1⟩ ernew
          · simp [hknew]
          · intro p hp
            rcases List.mem_cons.mp hp with rfl | hp'
            · refine ⟨h.length, h1.length, Nat.le_refl _, hc1, hc2, ?_, wfin⟩
              rw [outAssign_length] at lo
              omega
            · obtain ⟨m1, m2, hm1, hm2, hm3, hm4, hw⟩ := hwin p hp'
              refine ⟨m1, m2, ?_, hm2, hm3, hm4, hw⟩
              rw [outAssign_length] at hm1
              omega

/-- The heap-level `isinstance` classification agrees with the
classification of the deep value. -/
theorem reads_class {h : Heap} {x : Nat} {v : PVal} {nd : Node}
    (r : Reads h x v) (eg : hget h x = some nd) :
    isAddable nd = pureIsAddable v ∧ isMutableSet nd = pureIsSet v ∧
    isMutableMapping nd = pureIsMap v ∧ typeName nd = typeNameV v := by
  match nd with
  | .intNode n =>
    cases reads_inv_intNode r eg
    exact ⟨rfl, rfl, rfl, rfl⟩
  | .listNode xs =>
    cases reads_inv_listNode r eg
    exact ⟨rfl, rfl, rfl, rfl⟩
  | .setNode xs =>
    cases reads_inv_setNode r eg
    exact ⟨rfl, rfl, rfl, rfl⟩
  | .opqNode t =>
    cases reads_inv_opqNode r eg
    exact ⟨rfl, rfl, rfl, rfl⟩
  | .mapNode ty es =>
    obtain ⟨vs, hv, _⟩ := reads_inv_mapNode r eg
    cases hv
    cases ty <;> exact ⟨rfl, rfl, rfl, rfl⟩

theorem hasKey_filter {α : Type} {l : List (String × α)} {fl : String × α → Bool}
    {k : String} (hf : hasKey l k = false) : hasKey (l.filter fl) k = false := by
  rcases hc : hasKey (l.filter fl) k with _ | _
  · rfl
  · rw [hasKey, List.any_eq_true] at hc
    obtain ⟨p, hp, he⟩ := hc
    have hm := (List.mem_filter.mp hp).1
    have := hasKey_false_mem hf hm
    rw [this] at he
    exact absurd he (by decide)

theorem keysNodup_filter {α : Type} :
    ∀ {l : List (String × α)} {fl : String × α → Bool},
      keysNodup l = true → keysNodup (l.filter fl) = true := by
  intro l
  induction l with
  | nil => intro fl _; rfl
  | cons p rest ih =>
    intro fl hnd
    obtain ⟨k, x⟩ := p
    have hh := keysNodup_head hnd
    rcases hc : fl (k, x) with _ | _
    · rw [List.filter_cons_of_neg (by simp [hc])]
      exact ih hh.2
    · rw [List.filter_cons_of_pos hc, keysNodup, hasKey_filter hh.1, ih hh.2]
      rfl

theorem add_sim : ∀ f : Nat, AddSim f := by
  intro f
  induction f with
  | zero =>
    intro h a b va vb ra rb wa wb
    exact rfl
  | succ f IHf =>
    intro h a b va vb ra rb wa wb
    obtain ⟨na, ega⟩ := hget_lt_some ra.lt_length
    obtain ⟨nb, egb⟩ := hget_lt_some rb.lt_length
    obtain ⟨eAa, eSa, eMa, eNa⟩ := reads_class ra ega
    obtain ⟨eAb, eSb, eMb, eNb⟩ := reads_class rb egb
    rcases hA : (pureIsAddable va && pureIsAddable vb) with _ | _
    case true =>
      -- both addable: delegate to operator.add
      rw [Bool.and_eq_true] at hA
      have hAh : (isAddable na && isAddable nb) = true := by
        rw [eAa, eAb, hA.1, hA.2]; rfl
      have hhs : add (f + 1) h a b = some (opAdd h a b) := by
        simp [add, ega, egb, hAh]
      have hps : pureAdd (f + 1) va vb = some (pureOpAdd va vb) := by
        simp [pureAdd, hA.1, hA.2]
      rw [hps]
      have osim := opAdd_sim ra rb hA.1 hA.2
      match epo : pureOpAdd va vb with
      | .error e =>
        rw [epo] at osim
        rw [hhs, osim]
      | .ok v =>
        rw [epo] at osim
        obtain ⟨r, h', ho, hx, hl, hr, hri⟩ := osim
        exact ⟨r, h', by rw [hhs, ho], hx, hl, hr, hri⟩
    case false =>
      have hAh : (isAddable na && isAddable nb) = false := by
        rw [eAa, eAb]; exact hA
      rcases hS : (pureIsSet va && pureIsSet vb) with _ | _
      case true =>
        -- both sets: fresh union
        rw [Bool.and_eq_true] at hS
        have hSh : (isMutableSet na && isMutableSet nb) = true := by
          rw [eSa, eSb, hS.1, hS.2]; rfl
        cases va with
        | vint m => exact absurd hS.1 (by simp [pureIsSet])
        | vlist xs => exact absurd hS.1 (by simp [pureIsSet])
        | vopq t => exact absurd hS.1 (by simp [pureIsSet])
        | vmap ty pea => exact absurd hS.1 (by simp [pureIsSet])
        | vset xs =>
          cases vb with
          | vint m => exact absurd hS.2 (by simp [pureIsSet])
          | vlist ys => exact absurd hS.2 (by simp [pureIsSet])
          | vopq t => exact absurd hS.2 (by simp [pureIsSet])
          | vmap ty peb => exact absurd hS.2 (by simp [pureIsSet])
          | vset ys =>
            have hx := reads_vset_node ra
            have hy := reads_vset_node rb
            rw [ega] at hx
            cases hx
            rw [egb] at hy
            cases hy
            have hhs : add (f + 1) h a b = some (opOr h a b) := by
              simp [add, ega, egb, hAh, hSh]
            have hps : pureAdd (f + 1) (.vset xs) (.vset ys) =
                some (.ok (.vset (setUnion xs ys))) := by
              simp [pureAdd, hA, hS.1, hS.2]
            rw [hps]
            have hor : opOr h a b = .ok (alloc h (.setNode (setUnion xs ys))) := by
              simp [opOr, ega, egb]
            obtain ⟨r, h', he, hx2, hl, hr, hri⟩ :=
              opAdd_fresh_case (h := h) (a := a) (b := b) (.setNode (setUnion xs ys))
                rfl (reads_setNode (hget_alloc_self h _))
            exact ⟨r, h', by rw [hhs, hor, he], hx2, hl, hr, hri⟩
      case false =>
        have hSh : (isMutableSet na && isMutableSet nb) = false := by
          rw [eSa, eSb]; exact hS
        rcases hM : (pureIsMap va && pureIsMap vb) with _ | _
        case false =>
          -- no shared structural category: the final ValueError
          have hMh : (isMutableMapping na && isMutableMapping nb) = false := by
            rw [eMa, eMb]; exact hM
          have hhs : add (f + 1) h a b =
              some (.error (.typeIncompatible (typeName na) (typeName nb))) := by
            simp [add, ega, egb, hAh, hSh, hMh]
          have hps : pureAdd (f + 1) va vb =
              some (.error (.typeIncompatible (typeNameV va) (typeNameV vb))) := by
            simp [pureAdd, hA, hS, hM]
          rw [hps, hhs, eNa, eNb]
        case true =>
          rw [Bool.and_eq_true] at hM
          cases va with
          | vint m => exact absurd hM.1 (by simp [pureIsMap])
          | vlist xs => exact absurd hM.1 (by simp [pureIsMap])
          | vset xs => exact absurd hM.1 (by simp [pureIsMap])
          | vopq t => exact absurd hM.1 (by simp [pureIsMap])
          | vmap ta pea =>
            cases vb with
            | vint m => exact absurd hM.2 (by simp [pureIsMap])
            | vlist ys => exact absurd hM.2 (by simp [pureIsMap])
            | vset ys => exact absurd hM.2 (by simp [pureIsMap])
            | vopq t => exact absurd hM.2 (by simp [pureIsMap])
            | vmap tb peb =>
              obtain ⟨ea, ega2, era⟩ := reads_vmap_node ra
              rw [ega] at ega2
              cases ega2
              obtain ⟨eb, egb2, erb⟩ := reads_vmap_node rb
              rw [egb] at egb2
              cases egb2
              obtain ⟨hndA, hwA⟩ := wfV_map_elim wa
              obtain ⟨hndB, hwB⟩ := wfV_map_elim wb
              rcases hInst : (tb.isInst ta || ta.isInst tb) with _ | _
              case false =>
                have hhs : add (f + 1) h a b = some (.error (.typeIncompatible
                    (typeName (.mapNode ta ea)) (typeName (.mapNode tb eb)))) := by
                  simp [add, ega, egb, hAh, hSh, hInst]
                have hps : pureAdd (f + 1) (.vmap ta pea) (.vmap tb peb) =
                    some (.error (.typeIncompatible
                      (typeNameV (.vmap ta pea)) (typeNameV (.vmap tb peb)))) := by
                  simp [pureAdd, pureIsMap, hA, hS, hInst]
                rw [hps, hhs, eNa, eNb]
              case true =>
                have hhs : add (f + 1) h a b =
                    (match addEntriesAGo (add f) (deepcopy f)
                        (h ++ [Node.mapNode (if tb.isInst ta then ta else tb) []])
                        h.length ea eb with
                     | some (.ok h2) =>
                       match addEntriesBGo (deepcopy f) h2 h.length
                           (eb.filter (fun p => !(hasKey ea p.1))) with
                       | some h3 => some (.ok (h.length, h3))
                       | none => none
                     | some (.error e) => some (.error e)
                     | none => none) := by
                  simp [add, ega, egb, hAh, hSh, hInst, alloc, isMutableMapping]
                have hP0 : ∀ i, InReach h a i ∨ InReach h b i → i < h.length := by
                  intro i hi
                  rcases hi with ⟨g, hg⟩ | ⟨g, hg⟩
                  · exact reads_reach_dom ra i hg
                  · exact reads_reach_dom rb i hg
                have x01 : Ext h (h ++ [Node.mapNode (if tb.isInst ta then ta else tb) []]) :=
                  ext_append h _
                have olda0 : ∀ p, p ∈ ea → ReachIn h p.2 (InReach h a) :=
                  fun p hp g i hi => ⟨g + 1, reach_subset_of_entry ega hp hi⟩
                have oldb0 : ∀ p, p ∈ eb → ReachIn h p.2 (InReach h b) :=
                  fun p hp g i hi => ⟨g + 1, reach_subset_of_entry egb hp hi⟩
                have tA := entriesRead_transport
                  (fun x' v' r' ri' => transport_ext x01 r' ri') era olda0
                have tB := entriesRead_transport
                  (fun x' v' r' ri' => transport_ext x01 r' ri') erb oldb0
                have hkea : ea.map Prod.fst = pea.map Prod.fst := entriesRead_keys era
                have hkeb : eb.map Prod.fst = peb.map Prod.fst := entriesRead_keys erb
                have hndea : keysNodup ea = true := by
                  rw [keysNodup_congr hkea]; exact hndA
                have houtn1 : hget (h ++ [Node.mapNode (if tb.isInst ta then ta else tb) []])
                    h.length = some (.mapNode (if tb.isInst ta then ta else tb) []) :=
                  hget_alloc_self h _
                have hdisj0 : ∀ p, p ∈ ea → hasKey ([] : List (String × Nat)) p.1 = false :=
                  fun p _ => rfl
                have afold := addEntriesAGo_sim IHf hP0 (Nat.le_refl h.length) hwB
                  tA.1 tB.1 tA.2 tB.2 hwA hndea hdisj0 (by simp) houtn1
                match epA : pureEntriesAGo (pureAdd f) (pureCopyOk f) pea peb with
                | none =>
                  rw [epA] at afold
                  have hps : pureAdd (f + 1) (.vmap ta pea) (.vmap tb peb) = none := by
                    simp [pureAdd, pureIsMap, hA, hS, hInst, epA]
                  rw [hps]
                  rw [hhs, afold]
                | some (.error e) =>
                  rw [epA] at afold
                  have hps : pureAdd (f + 1) (.vmap ta pea) (.vmap tb peb) =
                      some (.error e) := by
                    simp [pureAdd, pureIsMap, hA, hS, hInst, epA]
                  rw [hps]
                  rw [hhs, afold]
                | some (.ok pcs) =>
                  rw [epA] at afold
                  obtain ⟨h2, newcsA, erunA, xoA, loA, honodeA, ernewA, hknewA,
                    rinewA, erbfA, ribfA, hwinA⟩ := afold
                  rw [List.nil_append] at honodeA
                  simp only [List.length_append, List.length_cons, List.length_nil] at loA
                  have erNov : EntriesRead h2 (eb.filter (fun p => !(hasKey ea p.1)))
                      (peb.filter (fun p => !(hasKey pea p.1))) :=
                    entriesRead_filter_novel hkea erbfA
                  have riNov : ∀ p, p ∈ eb.filter (fun p => !(hasKey ea p.1)) →
                      ReachIn h2 p.2 (InReach h b) :=
                    fun p hp => ribfA p (List.mem_filter.mp hp).1
                  have disjB : ∀ p, p ∈ eb.filter (fun p => !(hasKey ea p.1)) →
                      hasKey newcsA p.1 = false := by
                    intro p hp
                    rw [hasKey_congr hknewA p.1, hasKey_congr hkea p.1,
                        ← hasKey_congr hkea p.1]
                    have hpred := (List.mem_filter.mp hp).2
                    simpa using hpred
                  have hndBf : keysNodup (eb.filter (fun p => !(hasKey ea p.1))) = true := by
                    refine keysNodup_filter ?_
                    rw [keysNodup_congr hkeb]; exact hndB
                  have hout2 : h.length < h2.length := by omega
                  have bfold := addEntriesBGo_sim (f := f)
                    (fun i hi => hP0 i (Or.inr hi)) (Nat.le_refl h.length)
                    erNov riNov disjB hndBf hout2 honodeA
                  rcases hallB : ((peb.filter (fun p => !(hasKey pea p.1))).all
                      fun p => pureCopyOk f p.2) with _ | _
                  case false =>
                    have hbn := bfold.1 hallB
                    have hps : pureAdd (f + 1) (.vmap ta pea) (.vmap tb peb) = none := by
                      simp [pureAdd, pureIsMap, hA, hS, hInst, epA, hallB]
                    rw [hps]
                    show add (f + 1) h a b = none
                    rw [hhs, erunA]
                    show (match addEntriesBGo (deepcopy f) h2 h.length
                            (eb.filter (fun p => !(hasKey ea p.1))) with
                          | some h3 => some (Except.ok (h.length, h3))
                          | none => none) = none
                    rw [hbn]
                  case true =>
                    obtain ⟨h3, newcsB, erunB, xoB, loB, honodeB, ernewB, hknewB, hwinB⟩ :=
                      bfold.2 hallB
                    have hps : pureAdd (f + 1) (.vmap ta pea) (.vmap tb peb) =
                        some (.ok (.vmap (if tb.isInst ta then ta else tb)
                          (pcs ++ peb.filter (fun p => !(hasKey pea p.1))))) := by
                      simp [pureAdd, pureIsMap, hA, hS, hInst, epA, hallB]
                    rw [hps]
                    have hfin : add (f + 1) h a b = some (.ok (h.length, h3)) := by
                      rw [hhs, erunA]
                      show (match addEntriesBGo (deepcopy f) h2 h.length
                              (eb.filter (fun p => !(hasKey ea p.1))) with
                            | some h3 => some (Except.ok (h.length, h3))
                            | none => none) = some (.ok (h.length, h3))
                      rw [erunB]
                    have hQne2 : ∀ i, (InReach h a i ∨ InReach h b i ∨
                        (h.length + 1 ≤ i ∧ i < h2.length)) → i ≠ h.length := by
                      intro i hi
                      rcases hi with hi | hi | hi
                      · have := hP0 i (Or.inl hi); omega
                      · have := hP0 i (Or.inr hi); omega
                      · omega
                    have rinewA' : ∀ p, p ∈ newcsA → ReachIn h2 p.2
                        (fun i => InReach h a i ∨ InReach h b i ∨
                          (h.length + 1 ≤ i ∧ i < h2.length)) := by
                      intro p hp
                      refine (rinewA p hp).mono ?_
                      intro i hi
                      rcases hi with hi | hi | hi
                      · exact Or.inl hi
                      · exact Or.inr (Or.inl hi)
                      · refine Or.inr (Or.inr ⟨?_, hi.2⟩)
                        simpa using hi.1
                    have tAfin := entriesRead_transport
                      (fun x' v' r' ri' => transport_extOut xoB r' ri' hQne2)
                      ernewA rinewA'
                    have erAll : EntriesRead h3 (newcsA ++ newcsB)
                        (pcs ++ peb.filter (fun p => !(hasKey pea p.1))) :=
                      forall2_append tAfin.1 ernewB
                    refine ⟨h.length, h3, hfin, ?_, ?_,
                      reads_mapNode honodeB erAll, ?_⟩
                    · -- Ext h h3
                      intro i n hi
                      have lt := hget_lt_length hi
                      have s1 := hget_append hi
                        [Node.mapNode (if tb.isInst ta then ta else tb) []]
                      have s2 := xoA i n (by omega) s1
                      exact xoB i n (by omega) s2
                    · omega
                    · -- ReachIn of the result
                      refine reachIn_mapNode honodeB ?_
                        (Or.inr (Or.inr ⟨Nat.le_refl _, by omega⟩))
                      intro p hp
                      rcases List.mem_append.mp hp with hpA | hpB
                      · refine (tAfin.2 p hpA).mono ?_
                        intro i hi
                        rcases hi with hi | hi | hi
                        · exact Or.inl hi
                        · exact Or.inr (Or.inl hi)
                        · exact Or.inr (Or.inr ⟨by omega, by omega⟩)
                      · obtain ⟨m1, m2, hm1, hm2, hm3, hm4, hw⟩ := hwinB p hpB
                        intro g i hi
                        have := windowClosed_reach hw hm2 hm3 i hi
                        exact Or.inr (Or.inr ⟨by omega, by omega⟩)

/-! ## Tree-shaped heap objects

`iadd` mutates its first argument in place while reading both, so its
contract is proved for inputs whose object graphs are trees (the shape
Python callers obtain from independently built accumulators): every
nested value is a distinct object.  `IsTree h x v S` states that the
object at `x` reads as `v` and its object graph occupies exactly the
pairwise-distinct address footprint `S`. -/

mutual
inductive IsTree : Heap → Nat → PVal → List Nat → Prop where
  | int : ∀ {h : Heap} {x : Nat} {n : Int},
      hget h x = some (.intNode n) → IsTree h x (.vint n) [x]
  | list : ∀ {h : Heap} {x : Nat} {xs : List Int},
      hget h x = some (.listNode xs) → IsTree h x (.vlist xs) [x]
  | set : ∀ {h : Heap} {x : Nat} {xs : List Int},
      hget h x = some (.setNode xs) → IsTree h x (.vset xs) [x]
  | opq : ∀ {h : Heap} {x : Nat} {t : Nat},
      hget h x = some (.opqNode t) → IsTree h x (.vopq t) [x]
  | map : ∀ {h : Heap} {x : Nat} {ty : MapType} {es : List (String × Nat)}
      {pes : List (String × PVal)} {S : List Nat},
      hget h x = some (.mapNode ty es) → IsEntriesTree h es pes S →
      x ∉ S → IsTree h x (.vmap ty pes) (x :: S)

inductive IsEntriesTree : Heap → List (String × Nat) → List (String × PVal) →
    List Nat → Prop where
  | nil : ∀ {h : Heap}, IsEntriesTree h [] [] []
  | cons : ∀ {h : Heap} {k : String} {x : Nat} {v : PVal} {S : List Nat}
      {rest : List (String × Nat)} {prest : List (String × PVal)} {S' : List Nat},
      IsTree h x v S → IsEntriesTree h rest prest S' →
      (∀ i, i ∈ S → i ∉ S') →
      IsEntriesTree h ((k, x) :: rest) ((k, v) :: prest) (S ++ S')
end

theorem isTree_mem_self {h : Heap} {x : Nat} {v : PVal} {S : List Nat}
    (t : IsTree h x v S) : x ∈ S := by
  cases t with
  | int e => simp
  | list e => simp
  | set e => simp
  | opq e => simp
  | map e het hx => simp

mutual
theorem isTree_reads {h : Heap} {x : Nat} {v : PVal} {S : List Nat}
    (t : IsTree h x v S) : Reads h x v := by
  cases t with
  | int e => exact reads_intNode e
  | list e => exact reads_listNode e
  | set e => exact reads_setNode e
  | opq e => exact reads_opqNode e
  | map e het hx => exact reads_mapNode e (isEntriesTree_reads het)

theorem isEntriesTree_reads {h : Heap} {es : List (String × Nat)}
    {pes : List (String × PVal)} {S : List Nat}
    (t : IsEntriesTree h es pes S) : EntriesRead h es pes := by
  cases t with
  | nil => exact List.Forall₂.nil
  | cons ht hrest hdis =>
    exact List.Forall₂.cons ⟨rfl, isTree_reads ht⟩ (isEntriesTree_reads hrest)
end

mutual
theorem isTree_reach_sub {h : Heap} {x : Nat} {v : PVal} {S : List Nat}
    (t : IsTree h x v S) : ∀ g i, i ∈ reachAddrs g h x → i ∈ S := by
  intro g i hi
  match g with
  | 0 => exact absurd hi (by simp [reachAddrs])
  | g + 1 =>
    cases t with
    | int e =>
      rw [reachAddrs, e] at hi
      simpa using hi
    | list e =>
      rw [reachAddrs, e] at hi
      simpa using hi
    | set e =>
      rw [reachAddrs, e] at hi
      simpa using hi
    | opq e =>
      rw [reachAddrs, e] at hi
      simpa using hi
    | map e het hx =>
      rw [reachAddrs, e] at hi
      rcases List.mem_cons.mp hi with rfl | hi'
      · simp
      · obtain ⟨p, hp, hip⟩ := reachEntriesGo_mem hi'
        exact List.mem_cons_of_mem _ (isEntriesTree_reach_sub het p hp g i hip)

theorem isEntriesTree_reach_sub {h : Heap} {es : List (String × Nat)}
    {pes : List (String × PVal)} {S : List Nat}
    (t : IsEntriesTree h es pes S) :
    ∀ p, p ∈ es → ∀ g i, i ∈ reachAddrs g h p.2 → i ∈ S := by
  intro p hp g i hi
  cases t with
  | nil => exact absurd hp (by simp)
  | cons ht hrest hdis =>
    rcases List.mem_cons.mp hp with rfl | hp'
    · exact List.mem_append_left _ (isTree_reach_sub ht g i hi)
    · exact List.mem_append_right _ (isEntriesTree_reach_sub hrest p hp' g i hi)
end

mutual
theorem isTree_dom {h : Heap} {x : Nat} {v : PVal} {S : List Nat}
    (t : IsTree h x v S) : ∀ i, i ∈ S → i < h.length := by
  intro i hi
  cases t with
  | int e => rw [List.mem_singleton] at hi; subst hi; exact hget_lt_length e
  | list e => rw [List.mem_singleton] at hi; subst hi; exact hget_lt_length e
  | set e => rw [List.mem_singleton] at hi; subst hi; exact hget_lt_length e
  | opq e => rw [List.mem_singleton] at hi; subst hi; exact hget_lt_length e
  | map e het hx =>
    rcases List.mem_cons.mp hi with rfl | hi'
    · exact hget_lt_length e
    · exact isEntriesTree_dom het i hi'

theorem isEntriesTree_dom {h : Heap} {es : List (String × Nat)}
    {pes : List (String × PVal)} {S : List Nat}
    (t : IsEntriesTree h es pes S) : ∀ i, i ∈ S → i < h.length := by
  intro i hi
  cases t with
  | nil => exact absurd hi (by simp)
  | cons ht hrest hdis =>
    rcases List.mem_append.mp hi with hi' | hi'
    · exact isTree_dom ht i hi'
    · exact isEntriesTree_dom hrest i hi'
end

mutual
theorem isTree_agree {h h' : Heap} {x : Nat} {v : PVal} {S : List Nat}
    (t : IsTree h x v S) (agr : ∀ i, i ∈ S → hget h' i = hget h i) :
    IsTree h' x v S := by
  cases t with
  | int e => exact .int (by rw [agr _ (by simp)]; exact e)
  | list e => exact .list (by rw [agr _ (by simp)]; exact e)
  | set e => exact .set (by rw [agr _ (by simp)]; exact e)
  | opq e => exact .opq (by rw [agr _ (by simp)]; exact e)
  | map e het hx =>
    refine .map (by rw [agr _ (by simp)]; exact e) ?_ hx
    exact isEntriesTree_agree het
      (fun i hi => agr i (List.mem_cons_of_mem _ hi))

theorem isEntriesTree_agree {h h' : Heap} {es : List (String × Nat)}
    {pes : List (String × PVal)} {S : List Nat}
    (t : IsEntriesTree h es pes S) (agr : ∀ i, i ∈ S → hget h' i = hget h i) :
    IsEntriesTree h' es pes S := by
  cases t with
  | nil => exact .nil
  | cons ht hrest hdis =>
    refine .cons (isTree_agree ht ?_) (isEntriesTree_agree hrest ?_) hdis
    · exact fun i hi => agr i (List.mem_append_left _ hi)
    · exact fun i hi => agr i (List.mem_append_right _ hi)
end

/-! ## Entry-list surgery lemmas for the in-place mapping merge -/

theorem lookupEnt_cons_self {k : String} {x : Nat} {rest : List (String × Nat)} :
    lookupEnt ((k, x) :: rest) k = some x := by
  rw [lookupEnt]
  simp [List.find?]

theorem lookupEnt_append_skip {l1 l2 : List (String × Nat)} {k : String}
    (hk : hasKey l1 k = false) :
    lookupEnt (l1 ++ l2) k = lookupEnt l2 k := by
  induction l1 with
  | nil => rfl
  | cons p rest ih =>
    obtain ⟨kp, x⟩ := p
    rw [hasKey, List.any_cons] at hk
    rw [Bool.or_eq_false_iff] at hk
    rw [List.cons_append, lookupEnt]
    simp only [List.find?, hk.1]
    exact ih hk.2

theorem map_noKey_id {l : List (String × Nat)} {k : String} {v : Nat}
    (hk : hasKey l k = false) :
    l.map (fun p => if p.1 == k then (p.1, v) else p) = l := by
  induction l with
  | nil => rfl
  | cons p rest ih =>
    rw [hasKey, List.any_cons, Bool.or_eq_false_iff] at hk
    rw [List.map_cons, if_neg (by simp [hk.1]), ih hk.2]

theorem mapAssign_cons_head {k : String} {x v : Nat} {rest : List (String × Nat)}
    (hk : hasKey rest k = false) :
    mapAssign ((k, x) :: rest) k v = (k, v) :: rest := by
  rw [mapAssign, if_pos (by rw [hasKey, List.any_cons]; simp)]
  rw [List.map_cons, if_pos (by simp), map_noKey_id hk]

theorem mapAssign_append_skip {l1 l2 : List (String × Nat)} {k : String} {v : Nat}
    (hk : hasKey l1 k = false) (hk2 : hasKey l2 k = true) :
    mapAssign (l1 ++ l2) k v = l1 ++ mapAssign l2 k v := by
  rw [mapAssign, mapAssign, if_pos (by rw [hasKey_append, hk2, Bool.or_true]),
    if_pos hk2, List.map_append, map_noKey_id hk]

/-! ## Lookup and key-membership helpers -/

theorem beq_str_comm (a b : String) : (a == b) = (b == a) := by
  rcases e : b == a with _ | _
  · rw [beq_eq_false_iff_ne] at e ⊢
    exact fun hab => e hab.symm
  · rw [beq_iff_eq] at e ⊢
    exact e.symm

theorem contains_map_fst {α : Type} {eb : List (String × α)} {k : String} :
    (eb.map Prod.fst).contains k = hasKey eb k := by
  induction eb with
  | nil => rfl
  | cons p rest ih =>
    rw [List.map_cons, List.contains_cons, hasKey, List.any_cons]
    rw [beq_str_comm k p.1]
    show (p.1 == k || (rest.map Prod.fst).contains k) = _
    rw [ih, hasKey]

theorem lookupEnt_none_hasKey {es : List (String × Nat)} {k : String}
    (e : lookupEnt es k = none) : hasKey es k = false := by
  induction es with
  | nil => rfl
  | cons p rest ih =>
    rw [lookupEnt] at e
    rw [hasKey, List.any_cons]
    rcases ek : p.1 == k with _ | _
    · simp only [List.find?, ek] at e
      rw [Bool.false_or]
      exact ih e
    · simp only [List.find?, ek] at e
      exact absurd e (by simp)

theorem plookup_none_hasKey {vs : List (String × PVal)} {k : String}
    (e : plookup vs k = none) : hasKey vs k = false := by
  induction vs with
  | nil => rfl
  | cons p rest ih =>
    rw [plookup] at e
    rw [hasKey, List.any_cons]
    rcases ek : p.1 == k with _ | _
    · simp only [List.find?, ek] at e
      rw [Bool.false_or]
      exact ih e
    · simp only [List.find?, ek] at e
      exact absurd e (by simp)

theorem entriesRead_lookup_rev {h : Heap} {eb : List (String × Nat)}
    {peb : List (String × PVal)} (er : EntriesRead h eb peb) {k : String}
    {vy : PVal} (hplk : plookup peb k = some vy) :
    ∃ y, lookupEnt eb k = some y ∧ Reads h y vy := by
  rcases elk : lookupEnt eb k with _ | y
  · rw [(entriesRead_lookup er k).1 elk] at hplk
    exact absurd hplk (by simp)
  · obtain ⟨vy2, hvy2, rvy⟩ := (entriesRead_lookup er k).2 y elk
    rw [hplk] at hvy2
    cases hvy2
    exact ⟨y, rfl, rvy⟩

theorem entriesRead_agree {h h' : Heap} :
    ∀ {es : List (String × Nat)} {vs : List (String × PVal)},
      EntriesRead h es vs →
      (∀ p, p ∈ es → ∀ g i, i ∈ reachAddrs g h p.2 → hget h' i = hget h i) →
      EntriesRead h' es vs := by
  intro es
  induction es with
  | nil => intro vs er _; cases er; exact List.Forall₂.nil
  | cons p rest ih =>
    intro vs er agr
    cases er with
    | cons hpq hrest =>
      refine List.Forall₂.cons ⟨hpq.1, hpq.2.reach_agree (agr p (by simp))⟩ ?_
      exact ih hrest (fun q hq => agr q (by simp [hq]))

theorem hasKey_of_mem_fst {α : Type} {l : List (String × α)} {k : String}
    (hk : k ∈ l.map Prod.fst) : hasKey l k = true := by
  induction l with
  | nil => exact absurd hk (by simp)
  | cons p rest ih =>
    rw [List.map_cons, List.mem_cons] at hk
    rw [hasKey, List.any_cons]
    rcases hk with rfl | hk'
    · simp
    · have := ih hk'
      rw [hasKey] at this
      rw [this, Bool.or_true]

/-! ## Simulation of `iadd`

`iadd` mutates its first operand, so its contract is proved for a
first operand whose object graph is a tree with footprint `Sa`, and a
second operand whose reach is disjoint from `Sa` (the shape produced
by independently built accumulators).  Beyond the value-level
agreement with the pure mirror, the simulation records: the heap only
grows; addresses outside `Sa` are untouched (so `b` is preserved);
the result is `a` itself except in the `int` case, where it is a
fresh rebind; and in a genuine mapping merge the values stored under
`b`-novel keys sit in closed fresh windows (they are deep copies). -/
def IaddSim (f : Nat) : Prop :=
  ∀ {h : Heap} {a b : Nat} {va vb : PVal} {Sa : List Nat},
    IsTree h a va Sa → Reads h b vb →
    (∀ g i, i ∈ reachAddrs g h b → i ∉ Sa) →
    wfV va = true → wfV vb = true →
    match pureIadd f va vb with
    | none => iadd f h a b = none
    | some (.error e) => iadd f h a b = some (.error e)
    | some (.ok v) => ∃ r h', iadd f h a b = some (.ok (r, h')) ∧
        h.length ≤ h'.length ∧
        (∀ i, i < h.length → i ∉ Sa → hget h' i = hget h i) ∧
        Reads h' r v ∧
        (∀ g i, i ∈ reachAddrs g h' r →
          i ∈ Sa ∨ InReach h b i ∨ (h.length ≤ i ∧ i < h'.length)) ∧
        ((∀ n : Int, va ≠ .vint n) → r = a) ∧
        (∀ n : Int, va = .vint n → r = h.length) ∧
        (∀ ta pea, va = .vmap ta pea →
          (pureIsAddable va && pureIsAddable vb) = false →
          ∃ esF, hget h' r = some (.mapNode ta esF) ∧
            ∀ p, p ∈ esF → hasKey pea p.1 = false →
              ∃ m1 m2, h.length ≤ m1 ∧ m1 ≤ p.2 ∧ p.2 < m2 ∧
                m2 ≤ h'.length ∧ WindowClosed m1 m2 h')

/-- Simulation of `iadd`'s second loop: each `b`-novel value is
deep-copied and appended to `a`'s mapping node; the copies land in
closed fresh windows. -/
theorem iaddEntriesBGo_sim {f : Nat} {Pb : Nat → Prop} {out : Nat}
    (hPne : ∀ i, Pb i → i ≠ out) :
    ∀ {ebn : List (String × Nat)} {pebn : List (String × PVal)} {h : Heap}
      {acc : List (String × Nat)} {outTy : MapType},
      EntriesRead h ebn pebn →
      (∀ p, p ∈ ebn → ReachIn h p.2 Pb) →
      (∀ p, p ∈ ebn → hasKey acc p.1 = false) →
      keysNodup ebn = true →
      out < h.length →
      hget h out = some (.mapNode outTy acc) →
      ((pebn.all fun p => pureCopyOk f p.2) = false →
        iaddEntriesBGo (deepcopy f) h out ebn = none) ∧
      ((pebn.all fun p => pureCopyOk f p.2) = true → ∃ h' newcs,
        iaddEntriesBGo (deepcopy f) h out ebn = some h' ∧
        ExtOut out h h' ∧ h.length ≤ h'.length ∧
        hget h' out = some (.mapNode outTy (acc ++ newcs)) ∧
        EntriesRead h' newcs pebn ∧
        newcs.map Prod.fst = ebn.map Prod.fst ∧
        (∀ p, p ∈ newcs → ∃ m1 m2, h.length ≤ m1 ∧ m1 ≤ p.2 ∧ p.2 < m2 ∧
          m2 ≤ h'.length ∧ WindowClosed m1 m2 h')) := by
  intro ebn
  induction ebn with
  | nil =>
    intro pebn h acc outTy er ri hdisj hnd hout houtnode
    cases er
    constructor
    · intro hall
      exact absurd hall (by simp)
    · intro _
      exact ⟨h, [], rfl, fun i n _ e => e, Nat.le_refl _, by simpa using houtnode,
        List.Forall₂.nil, rfl, fun p hp => absurd hp (by simp)⟩
  | cons p rest ihes =>
    intro pebn h acc outTy er ri hdisj hnd hout houtnode
    obtain ⟨k, bv⟩ := p
    cases er with
    | cons hpq hrest =>
      rename_i q prest
      obtain ⟨hk, rbv⟩ := hpq
      obtain ⟨kq, vy⟩ := q
      simp only at hk
      subst hk
      have hndh := keysNodup_head hnd
      have dsim := deepcopy_sim (f := f) rbv
      match hcp : pureCopyOk f vy with
      | false =>
        have hdc := dsim.1 hcp
        constructor
        · intro _
          simp only [iaddEntriesBGo, hdc]
        · intro hall
          simp only [List.all_cons, hcp, Bool.false_and] at hall
          exact absurd hall (by decide)
      | true =>
        obtain ⟨c, h1, ecp, rc⟩ := dsim.2 hcp
        obtain ⟨x1, l1, hc1, hc2, w1⟩ := deepcopy_props ecp
        have riC : ReachIn h1 c (fun i => h.length ≤ i ∧ i < h1.length) :=
          fun g i hi => windowClosed_reach w1 hc1 hc2 i hi
        have hCne : ∀ i, (h.length ≤ i ∧ i < h1.length) → i ≠ out := by
          intro i hi; omega
        have hPbne : ∀ i, Pb i → i ≠ out := hPne
        have houtnode1 : hget h1 out = some (.mapNode outTy acc) :=
          x1 _ _ houtnode
        have hdk : hasKey acc k = false := hdisj (k, bv) (by simp)
        have houtnode2 := outAssign_append houtnode1 hdk c
        have trest := entriesRead_transport (fun x' v' r' ri' => transport_ext x1 r' ri') hrest
          (fun p hp => ri p (by simp [hp]))
        have trest2 := entriesRead_transport
          (fun x' v' r' ri' => transport_outAssign k c r' ri' hPbne) trest.1 trest.2
        have tc2 := transport_outAssign (h := h1) k c rc riC hCne
        have w2 : WindowClosed h.length h1.length (outAssign h1 out k c) := by
          refine windowClosed_stable w1 ?_
          intro i hle hlt
          exact outAssign_hget_ne k c (by omega)
        have hout2 : out < (outAssign h1 out k c).length := by
          rw [outAssign_length]; omega
        have hdisj2 : ∀ p, p ∈ rest → hasKey (acc ++ [(k, c)]) p.1 = false := by
          intro p hp
          rw [hasKey_append, hdisj p (by simp [hp]), Bool.false_or]
          have hne := hasKey_false_mem hndh.1 hp
          rw [hasKey]
          simp only [List.any_cons, List.any_nil, Bool.or_false]
          rw [beq_eq_false_iff_ne] at hne ⊢
          exact fun cne => hne cne.symm
        have ihr := ihes trest2.1 trest2.2 hdisj2 hndh.2 hout2 houtnode2
        constructor
        · intro hall
          simp only [List.all_cons, hcp, Bool.true_and] at hall
          have := ihr.1 hall
          simp only [iaddEntriesBGo, ecp, this]
        · intro hall
          simp only [List.all_cons, hcp, Bool.true_and] at hall
          obtain ⟨h', newcs2, erun, xo, lo, honode, ernew, hknew, hwin⟩ := ihr.2 hall
          have trfin := transport_extOut xo tc2.1 tc2.2 hCne
          have wfin : WindowClosed h.length h1.length h' := by
            refine windowClosed_extOut w2 ?_ (by omega) xo
            rw [outAssign_length]
          refine ⟨h', (k, c) :: newcs2, ?_, ?_, ?_, ?_, ?_, ?_, ?_⟩
          · simp only [iaddEntriesBGo, ecp, erun]
          · intro i n ne hi
            have s1 : hget h1 i = some n := x1 i n hi
            have s2 : hget (outAssign h1 out k c) i = some n := by
              rw [outAssign_hget_ne k c ne]; exact s1
            exact xo i n ne s2
          · rw [outAssign_length] at lo; omega
          · rw [honode, List.append_assoc]; rfl
          · exact List.Forall₂.cons ⟨rfl, trfin.1⟩ ernew
          · simp [hknew]
          · intro p hp
            rcases List.mem_cons.mp hp with rfl | hp'
            · refine ⟨h.length, h1.length, Nat.le_refl _, hc1, hc2, ?_, wfin⟩
              rw [outAssign_length] at lo
              omega
            · obtain ⟨m1, m2, hm1, hm2, hm3, hm4, hw⟩ := hwin p hp'
              refine ⟨m1, m2, ?_, hm2, hm3, hm4, hw⟩
              rw [outAssign_length] at hm1
              omega

theorem plookup_some_hasKey {vs : List (String × PVal)} {k : String} {vy : PVal}
    (e : plookup vs k = some vy) : hasKey vs k = true := by
  induction vs with
  | nil => exact absurd e (by simp [plookup])
  | cons p rest ih =>
    rw [plookup] at e
    rw [hasKey, List.any_cons]
    rcases ek : p.1 == k with _ | _
    · simp only [List.find?, ek] at e
      rw [Bool.false_or]
      exact ih e
    · simp

/-- Simulation of `iadd`'s first loop over the snapshot of `a`'s keys:
keys shared with `b` are recursively combined and written back in
place (preserving `a`'s key order), exclusive keys are left untouched.
`doneEs` is the already-processed prefix of `a`'s entry list, `pend`
the still-pending suffix with tree footprint `Spend`. -/
theorem iaddEntriesAGo_sim {f : Nat} (IH : IaddSim f) {b : Nat} {tb : MapType}
    {eb : List (String × Nat)} {peb : List (String × PVal)}
    (hwb : ∀ q, q ∈ peb → wfV q.2 = true) :
    ∀ {pend : List (String × Nat)} {pPend : List (String × PVal)}
      {Spend : List Nat} {doneEs : List (String × Nat)} {h : Heap} {a : Nat}
      {ta : MapType},
      hget h a = some (.mapNode ta (doneEs ++ pend)) →
      hget h b = some (.mapNode tb eb) →
      EntriesRead h eb peb →
      IsEntriesTree h pend pPend Spend →
      a ∉ Spend →
      (∀ g i, i ∈ reachAddrs g h b → i ∉ Spend ∧ i ≠ a) →
      (∀ p, p ∈ pend → hasKey doneEs p.1 = false) →
      keysNodup pend = true →
      (∀ q, q ∈ pPend → wfV q.2 = true) →
      match pureIaddEntriesAGo (pureIadd f) pPend peb with
      | none =>
          iaddEntriesAGo (iadd f) h a b (pend.map Prod.fst) (eb.map Prod.fst) = none
      | some (.error e) =>
          iaddEntriesAGo (iadd f) h a b (pend.map Prod.fst) (eb.map Prod.fst) =
            some (.error e)
      | some (.ok pcs) => ∃ h' newEs,
          iaddEntriesAGo (iadd f) h a b (pend.map Prod.fst) (eb.map Prod.fst) =
            some (.ok h') ∧
          h.length ≤ h'.length ∧
          (∀ i, i < h.length → i ∉ Spend → i ≠ a → hget h' i = hget h i) ∧
          hget h' a = some (.mapNode ta (doneEs ++ newEs)) ∧
          newEs.map Prod.fst = pend.map Prod.fst ∧
          EntriesRead h' newEs pcs ∧
          (∀ p, p ∈ newEs → ∀ g i, i ∈ reachAddrs g h' p.2 →
            i ∈ Spend ∨ InReach h b i ∨ (h.length ≤ i ∧ i < h'.length)) := by
  intro pend
  induction pend with
  | nil =>
    intro pPend Spend doneEs h a ta ena enb erb het ha hbdis hdone hnd hwf
    cases het
    simp only [pureIaddEntriesAGo]
    exact ⟨h, [], rfl, Nat.le_refl _, fun i _ _ _ => rfl, ena, rfl,
      List.Forall₂.nil, fun p hp => absurd hp (by simp)⟩
  | cons p rest ihrest =>
    intro pPend Spend doneEs h a ta ena enb erb het ha hbdis hdone hnd hwf
    obtain ⟨k, x⟩ := p
    cases het with
    | cons ht hrest hdis =>
      rename_i vx Sx prest Srest
      have hndh := keysNodup_head hnd
      have haSx : a ∉ Sx := fun hc => ha (List.mem_append_left _ hc)
      have haSr : a ∉ Srest := fun hc => ha (List.mem_append_right _ hc)
      have hdisr : ∀ i, i ∈ Srest → i ∉ Sx := fun i hiS hiSx => hdis i hiSx hiS
      have hkeb : eb.map Prod.fst = peb.map Prod.fst := entriesRead_keys erb
      have hdone2 : ∀ p2, p2 ∈ rest → hasKey (doneEs ++ [(k, x)]) p2.1 = false := by
        intro p2 hp
        rw [hasKey_append, hdone p2 (by simp [hp]), Bool.false_or]
        have hne := hasKey_false_mem hndh.1 hp
        rw [hasKey]
        simp only [List.any_cons, List.any_nil, Bool.or_false]
        rw [beq_eq_false_iff_ne] at hne ⊢
        exact fun cne => hne cne.symm
      rcases hplk : plookup peb k with _ | vy
      -- key exclusive to a: skipped by both sides
      · have hkebF : hasKey eb k = false := by
          rw [hasKey_congr hkeb k]
          exact plookup_none_hasKey hplk
        have hcont : (eb.map Prod.fst).contains k = false := by
          rw [contains_map_fst]; exact hkebF
        have hcondF : ¬((eb.map Prod.fst).contains k = true) := by
          rw [hcont]
          exact Bool.false_ne_true
        have ena2 : hget h a = some (.mapNode ta ((doneEs ++ [(k, x)]) ++ rest)) := by
          rw [List.append_assoc]; exact ena
        have hbdis2 : ∀ g i, i ∈ reachAddrs g h b → i ∉ Srest ∧ i ≠ a := by
          intro g i hi
          obtain ⟨hS, hA⟩ := hbdis g i hi
          exact ⟨fun hc => hS (List.mem_append_right _ hc), hA⟩
        have ihr := ihrest ena2 enb erb hrest haSr hbdis2 hdone2 hndh.2
          (fun q hq => hwf q (by simp [hq]))
        have agrX : ∀ j, j ∈ Sx → j < h.length ∧ j ∉ Srest ∧ j ≠ a :=
          fun j hj => ⟨isTree_dom ht j hj, hdis j hj, fun hc => haSx (hc ▸ hj)⟩
        simp only [pureIaddEntriesAGo, hplk]
        simp only [List.map_cons]
        match hpr : pureIaddEntriesAGo (pureIadd f) prest peb with
        | none =>
          rw [hpr] at ihr
          simp only [iaddEntriesAGo, if_neg hcondF]
          exact ihr
        | some (.error e) =>
          rw [hpr] at ihr
          simp only [iaddEntriesAGo, if_neg hcondF]
          exact ihr
        | some (.ok pcs) =>
          rw [hpr] at ihr
          obtain ⟨h', newEs2, erun, hlen, hwb2, hnode, hkeys, ernew, hreach⟩ := ihr
          have agr : ∀ g i, i ∈ reachAddrs g h x → hget h' i = hget h i := by
            intro g i hi
            have hiS := isTree_reach_sub ht g i hi
            obtain ⟨d1, d2, d3⟩ := agrX i hiS
            exact hwb2 i d1 d2 d3
          refine ⟨h', (k, x) :: newEs2, ?_, hlen, ?_, ?_, ?_, ?_, ?_⟩
          · simp only [iaddEntriesAGo, if_neg hcondF]
            exact erun
          · intro i hilt hiS hia
            exact hwb2 i hilt (fun hc => hiS (List.mem_append_right _ hc)) hia
          · rw [hnode, List.append_assoc]; rfl
          · simp [hkeys]
          · exact List.Forall₂.cons ⟨rfl, (isTree_reads ht).reach_agree agr⟩ ernew
          · intro p2 hp2 g i hi
            rcases List.mem_cons.mp hp2 with rfl | hp2r
            · rw [reachAddrs_agree agr] at hi
              exact Or.inl (List.mem_append_left _ (isTree_reach_sub ht g i hi))
            · rcases hreach p2 hp2r g i hi with hS | hB | hF
              · exact Or.inl (List.mem_append_right _ hS)
              · exact Or.inr (Or.inl hB)
              · exact Or.inr (Or.inr hF)
      -- key shared with b: recursive in-place combine
      · obtain ⟨y, elk, rvy⟩ := entriesRead_lookup_rev erb hplk
        have hkebT : hasKey eb k = true := by
          rw [hasKey_congr hkeb k]
          exact plookup_some_hasKey hplk
        have hcont : (eb.map Prod.fst).contains k = true := by
          rw [contains_map_fst]; exact hkebT
        have hdk : hasKey doneEs k = false := hdone (k, x) (by simp)
        have elka : lookupEnt (doneEs ++ (k, x) :: rest) k = some x := by
          rw [lookupEnt_append_skip hdk, lookupEnt_cons_self]
        obtain ⟨ky, hky⟩ := lookupEnt_mem elk
        have hyreach : ∀ g i, i ∈ reachAddrs g h y → i ∉ Sx ++ Srest ∧ i ≠ a := by
          intro g i hi
          exact hbdis (g + 1) i (reach_subset_of_entry enb hky hi)
        have hydisSx : ∀ g i, i ∈ reachAddrs g h y → i ∉ Sx := by
          intro g i hi
          exact fun hc => (hyreach g i hi).1 (List.mem_append_left _ hc)
        obtain ⟨ky2, hky2⟩ := plookup_mem hplk
        have hwy : wfV vy = true := hwb (ky2, vy) hky2
        have isim := IH ht rvy hydisSx (hwf (k, vx) (by simp)) hwy
        have hblt : b < h.length := hget_lt_length enb
        have halt : a < h.length := hget_lt_length ena
        have hbSx : b ∉ Sx := by
          have := hbdis 1 b (self_mem_reachAddrs h b 0)
          exact fun hc => this.1 (List.mem_append_left _ hc)
        have hbne : b ≠ a := (hbdis 1 b (self_mem_reachAddrs h b 0)).2
        simp only [pureIaddEntriesAGo, hplk]
        simp only [List.map_cons]
        match hrec : pureIadd f vx vy with
        | none =>
          rw [hrec] at isim
          simp only [iaddEntriesAGo, if_pos hcont, ena, enb, elka, elk, isim]
        | some (.error e) =>
          rw [hrec] at isim
          simp only [iaddEntriesAGo, if_pos hcont, ena, enb, elka, elk, isim]
        | some (.ok v) =>
          rw [hrec] at isim
          obtain ⟨r, h2, erun2, len2, wb2, rr2, reach2, _, _, _⟩ := isim
          -- the write-back a[k] = r
          have ena2 : hget h2 a = some (.mapNode ta (doneEs ++ (k, x) :: rest)) := by
            rw [wb2 a halt haSx]; exact ena
          have hma : mapAssign (doneEs ++ (k, x) :: rest) k r =
              (doneEs ++ [(k, r)]) ++ rest := by
            rw [mapAssign_append_skip hdk (by rw [hasKey, List.any_cons]; simp),
              mapAssign_cons_head hndh.1, List.append_assoc]
            rfl
          have ena3 : hget (outAssign h2 a k r) a =
              some (.mapNode ta ((doneEs ++ [(k, r)]) ++ rest)) := by
            unfold outAssign
            rw [ena2, ← hma]
            exact hget_hset_self _ (Nat.lt_of_lt_of_le halt len2)
          have l3 : (outAssign h2 a k r).length = h2.length := outAssign_length a k r
          have agr23 : ∀ i, i < h.length → i ∉ Sx → i ≠ a →
              hget (outAssign h2 a k r) i = hget h i := by
            intro i d1 d2 d3
            rw [outAssign_hget_ne k r d3]
            exact wb2 i d1 d2
          -- re-establish the loop invariants after the write-back
          have enb3 : hget (outAssign h2 a k r) b = some (.mapNode tb eb) := by
            rw [agr23 b hblt hbSx hbne]; exact enb
          have agrB : ∀ g i, i ∈ reachAddrs g h b →
              hget (outAssign h2 a k r) i = hget h i := by
            intro g i hi
            have hdom : i < h.length := reads_reach_dom (reads_mapNode enb erb) i hi
            obtain ⟨hS, hA⟩ := hbdis g i hi
            exact agr23 i hdom (fun hc => hS (List.mem_append_left _ hc)) hA
          have erb3 : EntriesRead (outAssign h2 a k r) eb peb := by
            refine entriesRead_agree erb ?_
            intro q hq g i hi
            exact agrB (g + 1) i (reach_subset_of_entry enb hq hi)
          have hrest3 : IsEntriesTree (outAssign h2 a k r) rest prest Srest := by
            refine isEntriesTree_agree hrest ?_
            intro i hi
            exact agr23 i (isEntriesTree_dom hrest i hi) (hdisr i hi)
              (fun hc => haSr (hc ▸ hi))
          have hbdis3 : ∀ g i, i ∈ reachAddrs g (outAssign h2 a k r) b →
              i ∉ Srest ∧ i ≠ a := by
            intro g i hi
            rw [reachAddrs_agree agrB] at hi
            obtain ⟨hS, hA⟩ := hbdis g i hi
            exact ⟨fun hc => hS (List.mem_append_right _ hc), hA⟩
          have hdone2r : ∀ p2, p2 ∈ rest → hasKey (doneEs ++ [(k, r)]) p2.1 = false := by
            intro p2 hp
            rw [hasKey_append, hdone p2 (by simp [hp]), Bool.false_or]
            have hne := hasKey_false_mem hndh.1 hp
            rw [hasKey]
            simp only [List.any_cons, List.any_nil, Bool.or_false]
            rw [beq_eq_false_iff_ne] at hne ⊢
            exact fun cne => hne cne.symm
          have ihr := ihrest ena3 enb3 erb3 hrest3 haSr hbdis3 hdone2r hndh.2
            (fun q hq => hwf q (by simp [hq]))
          -- transport the recursive result across the write-back
          have hPne2 : ∀ i, (i ∈ Sx ∨ InReach h y i ∨
              (h.length ≤ i ∧ i < h2.length)) → i ≠ a := by
            intro i hi
            rcases hi with hS | hY | hF
            · exact fun hc => haSx (hc ▸ hS)
            · obtain ⟨g, hg⟩ := hY
              exact (hyreach g i hg).2
            · omega
          have t3 := transport_outAssign (h := h2) k r rr2 reach2 hPne2
          match hpr : pureIaddEntriesAGo (pureIadd f) prest peb with
          | none =>
            rw [hpr] at ihr
            simp only [iaddEntriesAGo, if_pos hcont, ena, enb, elka, elk,
              erun2, ihr]
          | some (.error e) =>
            rw [hpr] at ihr
            simp only [iaddEntriesAGo, if_pos hcont, ena, enb, elka, elk,
              erun2, ihr]
          | some (.ok pcs) =>
            rw [hpr] at ihr
            obtain ⟨h', newEs2, erun, hlen, hwb3, hnode, hkeys, ernew, hreach⟩ := ihr
            have agrR : ∀ g i, i ∈ reachAddrs g (outAssign h2 a k r) r →
                hget h' i = hget (outAssign h2 a k r) i := by
              intro g i hi
              have hP := t3.2 g i hi
              rcases hP with hS | hY | hF
              · have hdm : i < (outAssign h2 a k r).length := by
                  rw [l3]
                  exact Nat.lt_of_lt_of_le (isTree_dom ht i hS) len2
                exact hwb3 i hdm (hdis i hS) (fun hc => haSx (hc ▸ hS))
              · obtain ⟨g2, hg2⟩ := hY
                have hdom : i < h.length := reads_reach_dom rvy i hg2
                refine hwb3 i (by rw [l3]; omega) ?_ (hyreach g2 i hg2).2
                exact fun hc => (hyreach g2 i hg2).1 (List.mem_append_right _ hc)
              · refine hwb3 i (by rw [l3]; omega) ?_ (by omega)
                intro hc
                have := isEntriesTree_dom hrest i hc
                omega
            refine ⟨h', (k, r) :: newEs2, ?_, ?_, ?_, ?_, ?_, ?_, ?_⟩
            · simp only [iaddEntriesAGo, if_pos hcont, ena, enb, elka, elk,
                erun2, erun]
            · rw [l3] at hlen; omega
            · intro i hilt hiS hia
              rw [hwb3 i (by rw [l3]; omega)
                (fun hc => hiS (List.mem_append_right _ hc)) hia]
              exact agr23 i hilt (fun hc => hiS (List.mem_append_left _ hc)) hia
            · rw [hnode, List.append_assoc]; rfl
            · simp [hkeys]
            · exact List.Forall₂.cons ⟨rfl, t3.1.reach_agree agrR⟩ ernew
            · intro p2 hp2 g i hi
              rcases List.mem_cons.mp hp2 with rfl | hp2r
              · rw [reachAddrs_agree agrR] at hi
                rcases t3.2 g i hi with hS | hY | hF
                · exact Or.inl (List.mem_append_left _ hS)
                · obtain ⟨g2, hg2⟩ := hY
                  exact Or.inr (Or.inl ⟨g2 + 1, reach_subset_of_entry enb hky hg2⟩)
                · refine Or.inr (Or.inr ⟨hF.1, ?_⟩)
                  rw [l3] at hlen
                  omega
              · rcases hreach p2 hp2r g i hi with hS | hB | hF
                · exact Or.inl (List.mem_append_right _ hS)
                · obtain ⟨g2, hg2⟩ := hB
                  rw [reachAddrs_agree agrB] at hg2
                  exact Or.inr (Or.inl ⟨g2, hg2⟩)
                · refine Or.inr (Or.inr ⟨?_, hF.2⟩)
                  rw [l3] at hF
                  omega

/-- Simulation of `operator.iadd` on two `Addable`s: `int + int`
rebinds to a fresh object, `list += list` and the Counter-like
in-place add mutate `a` and return it. -/
theorem opIadd_sim {h : Heap} {a b : Nat} {va vb : PVal} {Sa : List Nat}
    (t : IsTree h a va Sa) (rb : Reads h b vb)
    (hbdis : ∀ g i, i ∈ reachAddrs g h b → i ∉ Sa)
    (hva : pureIsAddable va = true) (hvb : pureIsAddable vb = true) :
    match pureOpAdd va vb with
    | .error e => opIadd h a b = .error e
    | .ok v => ∃ r h', opIadd h a b = .ok (r, h') ∧
        h.length ≤ h'.length ∧
        (∀ i, i < h.length → i ∉ Sa → hget h' i = hget h i) ∧
        Reads h' r v ∧
        (∀ g i, i ∈ reachAddrs g h' r →
          i ∈ Sa ∨ InReach h b i ∨ (h.length ≤ i ∧ i < h'.length)) ∧
        ((∀ n : Int, va ≠ .vint n) → r = a) ∧
        (∀ n : Int, va = .vint n → r = h.length) := by
  have ra : Reads h a va := isTree_reads t
  cases va with
  | vset xs => exact absurd hva (by simp [pureIsAddable])
  | vopq tg => exact absurd hva (by simp [pureIsAddable])
  | vint m =>
    have hx := reads_vint_node ra
    cases vb with
    | vset ys => exact absurd hvb (by simp [pureIsAddable])
    | vopq tg => exact absurd hvb (by simp [pureIsAddable])
    | vint n =>
      have hy := reads_vint_node rb
      show ∃ r h', opIadd h a b = .ok (r, h') ∧ _
      have hh : opIadd h a b = .ok (alloc h (.intNode (m + n))) := by
        simp only [opIadd, hx, hy]
      refine ⟨h.length, h ++ [.intNode (m + n)], by rw [hh]; rfl, by simp, ?_, ?_, ?_,
        fun hno => absurd rfl (hno m), fun _ _ => rfl⟩
      · intro i hilt hiS
        obtain ⟨n0, e0⟩ := hget_lt_some hilt
        rw [e0]
        exact hget_append e0 [Node.intNode (m + n)]
      · exact reads_intNode (hget_alloc_self h _)
      · intro g i hi
        have := reach_eq_self (hget_alloc_self h (.intNode (m + n))) rfl g i hi
        subst this
        exact Or.inr (Or.inr ⟨Nat.le_refl _, by simp⟩)
    | vlist ys =>
      have hy := reads_vlist_node rb
      show opIadd h a b = .error .otherError
      simp only [opIadd, hx, hy]
    | vmap ty pev =>
      obtain ⟨eb2, hy, _⟩ := reads_vmap_node rb
      cases ty with
      | counterT =>
        show opIadd h a b = .error .otherError
        simp only [opIadd, hx, hy]
      | dictT => exact absurd hvb (by simp [pureIsAddable])
      | subDictT => exact absurd hvb (by simp [pureIsAddable])
      | otherT => exact absurd hvb (by simp [pureIsAddable])
  | vlist xs =>
    have hx := reads_vlist_node ra
    have hSa : Sa = [a] := by cases t; rfl
    have halt : a < h.length := hget_lt_length hx
    cases vb with
    | vset ys => exact absurd hvb (by simp [pureIsAddable])
    | vopq tg => exact absurd hvb (by simp [pureIsAddable])
    | vint n =>
      have hy := reads_vint_node rb
      show opIadd h a b = .error .otherError
      simp only [opIadd, hx, hy]
    | vlist ys =>
      have hy := reads_vlist_node rb
      show ∃ r h', opIadd h a b = .ok (r, h') ∧ _
      have hh : opIadd h a b = .ok (a, hset h a (.listNode (xs ++ ys))) := by
        simp only [opIadd, hx, hy]
      refine ⟨a, hset h a (.listNode (xs ++ ys)), hh, by rw [length_hset], ?_, ?_, ?_,
        fun _ => rfl, fun n hc => absurd hc (by simp)⟩
      · intro i hilt hiS
        rw [hSa] at hiS
        exact hget_hset_ne h a _ (by simpa using hiS)
      · exact reads_listNode (hget_hset_self _ halt)
      · intro g i hi
        have := reach_eq_self (hget_hset_self (.listNode (xs ++ ys)) halt) rfl g i hi
        subst this
        exact Or.inl (by rw [hSa]; simp)
    | vmap ty pev =>
      obtain ⟨eb2, hy, _⟩ := reads_vmap_node rb
      cases ty with
      | counterT =>
        show opIadd h a b = .error .otherError
        simp only [opIadd, hx, hy]
      | dictT => exact absurd hvb (by simp [pureIsAddable])
      | subDictT => exact absurd hvb (by simp [pureIsAddable])
      | otherT => exact absurd hvb (by simp [pureIsAddable])
  | vmap ty pea =>
    cases ty with
    | dictT => exact absurd hva (by simp [pureIsAddable])
    | subDictT => exact absurd hva (by simp [pureIsAddable])
    | otherT => exact absurd hva (by simp [pureIsAddable])
    | counterT =>
      cases t with
      | map hx het hana =>
        rename_i ea Sents
        have era : EntriesRead h ea pea := isEntriesTree_reads het
        have halt : a < h.length := hget_lt_length hx
        cases vb with
        | vset ys => exact absurd hvb (by simp [pureIsAddable])
        | vopq tg => exact absurd hvb (by simp [pureIsAddable])
        | vint n =>
          have hy := reads_vint_node rb
          show opIadd h a b = .error .otherError
          simp only [opIadd, hx, hy]
        | vlist ys =>
          have hy := reads_vlist_node rb
          show opIadd h a b = .error .otherError
          simp only [opIadd, hx, hy]
        | vmap tyb peb =>
          obtain ⟨eb, hy, erb⟩ := reads_vmap_node rb
          cases tyb with
          | dictT => exact absurd hvb (by simp [pureIsAddable])
          | subDictT => exact absurd hvb (by simp [pureIsAddable])
          | otherT => exact absurd hvb (by simp [pureIsAddable])
          | counterT =>
            have sim := counterAddA_sim era erb
            match epc : pureCounterA pea peb with
            | .error e =>
              rw [epc] at sim
              have hps : pureOpAdd (.vmap .counterT pea) (.vmap .counterT peb) =
                  .error e := by
                simp only [pureOpAdd, epc]
              rw [hps]
              simp only [opIadd, hx, hy, sim]
            | .ok pcs =>
              rw [epc] at sim
              obtain ⟨cs, h1, ecs, x1, l1, er1, mem1⟩ := sim
              have hps : pureOpAdd (.vmap .counterT pea) (.vmap .counterT peb) =
                  .ok (.vmap .counterT
                    (pcs ++ peb.filter (fun p => !(hasKey pea p.1)))) := by
                simp only [pureOpAdd, epc]
              rw [hps]
              have hka := entriesRead_keys era
              have erf : EntriesRead h (eb.filter (fun p => !(hasKey ea p.1)))
                  (peb.filter (fun p => !(hasKey pea p.1))) :=
                entriesRead_filter_novel hka erb
              set nd := Node.mapNode .counterT
                (cs ++ eb.filter (fun p => !(hasKey ea p.1))) with hnd
              have hh : opIadd h a b = .ok (a, hset h1 a nd) := by
                simp only [opIadd, hx, hy, ecs]
              have halt1 : a < h1.length := Nat.lt_of_lt_of_le halt l1
              have hfnode : hget (hset h1 a nd) a = some nd := hget_hset_self nd halt1
              -- transports across the growth and the final in-place write
              have hPne : ∀ i, (i ∈ Sents ∨ InReach h b i ∨
                  (h.length ≤ i ∧ i < h1.length)) → i ≠ a := by
                intro i hi
                rcases hi with hS | hB | hF
                · exact fun hc => hana (hc ▸ hS)
                · obtain ⟨g, hg⟩ := hB
                  exact fun hc => hbdis g i hg (by rw [hc]; exact List.mem_cons_self a _)
                · omega
              have riCs : ∀ p, p ∈ cs → ReachIn h1 p.2 (fun i => i ∈ Sents ∨
                  InReach h b i ∨ (h.length ≤ i ∧ i < h1.length)) := by
                intro p hp
                rcases mem1 p hp with ⟨lf1, lf2, mm, ndint⟩ | hin
                · intro g i hi
                  have := reach_eq_self ndint rfl g i hi
                  subst this
                  exact Or.inr (Or.inr ⟨lf1, lf2⟩)
                · obtain ⟨q, _, _, rq⟩ := forall2_mem_left era hin
                  have ri0 : ReachIn h p.2 (fun i => i ∈ Sents) :=
                    fun g i hi => isEntriesTree_reach_sub het p hin g i hi
                  exact (transport_ext x1 rq ri0).2.mono (fun i hi => Or.inl hi)
              have riNov : ∀ p, p ∈ eb.filter (fun p => !(hasKey ea p.1)) →
                  ReachIn h1 p.2 (fun i => i ∈ Sents ∨ InReach h b i ∨
                    (h.length ≤ i ∧ i < h1.length)) := by
                intro p hp
                have hpb : p ∈ eb := (List.mem_filter.mp hp).1
                obtain ⟨q, _, _, rq⟩ := forall2_mem_left erb hpb
                have ri0 : ReachIn h p.2 (InReach h b) :=
                  fun g i hi => ⟨g + 1, reach_subset_of_entry hy hpb hi⟩
                exact (transport_ext x1 rq ri0).2.mono (fun i hi => Or.inr (Or.inl hi))
              have xo : ExtOut a h1 (hset h1 a nd) := by
                intro i n2 ne e2
                rw [hget_hset_ne h1 a nd ne]
                exact e2
              have t1 := entriesRead_transport
                (fun x' v' r' ri' => transport_extOut xo r' ri' hPne) er1 riCs
              have hBne : ∀ i, InReach h b i → i ≠ a := by
                intro i hB
                obtain ⟨g, hg⟩ := hB
                exact fun hc => hbdis g i hg (by rw [hc]; exact List.mem_cons_self a _)
              have riNov0 : ∀ p, p ∈ eb.filter (fun p => !(hasKey ea p.1)) →
                  ReachIn h p.2 (InReach h b) := by
                intro p hp
                have hpb : p ∈ eb := (List.mem_filter.mp hp).1
                exact fun g i hi => ⟨g + 1, reach_subset_of_entry hy hpb hi⟩
              have tN1 := entriesRead_transport
                (fun x' v' r' ri' => transport_ext x1 r' ri') erf riNov0
              have tN2 := entriesRead_transport
                (fun x' v' r' ri' => transport_extOut xo r' ri' hBne) tN1.1 tN1.2
              have erAll : EntriesRead (hset h1 a nd)
                  (cs ++ eb.filter (fun p => !(hasKey ea p.1)))
                  (pcs ++ peb.filter (fun p => !(hasKey pea p.1))) :=
                forall2_append t1.1 tN2.1
              refine ⟨a, hset h1 a nd, hh, ?_, ?_, reads_mapNode hfnode erAll, ?_,
                fun _ => rfl, fun n hc => absurd hc (by simp)⟩
              · rw [length_hset]; exact l1
              · intro i hilt hiS
                have hine : i ≠ a := fun hc => hiS (by rw [hc]; exact List.mem_cons_self a _)
                rw [hget_hset_ne h1 a nd hine]
                exact ext_agree_below x1 hilt
              · refine reachIn_mapNode hfnode ?_ (Or.inl (List.mem_cons_self a _))
                intro p hp
                rcases List.mem_append.mp hp with hpc | hpf
                · refine (t1.2 p hpc).mono ?_
                  intro i hi
                  rcases hi with hS | hB | hF
                  · exact Or.inl (List.mem_cons_of_mem _ hS)
                  · exact Or.inr (Or.inl hB)
                  · refine Or.inr (Or.inr ⟨hF.1, ?_⟩)
                    rw [length_hset]
                    exact hF.2
                · refine (tN2.2 p hpf).mono ?_
                  intro i hi
                  exact Or.inr (Or.inl hi)

/-- The in-place combine simulates its pure mirror on tree-shaped
first operands disjoint from the second operand. -/
theorem iadd_sim : ∀ f : Nat, IaddSim f := by
  intro f
  induction f with
  | zero =>
    intro h a b va vb Sa t rb hbdis wa wb
    exact rfl
  | succ f IHf =>
    intro h a b va vb Sa t rb hbdis wa wb
    have ra : Reads h a va := isTree_reads t
    obtain ⟨na, ega⟩ := hget_lt_some ra.lt_length
    obtain ⟨nb, egb⟩ := hget_lt_some rb.lt_length
    obtain ⟨eAa, eSa, eMa, eNa⟩ := reads_class ra ega
    obtain ⟨eAb, eSb, eMb, eNb⟩ := reads_class rb egb
    rcases hA : (pureIsAddable va && pureIsAddable vb) with _ | _
    case true =>
      rw [Bool.and_eq_true] at hA
      have hAh : (isAddable na && isAddable nb) = true := by
        rw [eAa, eAb, hA.1, hA.2]; rfl
      have hhs : iadd (f + 1) h a b = some (opIadd h a b) := by
        simp [iadd, ega, egb, hAh]
      have hps : pureIadd (f + 1) va vb = some (pureOpAdd va vb) := by
        simp [pureIadd, hA.1, hA.2]
      rw [hps]
      have osim := opIadd_sim t rb hbdis hA.1 hA.2
      match epo : pureOpAdd va vb with
      | .error e =>
        rw [epo] at osim
        rw [hhs, osim]
      | .ok v =>
        rw [epo] at osim
        obtain ⟨r, h', ho, hl, hwbd, hr, hri, hid1, hid2⟩ := osim
        refine ⟨r, h', by rw [hhs, ho], hl, hwbd, hr, hri, hid1, hid2, ?_⟩
        intro ta2 pea2 hva2 hfalse
        exact absurd hfalse (by simp)
    case false =>
      have hAh : (isAddable na && isAddable nb) = false := by
        rw [eAa, eAb]; exact hA
      rcases hS : (pureIsSet va && pureIsSet vb) with _ | _
      case true =>
        rw [Bool.and_eq_true] at hS
        have hSh : (isMutableSet na && isMutableSet nb) = true := by
          rw [eSa, eSb, hS.1, hS.2]; rfl
        cases va with
        | vint m => exact absurd hS.1 (by simp [pureIsSet])
        | vlist xs => exact absurd hS.1 (by simp [pureIsSet])
        | vopq tg => exact absurd hS.1 (by simp [pureIsSet])
        | vmap ty pea => exact absurd hS.1 (by simp [pureIsSet])
        | vset xs =>
          cases vb with
          | vint m => exact absurd hS.2 (by simp [pureIsSet])
          | vlist ys => exact absurd hS.2 (by simp [pureIsSet])
          | vopq tg => exact absurd hS.2 (by simp [pureIsSet])
          | vmap ty peb => exact absurd hS.2 (by simp [pureIsSet])
          | vset ys =>
            have hx := reads_vset_node ra
            have hy := reads_vset_node rb
            rw [ega] at hx
            cases hx
            rw [egb] at hy
            cases hy
            have hSa2 : Sa = [a] := by cases t; rfl
            have halt : a < h.length := hget_lt_length ega
            have hhs : iadd (f + 1) h a b = some (opIor h a b) := by
              simp [iadd, ega, egb, hAh, hSh]
            have hps : pureIadd (f + 1) (.vset xs) (.vset ys) =
                some (.ok (.vset (setUnion xs ys))) := by
              simp [pureIadd, hA, hS.1, hS.2]
            rw [hps]
            have hor : opIor h a b = .ok (a, hset h a (.setNode (setUnion xs ys))) := by
              simp [opIor, ega, egb]
            refine ⟨a, hset h a (.setNode (setUnion xs ys)), by rw [hhs, hor],
              by rw [length_hset], ?_, ?_, ?_, fun _ => rfl,
              fun n hc => absurd hc (by simp), fun t2 p2 hc => absurd hc (by simp)⟩
            · intro i hilt hiS
              rw [hSa2] at hiS
              exact hget_hset_ne h a _ (by simpa using hiS)
            · exact reads_setNode (hget_hset_self _ halt)
            · intro g i hi
              have := reach_eq_self (hget_hset_self (.setNode (setUnion xs ys)) halt)
                rfl g i hi
              subst this
              exact Or.inl (by rw [hSa2]; simp)
      case false =>
        have hSh : (isMutableSet na && isMutableSet nb) = false := by
          rw [eSa, eSb]; exact hS
        rcases hM : (pureIsMap va && pureIsMap vb) with _ | _
        case false =>
          have hMh : (isMutableMapping na && isMutableMapping nb) = false := by
            rw [eMa, eMb]; exact hM
          have hhs : iadd (f + 1) h a b =
              some (.error (.typeIncompatible (typeName na) (typeName nb))) := by
            simp [iadd, ega, egb, hAh, hSh, hMh]
          have hps : pureIadd (f + 1) va vb =
              some (.error (.typeIncompatible (typeNameV va) (typeNameV vb))) := by
            simp [pureIadd, hA, hS, hM]
          rw [hps, hhs, eNa, eNb]
        case true =>
          rw [Bool.and_eq_true] at hM
          cases va with
          | vint m => exact absurd hM.1 (by simp [pureIsMap])
          | vlist xs => exact absurd hM.1 (by simp [pureIsMap])
          | vset xs => exact absurd hM.1 (by simp [pureIsMap])
          | vopq tg => exact absurd hM.1 (by simp [pureIsMap])
          | vmap ta pea =>
            cases vb with
            | vint m => exact absurd hM.2 (by simp [pureIsMap])
            | vlist ys => exact absurd hM.2 (by simp [pureIsMap])
            | vset ys => exact absurd hM.2 (by simp [pureIsMap])
            | vopq tg => exact absurd hM.2 (by simp [pureIsMap])
            | vmap tb peb =>
              obtain ⟨eb, egb2, erb⟩ := reads_vmap_node rb
              rw [egb] at egb2
              cases egb2
              cases t with
              | map ega2 het hana =>
                rename_i ea Sents
                rw [ega] at ega2
                cases ega2
                obtain ⟨hndA, hwA⟩ := wfV_map_elim wa
                obtain ⟨hndB, hwB⟩ := wfV_map_elim wb
                have era : EntriesRead h ea pea := isEntriesTree_reads het
                have halt : a < h.length := hget_lt_length ega
                have hblt : b < h.length := hget_lt_length egb
                rcases hInst : tb.isInst ta with _ | _
                case false =>
                  have hhs : iadd (f + 1) h a b = some (.error (.typeIncompatible
                      (typeName (.mapNode ta ea)) (typeName (.mapNode tb eb)))) := by
                    simp [iadd, ega, egb, hAh, hSh, hInst, isMutableMapping]
                  have hps : pureIadd (f + 1) (.vmap ta pea) (.vmap tb peb) =
                      some (.error (.typeIncompatible
                        (typeNameV (.vmap ta pea)) (typeNameV (.vmap tb peb)))) := by
                    simp [pureIadd, pureIsMap, hA, hS, hInst]
                  rw [hps, hhs, eNa, eNb]
                case true =>
                  have hhs : iadd (f + 1) h a b =
                      (match iaddEntriesAGo (iadd f) h a b (ea.map Prod.fst)
                          (eb.map Prod.fst) with
                       | some (.ok h2) =>
                         match iaddEntriesBGo (deepcopy f) h2 a
                             (eb.filter (fun p => !(hasKey ea p.1))) with
                         | some h3 => some (.ok (a, h3))
                         | none => none
                       | some (.error e) => some (.error e)
                       | none => none) := by
                    simp [iadd, ega, egb, hAh, hSh, hInst, isMutableMapping]
                  have hkea : ea.map Prod.fst = pea.map Prod.fst := entriesRead_keys era
                  have hkeb : eb.map Prod.fst = peb.map Prod.fst := entriesRead_keys erb
                  have hndea : keysNodup ea = true := by
                    rw [keysNodup_congr hkea]; exact hndA
                  have hbdis0 : ∀ g i, i ∈ reachAddrs g h b → i ∉ Sents ∧ i ≠ a := by
                    intro g i hi
                    have := hbdis g i hi
                    exact ⟨fun hc => this (List.mem_cons_of_mem _ hc),
                      fun hc => this (by rw [hc]; exact List.mem_cons_self a _)⟩
                  have hdone0 : ∀ p, p ∈ ea → hasKey ([] : List (String × Nat)) p.1 = false :=
                    fun p _ => rfl
                  have afold := iaddEntriesAGo_sim IHf hwB ega egb erb het hana
                    hbdis0 hdone0 hndea hwA
                  match epA : pureIaddEntriesAGo (pureIadd f) pea peb with
                  | none =>
                    rw [epA] at afold
                    have hps : pureIadd (f + 1) (.vmap ta pea) (.vmap tb peb) = none := by
                      simp [pureIadd, pureIsMap, hA, hS, hInst, epA]
                    rw [hps, hhs, afold]
                  | some (.error e) =>
                    rw [epA] at afold
                    have hps : pureIadd (f + 1) (.vmap ta pea) (.vmap tb peb) =
                        some (.error e) := by
                      simp [pureIadd, pureIsMap, hA, hS, hInst, epA]
                    rw [hps, hhs, afold]
                  | some (.ok pcs) =>
                    rw [epA] at afold
                    obtain ⟨h2, newEs, erunA, lenA, wbA, hnodeA, hkeysA, ernewA, hreachA⟩ :=
                      afold
                    rw [List.nil_append] at hnodeA
                    -- transport of b and its novel entries across the first loop
                    have agrBr : ∀ g i, i ∈ reachAddrs g h b → hget h2 i = hget h i := by
                      intro g i hi
                      have hdom : i < h.length := reads_reach_dom rb i hi
                      obtain ⟨hS2, hA2⟩ := hbdis0 g i hi
                      exact wbA i hdom hS2 hA2
                    have erf : EntriesRead h (eb.filter (fun p => !(hasKey ea p.1)))
                        (peb.filter (fun p => !(hasKey pea p.1))) :=
                      entriesRead_filter_novel hkea erb
                    have erf2 : EntriesRead h2 (eb.filter (fun p => !(hasKey ea p.1)))
                        (peb.filter (fun p => !(hasKey pea p.1))) := by
                      refine entriesRead_agree erf ?_
                      intro q hq g i hi
                      exact agrBr (g + 1) i
                        (reach_subset_of_entry egb (List.mem_filter.mp hq).1 hi)
                    have riNov : ∀ p, p ∈ eb.filter (fun p => !(hasKey ea p.1)) →
                        ReachIn h2 p.2 (InReach h b) := by
                      intro p hp g i hi
                      have hpb : p ∈ eb := (List.mem_filter.mp hp).1
                      have agrE : ∀ g2 i2, i2 ∈ reachAddrs g2 h p.2 →
                          hget h2 i2 = hget h i2 := by
                        intro g2 i2 hi2
                        exact agrBr (g2 + 1) i2 (reach_subset_of_entry egb hpb hi2)
                      rw [reachAddrs_agree agrE] at hi
                      exact ⟨g + 1, reach_subset_of_entry egb hpb hi⟩
                    have hBne : ∀ i, InReach h b i → i ≠ a := by
                      intro i hB
                      obtain ⟨g, hg⟩ := hB
                      exact (hbdis0 g i hg).2
                    have disjB : ∀ p, p ∈ eb.filter (fun p => !(hasKey ea p.1)) →
                        hasKey newEs p.1 = false := by
                      intro p hp
                      rw [hasKey_congr hkeysA p.1]
                      have hpred := (List.mem_filter.mp hp).2
                      simpa using hpred
                    have hndBf : keysNodup (eb.filter (fun p => !(hasKey ea p.1))) = true := by
                      refine keysNodup_filter ?_
                      rw [keysNodup_congr hkeb]; exact hndB
                    have halt2 : a < h2.length := Nat.lt_of_lt_of_le halt lenA
                    have bfold := iaddEntriesBGo_sim (f := f) hBne erf2 riNov disjB
                      hndBf halt2 hnodeA
                    rcases hallB : ((peb.filter (fun p => !(hasKey pea p.1))).all
                        fun p => pureCopyOk f p.2) with _ | _
                    case false =>
                      have hbn := bfold.1 hallB
                      have hps : pureIadd (f + 1) (.vmap ta pea) (.vmap tb peb) = none := by
                        simp [pureIadd, pureIsMap, hA, hS, hInst, epA, hallB]
                      rw [hps]
                      show iadd (f + 1) h a b = none
                      rw [hhs, erunA]
                      show (match iaddEntriesBGo (deepcopy f) h2 a
                              (eb.filter (fun p => !(hasKey ea p.1))) with
                            | some h3 => some (Except.ok (a, h3))
                            | none => none) = none
                      rw [hbn]
                    case true =>
                      obtain ⟨h3, newcs, erunB, xoB, lenB, hnodeB, ernewB, hknewB, hwinB⟩ :=
                        bfold.2 hallB
                      have hps : pureIadd (f + 1) (.vmap ta pea) (.vmap tb peb) =
                          some (.ok (.vmap ta
                            (pcs ++ peb.filter (fun p => !(hasKey pea p.1))))) := by
                        simp [pureIadd, pureIsMap, hA, hS, hInst, epA, hallB]
                      rw [hps]
                      have hfin : iadd (f + 1) h a b = some (.ok (a, h3)) := by
                        rw [hhs, erunA]
                        show (match iaddEntriesBGo (deepcopy f) h2 a
                                (eb.filter (fun p => !(hasKey ea p.1))) with
                              | some h3 => some (Except.ok (a, h3))
                              | none => none) = some (.ok (a, h3))
                        rw [erunB]
                      have hPAne : ∀ i, (i ∈ Sents ∨ InReach h b i ∨
                          (h.length ≤ i ∧ i < h2.length)) → i ≠ a := by
                        intro i hi
                        rcases hi with hS2 | hB | hF
                        · exact fun hc => hana (hc ▸ hS2)
                        · exact hBne i hB
                        · omega
                      have tAfin := entriesRead_transport
                        (fun x' v' r' ri' => transport_extOut xoB r' ri' hPAne)
                        ernewA hreachA
                      have erAll : EntriesRead h3 (newEs ++ newcs)
                          (pcs ++ peb.filter (fun p => !(hasKey pea p.1))) :=
                        forall2_append tAfin.1 ernewB
                      refine ⟨a, h3, hfin, by omega, ?_,
                        reads_mapNode hnodeB erAll, ?_, fun _ => rfl,
                        fun n hc => absurd hc (by simp), ?_⟩
                      · -- outside the footprint of a nothing changes
                        intro i hilt hiS
                        have hine : i ≠ a :=
                          fun hc => hiS (by rw [hc]; exact List.mem_cons_self a _)
                        have hiSe : i ∉ Sents :=
                          fun hc => hiS (List.mem_cons_of_mem _ hc)
                        have s1 : hget h2 i = hget h i := wbA i hilt hiSe hine
                        obtain ⟨n0, e0⟩ := hget_lt_some (Nat.lt_of_lt_of_le hilt lenA)
                        rw [xoB i n0 hine e0, ← s1, e0]
                      · -- everything reachable from the result
                        refine reachIn_mapNode hnodeB ?_
                          (Or.inl (List.mem_cons_self a _))
                        intro p hp
                        rcases List.mem_append.mp hp with hpA | hpB
                        · refine (tAfin.2 p hpA).mono ?_
                          intro i hi
                          rcases hi with hS2 | hB | hF
                          · exact Or.inl (List.mem_cons_of_mem _ hS2)
                          · exact Or.inr (Or.inl hB)
                          · exact Or.inr (Or.inr ⟨hF.1, by omega⟩)
                        · obtain ⟨m1, m2, hm1, hm2, hm3, hm4, hw⟩ := hwinB p hpB
                          intro g i hi
                          have := windowClosed_reach hw hm2 hm3 i hi
                          exact Or.inr (Or.inr ⟨by omega, by omega⟩)
                      · -- b-novel keys hold deep copies in closed fresh windows
                        intro ta2 pea2 hveq hfalse
                        cases hveq
                        refine ⟨newEs ++ newcs, hnodeB, ?_⟩
                        intro p hp hkey
                        rcases List.mem_append.mp hp with hpA | hpB
                        · have hmem : p.1 ∈ pea.map Prod.fst := by
                            rw [← hkea, ← hkeysA]
                            exact List.mem_map_of_mem Prod.fst hpA
                          rw [hasKey_of_mem_fst hmem] at hkey
                          exact absurd hkey (by simp)
                        · obtain ⟨m1, m2, hm1, hm2, hm3, hm4, hw⟩ := hwinB p hpB
                          exact ⟨m1, m2, by omega, hm2, hm3, hm4, hw⟩

/-! ## The dispatch chain of `add` and `iadd` -/

/-- Both combines try the three structural categories pairwise, in the
order addable, set-like, mapping-like; the first pair-match wins, and
if no category contains both operands the `ValueError` naming both
runtime types is raised. -/
theorem dispatch_chain {f : Nat} {h : Heap} {a b : Nat} {va vb : PVal}
    (ra : Reads h a va) (rb : Reads h b vb) :
    ((pureIsAddable va && pureIsAddable vb) = true →
      add (f + 1) h a b = some (opAdd h a b) ∧
      iadd (f + 1) h a b = some (opIadd h a b)) ∧
    ((pureIsAddable va && pureIsAddable vb) = false →
      (pureIsSet va && pureIsSet vb) = true →
      add (f + 1) h a b = some (opOr h a b) ∧
      iadd (f + 1) h a b = some (opIor h a b)) ∧
    ((pureIsAddable va && pureIsAddable vb) = false →
      (pureIsSet va && pureIsSet vb) = false →
      (pureIsMap va && pureIsMap vb) = false →
      add (f + 1) h a b =
        some (.error (.typeIncompatible (typeNameV va) (typeNameV vb))) ∧
      iadd (f + 1) h a b =
        some (.error (.typeIncompatible (typeNameV va) (typeNameV vb)))) := by
  obtain ⟨na, ega⟩ := hget_lt_some ra.lt_length
  obtain ⟨nb, egb⟩ := hget_lt_some rb.lt_length
  obtain ⟨eAa, eSa, eMa, eNa⟩ := reads_class ra ega
  obtain ⟨eAb, eSb, eMb, eNb⟩ := reads_class rb egb
  refine ⟨?_, ?_, ?_⟩
  · intro hA
    have hAh : (isAddable na && isAddable nb) = true := by
      rw [eAa, eAb]; exact hA
    constructor
    · simp [add, ega, egb, hAh]
    · simp [iadd, ega, egb, hAh]
  · intro hA hS
    have hAh : (isAddable na && isAddable nb) = false := by
      rw [eAa, eAb]; exact hA
    have hSh : (isMutableSet na && isMutableSet nb) = true := by
      rw [eSa, eSb]; exact hS
    constructor
    · simp [add, ega, egb, hAh, hSh]
    · simp [iadd, ega, egb, hAh, hSh]
  · intro hA hS hM
    have hAh : (isAddable na && isAddable nb) = false := by
      rw [eAa, eAb]; exact hA
    have hSh : (isMutableSet na && isMutableSet nb) = false := by
      rw [eSa, eSb]; exact hS
    have hMh : (isMutableMapping na && isMutableMapping nb) = false := by
      rw [eMa, eMb]; exact hM
    constructor
    · rw [← eNa, ← eNb]
      simp [add, ega, egb, hAh, hSh, hMh]
    · rw [← eNa, ← eNb]
      simp [iadd, ega, egb, hAh, hSh, hMh]

/-! ## Claims -/

/-- C4: reducing a singleton sequence with no initial accumulator
returns the single item itself, by identity, with the heap untouched
(no combine, no copy, no mutation). -/
theorem claim_C4 : ∀ (f : Nat) (h : Heap) (x : Nat),
    accumulate f h [some x] none = some (.ok (some x, h)) := by
  intro f h x
  rfl

/-- C7: `None` entries are skipped and never an error: the empty
sequence and the all-`None` sequence both return the absent result
with the heap untouched, and `None` padding around an item does not
change the outcome at all. -/
theorem claim_C7 :
    (∀ (f : Nat) (h : Heap), accumulate f h [] none = some (.ok (none, h))) ∧
    (∀ (f : Nat) (h : Heap),
      accumulate f h [none, none] none = some (.ok (none, h))) ∧
    (∀ (f : Nat) (h : Heap) (x : Nat),
      accumulate f h [none, some x, none] none = accumulate f h [some x] none) := by
  exact ⟨fun f h => rfl, fun f h => rfl, fun f h x => rfl⟩

/-- C2: a successful `add` mutates neither input: every pre-existing
object is bit-identical afterwards, so both operands still read as
their pre-call deep values. -/
theorem claim_C2 {f : Nat} {h : Heap} {a b : Nat} {va vb : PVal} {r : Nat}
    {h' : Heap} (ra : Reads h a va) (rb : Reads h b vb)
    (wa : wfV va = true) (wb : wfV vb = true)
    (hrun : add f h a b = some (.ok (r, h'))) :
    (∀ i nd, hget h i = some nd → hget h' i = some nd) ∧
    Reads h' a va ∧ Reads h' b vb := by
  have sim := add_sim f ra rb wa wb
  match epure : pureAdd f va vb with
  | none =>
    rw [epure] at sim
    rw [hrun] at sim
    exact absurd sim (by simp)
  | some (.error e) =>
    rw [epure] at sim
    rw [hrun] at sim
    exact absurd sim (by simp)
  | some (.ok v) =>
    rw [epure] at sim
    obtain ⟨r2, h2, ho, hx, hl, hr, hri⟩ := sim
    rw [hrun] at ho
    cases ho
    exact ⟨fun i nd e => hx i nd e, ra.ext hx, rb.ext hx⟩

/-- Concrete instance of C2: merging `{x:1, y:2}` with `{y:10, z:3}`
by `add` leaves every pre-call object, and hence both operands' deep
values, untouched. -/
theorem claim_C2_witness :
    (∀ i nd, hget [Node.intNode 1, Node.intNode 2, Node.intNode 10,
        Node.intNode 3, Node.mapNode .dictT [("x", 0), ("y", 1)],
        Node.mapNode .dictT [("y", 2), ("z", 3)]] i = some nd →
      hget [Node.intNode 1, Node.intNode 2, Node.intNode 10, Node.intNode 3,
        Node.mapNode .dictT [("x", 0), ("y", 1)],
        Node.mapNode .dictT [("y", 2), ("z", 3)],
        Node.mapNode .dictT [("x", 7), ("y", 8), ("z", 9)], Node.intNode 1,
        Node.intNode 12, Node.intNode 3] i = some nd) ∧
    Reads [Node.intNode 1, Node.intNode 2, Node.intNode 10, Node.intNode 3,
      Node.mapNode .dictT [("x", 0), ("y", 1)],
      Node.mapNode .dictT [("y", 2), ("z", 3)],
      Node.mapNode .dictT [("x", 7), ("y", 8), ("z", 9)], Node.intNode 1,
      Node.intNode 12, Node.intNode 3] 4
      (.vmap .dictT [("x", .vint 1), ("y", .vint 2)]) ∧
    Reads [Node.intNode 1, Node.intNode 2, Node.intNode 10, Node.intNode 3,
      Node.mapNode .dictT [("x", 0), ("y", 1)],
      Node.mapNode .dictT [("y", 2), ("z", 3)],
      Node.mapNode .dictT [("x", 7), ("y", 8), ("z", 9)], Node.intNode 1,
      Node.intNode 12, Node.intNode 3] 5
      (.vmap .dictT [("y", .vint 10), ("z", .vint 3)]) :=
  claim_C2
    (⟨3, rfl⟩ : Reads [Node.intNode 1, Node.intNode 2, Node.intNode 10,
      Node.intNode 3, Node.mapNode .dictT [("x", 0), ("y", 1)],
      Node.mapNode .dictT [("y", 2), ("z", 3)]] 4
      (.vmap .dictT [("x", .vint 1), ("y", .vint 2)]))
    (⟨3, rfl⟩ : Reads [Node.intNode 1, Node.intNode 2, Node.intNode 10,
      Node.intNode 3, Node.mapNode .dictT [("x", 0), ("y", 1)],
      Node.mapNode .dictT [("y", 2), ("z", 3)]] 5
      (.vmap .dictT [("y", .vint 10), ("z", .vint 3)]))
    rfl rfl
    (rfl : add 4 [Node.intNode 1, Node.intNode 2, Node.intNode 10,
      Node.intNode 3, Node.mapNode .dictT [("x", 0), ("y", 1)],
      Node.mapNode .dictT [("y", 2), ("z", 3)]] 4 5 =
      some (.ok (6, [Node.intNode 1, Node.intNode 2, Node.intNode 10,
        Node.intNode 3, Node.mapNode .dictT [("x", 0), ("y", 1)],
        Node.mapNode .dictT [("y", 2), ("z", 3)],
        Node.mapNode .dictT [("x", 7), ("y", 8), ("z", 9)], Node.intNode 1,
        Node.intNode 12, Node.intNode 3])))

theorem pureIsMap_inv {v : PVal} (hv : pureIsMap v = true) :
    ∃ ty es, v = .vmap ty es := by
  cases v with
  | vint n => exact absurd hv (by simp [pureIsMap])
  | vlist xs => exact absurd hv (by simp [pureIsMap])
  | vset xs => exact absurd hv (by simp [pureIsMap])
  | vopq t => exact absurd hv (by simp [pureIsMap])
  | vmap ty es => exact ⟨ty, es, rfl⟩

/-- C6 counterexample: two mappings of the same runtime type (same
structural category, trivially in an instance-of relationship) on
which `add` nevertheless raises the `TypeIncompatible` error — it
propagates from the recursive merge of the shared key `k`, whose
values are an `int` and a `dict`.  This refutes the claim's "in every
other case ... the combine succeeds without raising that error". -/
theorem claim_C6_counterexample :
    (readVal 3 [Node.intNode 1, Node.mapNode .dictT [],
        Node.mapNode .dictT [("k", 0)], Node.mapNode .dictT [("k", 1)]] 2,
     readVal 3 [Node.intNode 1, Node.mapNode .dictT [],
        Node.mapNode .dictT [("k", 0)], Node.mapNode .dictT [("k", 1)]] 3,
     MapType.dictT.isInst .dictT,
     add 3 [Node.intNode 1, Node.mapNode .dictT [],
        Node.mapNode .dictT [("k", 0)], Node.mapNode .dictT [("k", 1)]] 2 3) =
    (some (.vmap .dictT [("k", .vint 1)]),
     some (.vmap .dictT [("k", .vmap .dictT [])]),
     true,
     some (.error (.typeIncompatible "int" "dict"))) := rfl

/-- C6 amended: the top-level dispatch of `add` raises
`TypeIncompatible` naming both operand types exactly when the operands
share no structural category, or are both mapping-like with neither
runtime type an instance of the other; a successful `add` implies the
operands were compatible in this sense.  (Compatibility does not
guarantee absence of the error: it can still propagate from the
recursive merge of a shared key, as the counterexample shows.) -/
theorem claim_C6_amended {f : Nat} {h : Heap} {a b : Nat} {va vb : PVal}
    (ra : Reads h a va) (rb : Reads h b vb) :
    ((pureIsAddable va && pureIsAddable vb) = false →
     (pureIsSet va && pureIsSet vb) = false →
     (pureIsMap va && pureIsMap vb) = false →
     add (f + 1) h a b =
       some (.error (.typeIncompatible (typeNameV va) (typeNameV vb)))) ∧
    (∀ ta pea tb peb, va = .vmap ta pea → vb = .vmap tb peb →
     (pureIsAddable va && pureIsAddable vb) = false →
     (tb.isInst ta || ta.isInst tb) = false →
     add (f + 1) h a b =
       some (.error (.typeIncompatible (typeNameV va) (typeNameV vb)))) ∧
    (∀ r h', add (f + 1) h a b = some (.ok (r, h')) →
      ((pureIsAddable va && pureIsAddable vb) = true ∨
       (pureIsSet va && pureIsSet vb) = true ∨
       ((pureIsMap va && pureIsMap vb) = true ∧
        ∃ ta pea tb peb, va = .vmap ta pea ∧ vb = .vmap tb peb ∧
          (tb.isInst ta || ta.isInst tb) = true))) := by
  obtain ⟨na, ega⟩ := hget_lt_some ra.lt_length
  obtain ⟨nb, egb⟩ := hget_lt_some rb.lt_length
  obtain ⟨eAa, eSa, eMa, eNa⟩ := reads_class ra ega
  obtain ⟨eAb, eSb, eMb, eNb⟩ := reads_class rb egb
  have hMapErr : ∀ ta pea tb peb, va = .vmap ta pea → vb = .vmap tb peb →
      (pureIsAddable va && pureIsAddable vb) = false →
      (tb.isInst ta || ta.isInst tb) = false →
      add (f + 1) h a b =
        some (.error (.typeIncompatible (typeNameV va) (typeNameV vb))) := by
    intro ta pea tb peb hva hvb hA hInst
    subst hva
    subst hvb
    have hAh : (isAddable na && isAddable nb) = false := by
      rw [eAa, eAb]; exact hA
    have hSh : (isMutableSet na && isMutableSet nb) = false := by
      rw [eSa, eSb]; rfl
    obtain ⟨ea, ega2, era⟩ := reads_vmap_node ra
    rw [ega] at ega2
    cases ega2
    obtain ⟨eb, egb2, erb⟩ := reads_vmap_node rb
    rw [egb] at egb2
    cases egb2
    rw [Bool.or_eq_false_iff] at hInst
    rw [← eNa, ← eNb]
    simp [add, ega, egb, hAh, hSh, hInst.1, hInst.2, isMutableMapping]
  refine ⟨fun hA hS hM => (dispatch_chain ra rb).2.2 hA hS hM |>.1, hMapErr, ?_⟩
  intro r h' hok
  rcases hA : (pureIsAddable va && pureIsAddable vb) with _ | _
  case true => exact Or.inl rfl
  case false =>
    rcases hS : (pureIsSet va && pureIsSet vb) with _ | _
    case true => exact Or.inr (Or.inl rfl)
    case false =>
      rcases hM : (pureIsMap va && pureIsMap vb) with _ | _
      case false =>
        have := ((dispatch_chain (f := f) ra rb).2.2 hA hS hM).1
        rw [hok] at this
        exact absurd this (by simp)
      case true =>
        rw [Bool.and_eq_true] at hM
        obtain ⟨ta, pea, hva⟩ := pureIsMap_inv hM.1
        obtain ⟨tb, peb, hvb⟩ := pureIsMap_inv hM.2
        rcases hInst : (tb.isInst ta || ta.isInst tb) with _ | _
        case false =>
          have := hMapErr ta pea tb peb hva hvb hA hInst
          rw [hok] at this
          exact absurd this (by simp)
        case true =>
          exact Or.inr (Or.inr ⟨by simp [hM.1, hM.2],
            ta, pea, tb, peb, hva, hvb, hInst⟩)

/-- Concrete instance of the amended C6: a set-like and a mapping-like
operand share no category, and `add` reports both type names. -/
theorem claim_C6_amended_witness :
    add 1 [Node.setNode [1], Node.mapNode .dictT []] 0 1 =
      some (.error (.typeIncompatible "set" "dict")) :=
  (claim_C6_amended (f := 0)
    (⟨1, rfl⟩ : Reads [Node.setNode [1], Node.mapNode .dictT []] 0 (.vset [1]))
    (⟨1, rfl⟩ : Reads [Node.setNode [1], Node.mapNode .dictT []] 1
      (.vmap .dictT []))).1 rfl rfl rfl

/-- C8 counterexample: the Counter-like mapping at address 2 satisfies
both the addable and the mapping capability (`isAddable` and
`isMutableMapping` both hold).  Paired with a plain `dict`, which is
not addable, `add` does not use its addable combine — `operator.add`
on this pair fails with a `TypeError` — but succeeds through the
recursive mapping merge, producing `{x: 3}`.  This refutes "a value
satisfying more than one capability is treated strictly as the first
matching category, so both combine operations use its addable
combine". -/
theorem claim_C8_counterexample :
    (isAddable (Node.mapNode .counterT [("x", 0)]),
     isMutableMapping (Node.mapNode .counterT [("x", 0)]),
     opAdd [Node.intNode 1, Node.intNode 2, Node.mapNode .counterT [("x", 0)],
       Node.mapNode .dictT [("x", 1)]] 2 3,
     add 3 [Node.intNode 1, Node.intNode 2, Node.mapNode .counterT [("x", 0)],
       Node.mapNode .dictT [("x", 1)]] 2 3,
     readVal 3 [Node.intNode 1, Node.intNode 2, Node.mapNode .counterT [("x", 0)],
       Node.mapNode .dictT [("x", 1)], Node.mapNode .dictT [("x", 5)],
       Node.intNode 3] 4) =
    (true,
     true,
     .error .otherError,
     some (.ok (4, [Node.intNode 1, Node.intNode 2,
       Node.mapNode .counterT [("x", 0)], Node.mapNode .dictT [("x", 1)],
       Node.mapNode .dictT [("x", 5)], Node.intNode 3])),
     some (.vmap .dictT [("x", .vint 3)])) := rfl

/-- C8 amended: the dispatch is pairwise with first match winning: a
branch is taken only when BOTH operands belong to its category, in the
order addable, set-like, mapping-like; a multi-capability value is
combined through its addable protocol only when the partner is also
addable, and otherwise falls through to a later shared category (all
three categories mismatching raises the `ValueError`). -/
theorem claim_C8_amended {f : Nat} {h : Heap} {a b : Nat} {va vb : PVal}
    (ra : Reads h a va) (rb : Reads h b vb) :
    ((pureIsAddable va && pureIsAddable vb) = true →
      add (f + 1) h a b = some (opAdd h a b) ∧
      iadd (f + 1) h a b = some (opIadd h a b)) ∧
    ((pureIsAddable va && pureIsAddable vb) = false →
      (pureIsSet va && pureIsSet vb) = true →
      add (f + 1) h a b = some (opOr h a b) ∧
      iadd (f + 1) h a b = some (opIor h a b)) ∧
    ((pureIsAddable va && pureIsAddable vb) = false →
      (pureIsSet va && pureIsSet vb) = false →
      (pureIsMap va && pureIsMap vb) = false →
      add (f + 1) h a b =
        some (.error (.typeIncompatible (typeNameV va) (typeNameV vb))) ∧
      iadd (f + 1) h a b =
        some (.error (.typeIncompatible (typeNameV va) (typeNameV vb)))) ∧
    (∀ ta ea tb eb, hget h a = some (.mapNode ta ea) →
      hget h b = some (.mapNode tb eb) →
      (pureIsAddable va && pureIsAddable vb) = false →
      add (f + 1) h a b =
        (if tb.isInst ta || ta.isInst tb then
          match addEntriesAGo (add f) (deepcopy f)
              (h ++ [Node.mapNode (if tb.isInst ta then ta else tb) []])
              h.length ea eb with
          | some (.ok h2) =>
            match addEntriesBGo (deepcopy f) h2 h.length
                (eb.filter (fun p => !(hasKey ea p.1))) with
            | some h3 => some (.ok (h.length, h3))
            | none => none
          | some (.error e) => some (.error e)
          | none => none
        else some (.error (.typeIncompatible (typeName (Node.mapNode ta ea))
          (typeName (Node.mapNode tb eb))))) ∧
      iadd (f + 1) h a b =
        (if tb.isInst ta then
          match iaddEntriesAGo (iadd f) h a b (ea.map Prod.fst)
              (eb.map Prod.fst) with
          | some (.ok h2) =>
            match iaddEntriesBGo (deepcopy f) h2 a
                (eb.filter (fun p => !(hasKey ea p.1))) with
            | some h3 => some (.ok (a, h3))
            | none => none
          | some (.error e) => some (.error e)
          | none => none
        else some (.error (.typeIncompatible (typeName (Node.mapNode ta ea))
          (typeName (Node.mapNode tb eb)))))) := by
  obtain ⟨na, ega⟩ := hget_lt_some ra.lt_length
  obtain ⟨nb, egb⟩ := hget_lt_some rb.lt_length
  obtain ⟨eAa, eSa, eMa, eNa⟩ := reads_class ra ega
  obtain ⟨eAb, eSb, eMb, eNb⟩ := reads_class rb egb
  have dc := dispatch_chain (f := f) ra rb
  refine ⟨dc.1, dc.2.1, dc.2.2, ?_⟩
  intro ta ea tb eb ega2 egb2 hA
  rw [ega] at ega2
  cases ega2
  have hAh : (isAddable (Node.mapNode ta ea) && isAddable nb) = false := by
    rw [eAa, eAb]; exact hA
  constructor
  · rw [egb] at egb2
    cases egb2
    rcases hInst : (tb.isInst ta || ta.isInst tb) with _ | _
    · rw [if_neg Bool.false_ne_true]
      have hI2 := hInst
      rw [Bool.or_eq_false_iff] at hI2
      simp [add, ega, egb, hAh, hI2.1, hI2.2, isMutableMapping, isMutableSet]
    · rw [if_pos rfl]
      simp [add, ega, egb, hAh, hInst, isMutableMapping, isMutableSet, alloc]
  · rw [egb] at egb2
    cases egb2
    rcases hInst : tb.isInst ta with _ | _
    · rw [if_neg Bool.false_ne_true]
      simp [iadd, ega, egb, hAh, hInst, isMutableMapping, isMutableSet]
    · rw [if_pos rfl]
      simp [iadd, ega, egb, hAh, hInst, isMutableMapping, isMutableSet]

/-- Concrete instance of the amended C8: two ints take the addable
branch of both combines. -/
theorem claim_C8_amended_witness :
    add 1 [Node.intNode 1, Node.intNode 2] 0 1 =
      some (opAdd [Node.intNode 1, Node.intNode 2] 0 1) ∧
    iadd 1 [Node.intNode 1, Node.intNode 2] 0 1 =
      some (opIadd [Node.intNode 1, Node.intNode 2] 0 1) :=
  (claim_C8_amended (f := 0)
    (⟨1, rfl⟩ : Reads [Node.intNode 1, Node.intNode 2] 0 (.vint 1))
    (⟨1, rfl⟩ : Reads [Node.intNode 1, Node.intNode 2] 1 (.vint 2))).1 rfl

theorem disjoint_of_trees {h : Heap} {b : Nat} {vb : PVal} {Sb Sa : List Nat}
    (tb : IsTree h b vb Sb) (hdisj : ∀ i, i ∈ Sb → i ∉ Sa) :
    ∀ g i, i ∈ reachAddrs g h b → i ∉ Sa :=
  fun g i hi => hdisj i (isTree_reach_sub tb g i hi)

/-- C3 counterexample.  First half: for two `int` accumulators `iadd`
succeeds but returns a fresh object (address 2), not `a` (address 0) —
`operator.iadd` on `int` is a rebind, so "the returned value r is a
itself" fails.  Second half: when `a` and `b` share the value object
under their common key (aliasing), the in-place merge of `a["j"]`
mutates `b["j"]` as well: `b` reads `{j: [1]}` before the call and
`{j: [1, 1]}` after, so "b is unchanged" also fails in general. -/
theorem claim_C3_counterexample :
    (iadd 2 [Node.intNode 1, Node.intNode 2] 0 1 =
      some (.ok (2, [Node.intNode 1, Node.intNode 2, Node.intNode 3])) ∧
     (2 : Nat) ≠ 0) ∧
    (readVal 3 [Node.listNode [1], Node.mapNode .dictT [("j", 0)],
        Node.mapNode .dictT [("j", 0)]] 2 =
      some (.vmap .dictT [("j", .vlist [1])]) ∧
     iadd 3 [Node.listNode [1], Node.mapNode .dictT [("j", 0)],
        Node.mapNode .dictT [("j", 0)]] 1 2 =
      some (.ok (1, [Node.listNode [1, 1], Node.mapNode .dictT [("j", 0)],
        Node.mapNode .dictT [("j", 0)]])) ∧
     readVal 3 [Node.listNode [1, 1], Node.mapNode .dictT [("j", 0)],
        Node.mapNode .dictT [("j", 0)]] 2 =
      some (.vmap .dictT [("j", .vlist [1, 1])])) :=
  ⟨⟨rfl, by decide⟩, rfl, rfl, rfl⟩

/-- C3 amended: on a tree-shaped first operand whose object graph is
disjoint from the second operand's reach, a successful
`iadd(a, b)` returns `a` itself whenever `a` is not an `int` (the
in-place operator cases and the mapping branch, which allocates no new
mapping shell), returns a fresh rebind when `a` is an `int`, leaves
`b` unchanged, and leaves `a` holding exactly the merged value of the
pure mirror. -/
theorem claim_C3_amended {f : Nat} {h : Heap} {a b : Nat} {va vb : PVal}
    {Sa : List Nat} {r : Nat} {h' : Heap}
    (t : IsTree h a va Sa) (rb : Reads h b vb)
    (hbdis : ∀ g i, i ∈ reachAddrs g h b → i ∉ Sa)
    (wa : wfV va = true) (wb : wfV vb = true)
    (hrun : iadd f h a b = some (.ok (r, h'))) :
    ((∀ n : Int, va ≠ .vint n) → r = a) ∧
    (∀ n : Int, va = .vint n → r = h.length ∧ r ≠ a) ∧
    Reads h' b vb ∧
    (∃ v, pureIadd f va vb = some (.ok v) ∧ Reads h' r v) := by
  have sim := iadd_sim f t rb hbdis wa wb
  match epure : pureIadd f va vb with
  | none =>
    rw [epure] at sim
    rw [hrun] at sim
    exact absurd sim (by simp)
  | some (.error e) =>
    rw [epure] at sim
    rw [hrun] at sim
    exact absurd sim (by simp)
  | some (.ok v) =>
    rw [epure] at sim
    obtain ⟨r2, h2, ho, hl, hwbd, hr, hri, hid1, hid2, hmapw⟩ := sim
    rw [hrun] at ho
    cases ho
    have halt : a < h.length := (isTree_reads t).lt_length
    refine ⟨hid1, ?_, ?_, v, rfl, hr⟩
    · intro n hva
      have := hid2 n hva
      exact ⟨this, by omega⟩
    · refine rb.reach_agree ?_
      intro g i hi
      exact hwbd i (reads_reach_dom rb i hi) (hbdis g i hi)

/-- Concrete instance of the amended C3: merging `{y: 5}` into
`{x: [1]}` in place returns the same mapping object `1`, leaves `b` at
address 3 unchanged, and stores the merged value `{x: [1], y: 5}`. -/
theorem claim_C3_amended_witness :
    (1 : Nat) = 1 ∧
    Reads [Node.listNode [1], Node.mapNode .dictT [("x", 0), ("y", 4)],
      Node.intNode 5, Node.mapNode .dictT [("y", 2)], Node.intNode 5] 3
      (.vmap .dictT [("y", .vint 5)]) ∧
    (∃ v, pureIadd 2 (.vmap .dictT [("x", .vlist [1])])
        (.vmap .dictT [("y", .vint 5)]) = some (.ok v) ∧
      Reads [Node.listNode [1], Node.mapNode .dictT [("x", 0), ("y", 4)],
        Node.intNode 5, Node.mapNode .dictT [("y", 2)], Node.intNode 5] 1 v) := by
  have tw : IsTree [Node.listNode [1], Node.mapNode .dictT [("x", 0)],
      Node.intNode 5, Node.mapNode .dictT [("y", 2)]] 1
      (.vmap .dictT [("x", .vlist [1])]) (1 :: ([0] ++ [])) := by
    exact @IsTree.map _ _ _ [("x", 0)] _ _ rfl
      (IsEntriesTree.cons (IsTree.list rfl) IsEntriesTree.nil
        (fun i _ => List.not_mem_nil i))
      (by decide)
  have tbw : IsTree [Node.listNode [1], Node.mapNode .dictT [("x", 0)],
      Node.intNode 5, Node.mapNode .dictT [("y", 2)]] 3
      (.vmap .dictT [("y", .vint 5)]) (3 :: ([2] ++ [])) := by
    exact @IsTree.map _ _ _ [("y", 2)] _ _ rfl
      (IsEntriesTree.cons (IsTree.int rfl) IsEntriesTree.nil
        (fun i _ => List.not_mem_nil i))
      (by decide)
  have hrun : iadd 2 [Node.listNode [1], Node.mapNode .dictT [("x", 0)],
      Node.intNode 5, Node.mapNode .dictT [("y", 2)]] 1 3 =
      some (.ok (1, [Node.listNode [1], Node.mapNode .dictT [("x", 0), ("y", 4)],
        Node.intNode 5, Node.mapNode .dictT [("y", 2)], Node.intNode 5])) := rfl
  have ap := claim_C3_amended tw (isTree_reads tbw)
    (disjoint_of_trees tbw (by decide)) rfl rfl hrun
  exact ⟨ap.1 (fun n hc => by cases hc), ap.2.2.1, ap.2.2.2⟩

/-! ## Characterization of the pure mapping merge (for C1) -/

theorem plookup_append_left {l1 l2 : List (String × PVal)} {k : String}
    {v : PVal} (e : plookup l1 k = some v) : plookup (l1 ++ l2) k = some v := by
  induction l1 with
  | nil => exact absurd e (by simp [plookup])
  | cons p rest ih =>
    rw [plookup] at e ⊢
    rcases ek : p.1 == k with _ | _
    · simp only [List.cons_append, List.find?, ek] at e ⊢
      exact ih e
    · simp only [List.cons_append, List.find?, ek] at e ⊢
      exact e

theorem plookup_append_right {l1 l2 : List (String × PVal)} {k : String}
    (e : plookup l1 k = none) : plookup (l1 ++ l2) k = plookup l2 k := by
  induction l1 with
  | nil => rfl
  | cons p rest ih =>
    rw [plookup] at e ⊢
    rcases ek : p.1 == k with _ | _
    · simp only [List.cons_append, List.find?, ek] at e ⊢
      exact ih e
    · simp only [List.find?, ek] at e
      exact absurd e (by simp)

theorem hasKey_false_plookup {l : List (String × PVal)} {k : String}
    (e : hasKey l k = false) : plookup l k = none := by
  induction l with
  | nil => rfl
  | cons p rest ih =>
    rw [hasKey, List.any_cons, Bool.or_eq_false_iff] at e
    rw [plookup]
    simp only [List.find?, e.1]
    exact ih e.2

theorem plookup_filter_novel {pea peb : List (String × PVal)} {k : String}
    (hk : hasKey pea k = false) :
    plookup (peb.filter (fun p => !(hasKey pea p.1))) k = plookup peb k := by
  induction peb with
  | nil => rfl
  | cons p rest ih =>
    rcases hf : hasKey pea p.1 with _ | _
    · rw [List.filter_cons_of_pos (by simp [hf])]
      rw [plookup, plookup]
      rcases ek : p.1 == k with _ | _
      · simp only [List.find?, ek]
        exact ih
      · simp only [List.find?, ek]
    · have ek : (p.1 == k) = false := by
        rw [beq_eq_false_iff_ne]
        intro hc
        rw [hc, hk] at hf
        exact absurd hf (by simp)
      have hskip : plookup (p :: rest) k = plookup rest k := by
        rw [plookup]
        simp only [List.find?, ek]
        rfl
      rw [List.filter_cons_of_neg (by simp [hf]), hskip]
      exact ih

/-- Common key/value characterization of a merged entry list
`cs ++ novel`: `cs` covers `a`-keys in `a`-order (shared keys merged
recursively, `a`-exclusive kept), `novel` is `b`-exclusive entries in
`b`-order. -/
theorem mergeEntries_spec {cs pea peb : List (String × PVal)}
    (hkeys : cs.map Prod.fst = pea.map Prod.fst)
    (hshared : ∀ k vx vy, plookup pea k = some vx → plookup peb k = some vy →
      ∃ v, (∃ g, pureAdd g vx vy = some (.ok v)) ∧ plookup cs k = some v)
    (hnone : ∀ k, plookup peb k = none → plookup cs k = plookup pea k) :
    (cs ++ peb.filter (fun p => !(hasKey pea p.1))).map Prod.fst =
      pea.map Prod.fst ++
        (peb.filter (fun p => !(hasKey pea p.1))).map Prod.fst ∧
    (∀ k vx vy, plookup pea k = some vx → plookup peb k = some vy →
      ∃ v, (∃ g, pureAdd g vx vy = some (.ok v)) ∧
        plookup (cs ++ peb.filter (fun p => !(hasKey pea p.1))) k = some v) ∧
    (∀ k vx, plookup pea k = some vx → plookup peb k = none →
      plookup (cs ++ peb.filter (fun p => !(hasKey pea p.1))) k = some vx) ∧
    (∀ k vy, plookup pea k = none → plookup peb k = some vy →
      plookup (cs ++ peb.filter (fun p => !(hasKey pea p.1))) k = some vy) := by
  refine ⟨by rw [List.map_append, hkeys], ?_, ?_, ?_⟩
  · intro k vx vy hx hy
    obtain ⟨v, hpv, hlk⟩ := hshared k vx vy hx hy
    exact ⟨v, hpv, plookup_append_left hlk⟩
  · intro k vx hx hy
    have := hnone k hy
    rw [hx] at this
    exact plookup_append_left this
  · intro k vy hx hy
    have hka : hasKey pea k = false := plookup_none_hasKey hx
    have hkc : hasKey cs k = false := by
      rw [hasKey_congr hkeys k]
      exact hka
    rw [plookup_append_right (hasKey_false_plookup hkc),
      plookup_filter_novel hka]
    exact hy

/-- What `add`'s first mapping loop produces, per key: `a`'s key order,
recursive merge on shared keys, `a`'s value on exclusive keys. -/
theorem pureEntriesAGo_spec {f : Nat} {peb : List (String × PVal)} :
    ∀ {pes cs : List (String × PVal)},
      pureEntriesAGo (pureAdd f) (pureCopyOk f) pes peb = some (.ok cs) →
      cs.map Prod.fst = pes.map Prod.fst ∧
      ∀ k, (plookup peb k = none → plookup cs k = plookup pes k) ∧
        (∀ vx vy, plookup pes k = some vx → plookup peb k = some vy →
          ∃ v, pureAdd f vx vy = some (.ok v) ∧ plookup cs k = some v) := by
  intro pes
  induction pes with
  | nil =>
    intro cs hok
    cases hok
    exact ⟨rfl, fun k => ⟨fun _ => rfl,
      fun vx vy hx _ => absurd hx (by simp [plookup])⟩⟩
  | cons p rest ih =>
    obtain ⟨k2, vx2⟩ := p
    intro cs hok
    rw [pureEntriesAGo] at hok
    rcases hplk2 : plookup peb k2 with _ | vy2
    · simp only [hplk2] at hok
      rcases hcp : pureCopyOk f vx2 with _ | _
      · rw [hcp, if_neg Bool.false_ne_true] at hok
        exact absurd hok (by simp)
      · rw [hcp, if_pos rfl] at hok
        match hr2 : pureEntriesAGo (pureAdd f) (pureCopyOk f) rest peb with
        | none => simp only [hr2] at hok; exact absurd hok (by simp)
        | some (.error e) => simp only [hr2] at hok; exact absurd hok (by simp)
        | some (.ok cs2) =>
          simp only [hr2] at hok
          have hcs : cs = (k2, vx2) :: cs2 := by
            have : some (Except.ok ((k2, vx2) :: cs2) :
                Except Err (List (String × PVal))) = some (.ok cs) := hok
            cases this
            rfl
          subst hcs
          obtain ⟨ihk, ihcl⟩ := ih hr2
          refine ⟨by simp [ihk], ?_⟩
          intro k
          rcases ek : k2 == k with _ | _
          · constructor
            · intro hbn
              rw [plookup, plookup]
              simp only [List.find?, ek]
              exact (ihcl k).1 hbn
            · intro vx vy hx hy
              rw [plookup] at hx
              simp only [List.find?, ek] at hx
              obtain ⟨v, hv, hlk⟩ := (ihcl k).2 vx vy hx hy
              refine ⟨v, hv, ?_⟩
              rw [plookup]
              simp only [List.find?, ek]
              exact hlk
          · have hkk : k2 = k := by
              rw [beq_iff_eq] at ek
              exact ek
            subst hkk
            constructor
            · intro _
              rw [plookup, plookup]
              simp only [List.find?, ek]
            · intro vx vy hx hy
              rw [hy] at hplk2
              exact absurd hplk2 (by simp)
    · simp only [hplk2] at hok
      match hrec2 : pureAdd f vx2 vy2 with
      | none => simp only [hrec2] at hok; exact absurd hok (by simp)
      | some (.error e) => simp only [hrec2] at hok; exact absurd hok (by simp)
      | some (.ok v2) =>
        simp only [hrec2] at hok
        match hr2 : pureEntriesAGo (pureAdd f) (pureCopyOk f) rest peb with
        | none => simp only [hr2] at hok; exact absurd hok (by simp)
        | some (.error e) => simp only [hr2] at hok; exact absurd hok (by simp)
        | some (.ok cs2) =>
          simp only [hr2] at hok
          have hcs : cs = (k2, v2) :: cs2 := by
            have : some (Except.ok ((k2, v2) :: cs2) :
                Except Err (List (String × PVal))) = some (.ok cs) := hok
            cases this
            rfl
          subst hcs
          obtain ⟨ihk, ihcl⟩ := ih hr2
          refine ⟨by simp [ihk], ?_⟩
          intro k
          rcases ek : k2 == k with _ | _
          · constructor
            · intro hbn
              rw [plookup, plookup]
              simp only [List.find?, ek]
              exact (ihcl k).1 hbn
            · intro vx vy hx hy
              rw [plookup] at hx
              simp only [List.find?, ek] at hx
              obtain ⟨v, hv, hlk⟩ := (ihcl k).2 vx vy hx hy
              refine ⟨v, hv, ?_⟩
              rw [plookup]
              simp only [List.find?, ek]
              exact hlk
          · have hkk : k2 = k := by
              rw [beq_iff_eq] at ek
              exact ek
            subst hkk
            constructor
            · intro hbn
              rw [hbn] at hplk2
              exact absurd hplk2 (by simp)
            · intro vx vy hx hy
              rw [plookup] at hx
              simp only [List.find?, ek] at hx
              cases hx
              rw [hy] at hplk2
              cases hplk2
              refine ⟨v2, hrec2, ?_⟩
              rw [plookup]
              simp only [List.find?, ek]
              rfl

/-- The Counter-like in-place sum, per key: `a`'s key order, integer
sums on shared keys, `a`'s value on exclusive keys. -/
theorem pureCounterA_spec {peb : List (String × PVal)} :
    ∀ {pea cs : List (String × PVal)},
      pureCounterA pea peb = .ok cs →
      cs.map Prod.fst = pea.map Prod.fst ∧
      ∀ k, (plookup peb k = none → plookup cs k = plookup pea k) ∧
        (∀ vx vy, plookup pea k = some vx → plookup peb k = some vy →
          ∃ m n : Int, vx = .vint m ∧ vy = .vint n ∧
            plookup cs k = some (.vint (m + n))) := by
  intro pea
  induction pea with
  | nil =>
    intro cs hok
    cases hok
    exact ⟨rfl, fun k => ⟨fun _ => rfl,
      fun vx vy hx _ => absurd hx (by simp [plookup])⟩⟩
  | cons p rest ih =>
    obtain ⟨k2, vx2⟩ := p
    intro cs hok
    rw [pureCounterA] at hok
    rcases hplk2 : plookup peb k2 with _ | vy2
    · simp only [hplk2] at hok
      match hr2 : pureCounterA rest peb with
      | .error e => simp only [hr2] at hok; exact absurd hok (by simp)
      | .ok cs2 =>
        simp only [hr2] at hok
        have hcs : cs = (k2, vx2) :: cs2 := by
          have : (Except.ok ((k2, vx2) :: cs2) :
              Except Err (List (String × PVal))) = .ok cs := hok
          cases this
          rfl
        subst hcs
        obtain ⟨ihk, ihcl⟩ := ih hr2
        refine ⟨by simp [ihk], ?_⟩
        intro k
        rcases ek : k2 == k with _ | _
        · constructor
          · intro hbn
            rw [plookup, plookup]
            simp only [List.find?, ek]
            exact (ihcl k).1 hbn
          · intro vx vy hx hy
            rw [plookup] at hx
            simp only [List.find?, ek] at hx
            obtain ⟨m, n, hm, hn, hlk⟩ := (ihcl k).2 vx vy hx hy
            refine ⟨m, n, hm, hn, ?_⟩
            rw [plookup]
            simp only [List.find?, ek]
            exact hlk
        · have hkk : k2 = k := by
            rw [beq_iff_eq] at ek
            exact ek
          subst hkk
          constructor
          · intro _
            rw [plookup, plookup]
            simp only [List.find?, ek]
          · intro vx vy hx hy
            rw [hy] at hplk2
            exact absurd hplk2 (by simp)
    · simp only [hplk2] at hok
      match hvx2 : vx2, hvy2 : vy2 with
      | .vint m2, .vint n2 =>
        simp only [hvx2, hvy2] at hok
        match hr2 : pureCounterA rest peb with
        | .error e => simp only [hr2] at hok; exact absurd hok (by simp)
        | .ok cs2 =>
          simp only [hr2] at hok
          have hcs : cs = (k2, .vint (m2 + n2)) :: cs2 := by
            have : (Except.ok ((k2, PVal.vint (m2 + n2)) :: cs2) :
                Except Err (List (String × PVal))) = .ok cs := hok
            cases this
            rfl
          subst hcs
          obtain ⟨ihk, ihcl⟩ := ih hr2
          refine ⟨by simp [ihk], ?_⟩
          intro k
          rcases ek : k2 == k with _ | _
          · constructor
            · intro hbn
              rw [plookup, plookup]
              simp only [List.find?, ek]
              exact (ihcl k).1 hbn
            · intro vx vy hx hy
              rw [plookup] at hx
              simp only [List.find?, ek] at hx
              obtain ⟨m, n, hm, hn, hlk⟩ := (ihcl k).2 vx vy hx hy
              refine ⟨m, n, hm, hn, ?_⟩
              rw [plookup]
              simp only [List.find?, ek]
              exact hlk
          · have hkk : k2 = k := by
              rw [beq_iff_eq] at ek
              exact ek
            subst hkk
            constructor
            · intro hbn
              rw [hbn] at hplk2
              exact absurd hplk2 (by simp)
            · intro vx vy hx hy
              rw [plookup] at hx
              simp only [List.find?, ek] at hx
              cases hx
              rw [hy] at hplk2
              cases hplk2
              refine ⟨m2, n2, rfl, rfl, ?_⟩
              rw [plookup]
              simp only [List.find?, ek]
              rfl
      | .vint m2, .vlist ys => simp only [hvx2, hvy2] at hok; exact absurd hok (by simp)
      | .vint m2, .vset ys => simp only [hvx2, hvy2] at hok; exact absurd hok (by simp)
      | .vint m2, .vmap ty es => simp only [hvx2, hvy2] at hok; exact absurd hok (by simp)
      | .vint m2, .vopq t => simp only [hvx2, hvy2] at hok; exact absurd hok (by simp)
      | .vlist xs, y => simp only [hvx2] at hok; exact absurd hok (by simp)
      | .vset xs, y => simp only [hvx2] at hok; exact absurd hok (by simp)
      | .vmap ty es, y => simp only [hvx2] at hok; exact absurd hok (by simp)
      | .vopq t, y => simp only [hvx2] at hok; exact absurd hok (by simp)

theorem pureAdd_map_inv {f : Nat} {ta tb : MapType} {pea peb : List (String × PVal)}
    {v : PVal}
    (hA : (pureIsAddable (PVal.vmap ta pea) && pureIsAddable (PVal.vmap tb peb)) = false)
    (hok : pureAdd (f + 1) (.vmap ta pea) (.vmap tb peb) = some (.ok v)) :
    ∃ cs, pureEntriesAGo (pureAdd f) (pureCopyOk f) pea peb = some (.ok cs) ∧
      v = .vmap (if tb.isInst ta then ta else tb)
        (cs ++ peb.filter (fun p => !(hasKey pea p.1))) ∧
      (tb.isInst ta || ta.isInst tb) = true ∧
      ((peb.filter (fun p => !(hasKey pea p.1))).all
        fun p => pureCopyOk f p.2) = true := by
  simp only [pureAdd, hA, pureIsSet, pureIsMap, Bool.and_self, Bool.false_eq_true,
    if_false] at hok
  rcases hInst : (tb.isInst ta || ta.isInst tb) with _ | _
  · simp only [hInst, Bool.false_eq_true, if_false] at hok
    exact absurd hok (by simp)
  · simp only [hInst, if_true] at hok
    match hAgo : pureEntriesAGo (pureAdd f) (pureCopyOk f) pea peb with
    | none => simp only [hAgo] at hok; exact absurd hok (by simp)
    | some (.error e) => simp only [hAgo] at hok; exact absurd hok (by simp)
    | some (.ok cs) =>
      simp only [hAgo] at hok
      rcases hall : ((peb.filter (fun p => !(hasKey pea p.1))).all
          fun p => pureCopyOk f p.2) with _ | _
      · simp only [hall, Bool.false_eq_true, if_false] at hok
        exact absurd hok (by simp)
      · simp only [hall, if_true] at hok
        have : some (Except.ok (PVal.vmap (if tb.isInst ta then ta else tb)
            (cs ++ peb.filter (fun p => !(hasKey pea p.1)))) : Except Err PVal) =
            some (.ok v) := hok
        cases this
        exact ⟨cs, rfl, rfl, rfl, hall⟩

theorem pureAdd_counter_inv {f : Nat} {pea peb : List (String × PVal)} {v : PVal}
    (hok : pureAdd (f + 1) (.vmap .counterT pea) (.vmap .counterT peb) =
      some (.ok v)) :
    ∃ cs, pureCounterA pea peb = .ok cs ∧
      v = .vmap .counterT (cs ++ peb.filter (fun p => !(hasKey pea p.1))) := by
  simp only [pureAdd, pureIsAddable, Bool.and_self, if_true, pureOpAdd] at hok
  match hpc : pureCounterA pea peb with
  | .error e => simp only [hpc] at hok; exact absurd hok (by simp)
  | .ok cs =>
    simp only [hpc] at hok
    have : some (Except.ok (PVal.vmap .counterT
        (cs ++ peb.filter (fun p => !(hasKey pea p.1)))) : Except Err PVal) =
        some (.ok v) := hok
    cases this
    exact ⟨cs, rfl, rfl⟩

/-- C1: a successful mapping merge returns a mapping whose key order
is `a`'s keys in `a`'s order followed by `b`'s novel keys in `b`'s
order; shared keys hold the recursive combine of the two values,
exclusive keys hold the contributing side's value. -/
theorem claim_C1 {f : Nat} {h : Heap} {a b : Nat} {ta tb : MapType}
    {pea peb : List (String × PVal)} {r : Nat} {h' : Heap}
    (ra : Reads h a (.vmap ta pea)) (rb : Reads h b (.vmap tb peb))
    (wa : wfV (.vmap ta pea) = true) (wb : wfV (.vmap tb peb) = true)
    (hrun : add (f + 1) h a b = some (.ok (r, h'))) :
    ∃ ty pres, Reads h' r (.vmap ty pres) ∧
      pres.map Prod.fst = pea.map Prod.fst ++
        (peb.filter (fun p => !(hasKey pea p.1))).map Prod.fst ∧
      (∀ k vx vy, plookup pea k = some vx → plookup peb k = some vy →
        ∃ v, (∃ g, pureAdd g vx vy = some (.ok v)) ∧ plookup pres k = some v) ∧
      (∀ k vx, plookup pea k = some vx → plookup peb k = none →
        plookup pres k = some vx) ∧
      (∀ k vy, plookup pea k = none → plookup peb k = some vy →
        plookup pres k = some vy) := by
  have sim := add_sim (f + 1) ra rb wa wb
  match epure : pureAdd (f + 1) (.vmap ta pea) (.vmap tb peb) with
  | none =>
    rw [epure] at sim
    rw [hrun] at sim
    exact absurd sim (by simp)
  | some (.error e) =>
    rw [epure] at sim
    rw [hrun] at sim
    exact absurd sim (by simp)
  | some (.ok v) =>
    rw [epure] at sim
    obtain ⟨r2, h2, ho, hx, hl, hr, hri⟩ := sim
    rw [hrun] at ho
    cases ho
    rcases hA : (pureIsAddable (PVal.vmap ta pea) &&
        pureIsAddable (PVal.vmap tb peb)) with _ | _
    · obtain ⟨cs, hAgo, hv, _, _⟩ := pureAdd_map_inv hA epure
      subst hv
      obtain ⟨hkeys, hcl⟩ := pureEntriesAGo_spec hAgo
      have ms := mergeEntries_spec hkeys
        (fun k vx vy hx2 hy2 => by
          obtain ⟨v2, hv2, hlk⟩ := (hcl k).2 vx vy hx2 hy2
          exact ⟨v2, ⟨f, hv2⟩, hlk⟩)
        (fun k hbn => (hcl k).1 hbn)
      exact ⟨_, _, hr, ms.1, ms.2.1, ms.2.2.1, ms.2.2.2⟩
    · have hta : ta = .counterT := by
        rw [Bool.and_eq_true] at hA
        cases ta with
        | counterT => rfl
        | dictT => exact absurd hA.1 (by simp [pureIsAddable])
        | subDictT => exact absurd hA.1 (by simp [pureIsAddable])
        | otherT => exact absurd hA.1 (by simp [pureIsAddable])
      have htb : tb = .counterT := by
        rw [Bool.and_eq_true] at hA
        cases tb with
        | counterT => rfl
        | dictT => exact absurd hA.2 (by simp [pureIsAddable])
        | subDictT => exact absurd hA.2 (by simp [pureIsAddable])
        | otherT => exact absurd hA.2 (by simp [pureIsAddable])
      subst hta
      subst htb
      obtain ⟨cs, hpc, hv⟩ := pureAdd_counter_inv epure
      subst hv
      obtain ⟨hkeys, hcl⟩ := pureCounterA_spec hpc
      have ms := mergeEntries_spec hkeys
        (fun k vx vy hx2 hy2 => by
          obtain ⟨m, n, hm, hn, hlk⟩ := (hcl k).2 vx vy hx2 hy2
          subst hm
          subst hn
          exact ⟨.vint (m + n), ⟨1, rfl⟩, hlk⟩)
        (fun k hbn => (hcl k).1 hbn)
      exact ⟨_, _, hr, ms.1, ms.2.1, ms.2.2.1, ms.2.2.2⟩

/-- Concrete instance of C1: `add({x:1, y:2}, {y:10, z:3})` produces a
mapping with key order `[x, y, z]` (and values `{x:1, y:12, z:3}`,
fixed by the per-key clauses of C1). -/
theorem claim_C1_witness :
    ∃ ty pres,
      Reads [Node.intNode 1, Node.intNode 2, Node.intNode 10, Node.intNode 3,
        Node.mapNode .dictT [("x", 0), ("y", 1)],
        Node.mapNode .dictT [("y", 2), ("z", 3)],
        Node.mapNode .dictT [("x", 7), ("y", 8), ("z", 9)], Node.intNode 1,
        Node.intNode 12, Node.intNode 3] 6 (.vmap ty pres) ∧
      pres.map Prod.fst = ["x", "y", "z"] := by
  obtain ⟨ty, pres, hre, hkeys, _⟩ := claim_C1 (f := 3)
    (⟨3, rfl⟩ : Reads [Node.intNode 1, Node.intNode 2, Node.intNode 10,
      Node.intNode 3, Node.mapNode .dictT [("x", 0), ("y", 1)],
      Node.mapNode .dictT [("y", 2), ("z", 3)]] 4
      (.vmap .dictT [("x", .vint 1), ("y", .vint 2)]))
    (⟨3, rfl⟩ : Reads [Node.intNode 1, Node.intNode 2, Node.intNode 10,
      Node.intNode 3, Node.mapNode .dictT [("x", 0), ("y", 1)],
      Node.mapNode .dictT [("y", 2), ("z", 3)]] 5
      (.vmap .dictT [("y", .vint 10), ("z", .vint 3)]))
    rfl rfl rfl
  exact ⟨ty, pres, hre, hkeys.trans rfl⟩

/-! ## Numeric and set-like reductions (for C5) -/

theorem forall2_imp_mem {α β : Type} {P Q : α → β → Prop} :
    ∀ {l1 : List α} {l2 : List β}, List.Forall₂ P l1 l2 →
      (∀ a b, a ∈ l1 → P a b → Q a b) → List.Forall₂ Q l1 l2 := by
  intro l1
  induction l1 with
  | nil => intro l2 fa _; cases fa; exact List.Forall₂.nil
  | cons a rest ih =>
    intro l2 fa himp
    cases fa with
    | cons hp hrest =>
      exact List.Forall₂.cons (himp _ _ (by simp) hp)
        (ih hrest (fun a2 b2 ha2 hp2 => himp a2 b2 (by simp [ha2]) hp2))

theorem filterMap_id_map_some {α : Type} (l : List α) :
    (l.map some).filterMap id = l := by
  induction l with
  | nil => rfl
  | cons a rest ih => simp [ih]

theorem mem_setUnion {xs ys : List Int} {m : Int} :
    m ∈ setUnion xs ys ↔ (m ∈ xs ∨ m ∈ ys) := by
  rw [setUnion, List.mem_append, List.mem_filter]
  constructor
  · rintro (hx | ⟨hy, _⟩)
    · exact Or.inl hx
    · exact Or.inr hy
  · rintro (hx | hy)
    · exact Or.inl hx
    · rcases hc : xs.contains m with _ | _
      · exact Or.inr ⟨hy, by simp [hc]⟩
      · exact Or.inl (by simpa using hc)

theorem foldIadd_ints {f : Nat} :
    ∀ {xs : List Nat} {ns : List Int} {h : Heap} {c : Nat} {m : Int},
      hget h c = some (.intNode m) →
      List.Forall₂ (fun x n => hget h x = some (.intNode n)) xs ns →
      ∃ c' h', foldIadd (iadd (f + 1)) h c xs = some (.ok (c', h')) ∧
        hget h' c' = some (.intNode (m + ns.sum)) := by
  intro xs
  induction xs with
  | nil =>
    intro ns h c m hc hfa
    cases hfa
    exact ⟨c, h, rfl, by simpa using hc⟩
  | cons x rest ih =>
    intro ns h c m hc hfa
    cases hfa with
    | cons hx hrest =>
      rename_i n ns2
      have hstep : iadd (f + 1) h c x =
          some (.ok (h.length, h ++ [.intNode (m + n)])) := by
        simp [iadd, hc, hx, opIadd, alloc, isAddable]
      have hc1 : hget (h ++ [.intNode (m + n)]) h.length =
          some (.intNode (m + n)) := hget_alloc_self h _
      have hrest1 : List.Forall₂ (fun xi ni => hget (h ++ [Node.intNode (m + n)]) xi
          = some (.intNode ni)) rest ns2 := by
        refine forall2_imp_mem hrest ?_
        intro xi ni _ e
        exact hget_append e _
      obtain ⟨c', h', hfold, hval⟩ := ih hc1 hrest1
      refine ⟨c', h', ?_, ?_⟩
      · rw [foldIadd, hstep]
        exact hfold
      · rw [hval, List.sum_cons, ← Int.add_assoc]

theorem foldIadd_sets {f : Nat} :
    ∀ {xs : List Nat} {ss : List (List Int)} {h : Heap} {c : Nat} {acc : List Int},
      hget h c = some (.setNode acc) →
      List.Forall₂ (fun x s => hget h x = some (.setNode s)) xs ss →
      c ∉ xs →
      ∃ h' zs, foldIadd (iadd (f + 1)) h c xs = some (.ok (c, h')) ∧
        hget h' c = some (.setNode zs) ∧
        ∀ m : Int, m ∈ zs ↔ (m ∈ acc ∨ ∃ s, s ∈ ss ∧ m ∈ s) := by
  intro xs
  induction xs with
  | nil =>
    intro ss h c acc hc hfa hnm
    cases hfa
    refine ⟨h, acc, rfl, hc, ?_⟩
    intro m
    constructor
    · exact fun hm => Or.inl hm
    · rintro (hm | ⟨s, hs, _⟩)
      · exact hm
      · exact absurd hs (by simp)
  | cons x rest ih =>
    intro ss h c acc hc hfa hnm
    cases hfa with
    | cons hx hrest =>
      rename_i s ss2
      have hcx : c ≠ x := fun hcc => hnm (by rw [hcc]; exact List.mem_cons_self x _)
      have hstep : iadd (f + 1) h c x =
          some (.ok (c, hset h c (.setNode (setUnion acc s)))) := by
        simp [iadd, hc, hx, opIor, isAddable, isMutableSet]
      have hclt : c < h.length := hget_lt_length hc
      have hc1 : hget (hset h c (.setNode (setUnion acc s))) c =
          some (.setNode (setUnion acc s)) := hget_hset_self _ hclt
      have hrest1 : List.Forall₂ (fun xi si =>
          hget (hset h c (.setNode (setUnion acc s))) xi = some (.setNode si))
          rest ss2 := by
        refine forall2_imp_mem hrest ?_
        intro xi si hxi e
        have hxc : xi ≠ c :=
          fun hcc => hnm (List.mem_cons_of_mem _ (hcc ▸ hxi))
        rw [hget_hset_ne h c _ hxc]
        exact e
      obtain ⟨h', zs, hfold, hval, hmem⟩ := ih hc1 hrest1
        (fun hcc => hnm (List.mem_cons_of_mem _ hcc))
      refine ⟨h', zs, ?_, hval, ?_⟩
      · rw [foldIadd, hstep]
        exact hfold
      · intro m
        rw [hmem m, mem_setUnion]
        constructor
        · rintro ((hm | hm) | ⟨u, hu, hmu⟩)
          · exact Or.inl hm
          · exact Or.inr ⟨s, by simp, hm⟩
          · exact Or.inr ⟨u, by simp [hu], hmu⟩
        · rintro (hm | ⟨u, hu, hmu⟩)
          · exact Or.inl (Or.inl hm)
          · rcases List.mem_cons.mp hu with rfl | hu2
            · exact Or.inl (Or.inr hmu)
            · exact Or.inr ⟨u, hu2, hmu⟩

theorem accumulate_ints {f : Nat} {h : Heap} {x : Nat} {xs : List Nat}
    {n : Int} {ns : List Int} (hx : hget h x = some (.intNode n))
    (hxs : List.Forall₂ (fun xi ni => hget h xi = some (.intNode ni)) xs ns) :
    ∃ r h', accumulate (f + 1) h ((x :: xs).map some) none =
      some (.ok (some r, h')) ∧
      hget h' r = some (.intNode (n + ns.sum)) := by
  cases hxs with
  | nil => exact ⟨x, h, rfl, by simpa using hx⟩
  | cons hx2 hrest =>
    rename_i x2 n2 xs2 ns2
    have hadd : add (f + 1) h x x2 =
        some (.ok (h.length, h ++ [.intNode (n + n2)])) := by
      simp [add, hx, hx2, opAdd, alloc, isAddable]
    have hc1 : hget (h ++ [.intNode (n + n2)]) h.length =
        some (.intNode (n + n2)) := hget_alloc_self h _
    have hrest1 : List.Forall₂ (fun xi ni =>
        hget (h ++ [Node.intNode (n + n2)]) xi = some (.intNode ni)) xs2 ns2 := by
      refine forall2_imp_mem hrest ?_
      intro xi ni _ e
      exact hget_append e _
    obtain ⟨c', h', hfold, hval⟩ := foldIadd_ints (f := f) hc1 hrest1
    refine ⟨c', h', ?_, ?_⟩
    · show accumulate (f + 1) h (some x :: some x2 :: xs2.map some) none = _
      rw [accumulate]
      simp only [List.filterMap_cons, id, filterMap_id_map_some, hadd, hfold]
    · rw [hval, List.sum_cons, ← Int.add_assoc]

theorem accumulate_sets {f : Nat} {h : Heap} {x : Nat} {xs : List Nat}
    {s : List Int} {ss : List (List Int)} (hx : hget h x = some (.setNode s))
    (hxs : List.Forall₂ (fun xi si => hget h xi = some (.setNode si)) xs ss) :
    ∃ r h' zs, accumulate (f + 1) h ((x :: xs).map some) none =
      some (.ok (some r, h')) ∧
      hget h' r = some (.setNode zs) ∧
      ∀ m : Int, m ∈ zs ↔ ∃ u, u ∈ (s :: ss) ∧ m ∈ u := by
  cases hxs with
  | nil =>
    refine ⟨x, h, s, rfl, hx, ?_⟩
    intro m
    constructor
    · exact fun hm => ⟨s, by simp, hm⟩
    · rintro ⟨u, hu, hmu⟩
      rcases List.mem_cons.mp hu with rfl | hu2
      · exact hmu
      · exact absurd hu2 (by simp)
  | cons hx2 hrest =>
    rename_i x2 s2 xs2 ss2
    have hadd : add (f + 1) h x x2 =
        some (.ok (h.length, h ++ [.setNode (setUnion s s2)])) := by
      simp [add, hx, hx2, opOr, alloc, isAddable, isMutableSet]
    have hc1 : hget (h ++ [.setNode (setUnion s s2)]) h.length =
        some (.setNode (setUnion s s2)) := hget_alloc_self h _
    have hrest1 : List.Forall₂ (fun xi si =>
        hget (h ++ [Node.setNode (setUnion s s2)]) xi = some (.setNode si))
        xs2 ss2 := by
      refine forall2_imp_mem hrest ?_
      intro xi si _ e
      exact hget_append e _
    have hfresh : h.length ∉ xs2 := by
      intro hc
      obtain ⟨si, _, e⟩ := forall2_mem_left hrest hc
      have := hget_lt_length e
      omega
    obtain ⟨h', zs, hfold, hval, hmem⟩ := foldIadd_sets (f := f) hc1 hrest1 hfresh
    refine ⟨h.length, h', zs, ?_, hval, ?_⟩
    · show accumulate (f + 1) h (some x :: some x2 :: xs2.map some) none = _
      rw [accumulate]
      simp only [List.filterMap_cons, id, filterMap_id_map_some, hadd, hfold]
    · intro m
      rw [hmem m, mem_setUnion]
      constructor
      · rintro ((hm | hm) | ⟨u, hu, hmu⟩)
        · exact ⟨s, by simp, hm⟩
        · exact ⟨s2, by simp, hm⟩
        · exact ⟨u, by simp [hu], hmu⟩
      · rintro ⟨u, hu, hmu⟩
        rcases List.mem_cons.mp hu with rfl | hu2
        · exact Or.inl (Or.inl hmu)
        · rcases List.mem_cons.mp hu2 with rfl | hu3
          · exact Or.inl (Or.inr hmu)
          · exact Or.inr ⟨u, hu3, hmu⟩

/-- C5: reducing a non-empty sequence of `int` accumulators computes
their sum (the left-fold of the combine: one copy-producing `add`
followed by in-place `iadd`s), so the result is order-independent; for
set-like accumulators the reduction computes the membership union,
again independent of the order of the items. -/
theorem claim_C5 :
    (∀ (f : Nat) (h : Heap) (x y : Nat) (xs ys : List Nat) (n m : Int)
        (ns ms : List Int),
      hget h x = some (.intNode n) →
      List.Forall₂ (fun xi ni => hget h xi = some (.intNode ni)) xs ns →
      hget h y = some (.intNode m) →
      List.Forall₂ (fun yi mi => hget h yi = some (.intNode mi)) ys ms →
      (n :: ns).Perm (m :: ms) →
      ∃ r h' r2 h2,
        accumulate (f + 1) h ((x :: xs).map some) none =
          some (.ok (some r, h')) ∧
        hget h' r = some (.intNode (n :: ns).sum) ∧
        accumulate (f + 1) h ((y :: ys).map some) none =
          some (.ok (some r2, h2)) ∧
        hget h2 r2 = some (.intNode (n :: ns).sum)) ∧
    (∀ (f : Nat) (h : Heap) (x y : Nat) (xs ys : List Nat) (s t : List Int)
        (ss ts : List (List Int)),
      hget h x = some (.setNode s) →
      List.Forall₂ (fun xi si => hget h xi = some (.setNode si)) xs ss →
      hget h y = some (.setNode t) →
      List.Forall₂ (fun yi ti => hget h yi = some (.setNode ti)) ys ts →
      (s :: ss).Perm (t :: ts) →
      ∃ r h' r2 h2 zs zs2,
        accumulate (f + 1) h ((x :: xs).map some) none =
          some (.ok (some r, h')) ∧
        hget h' r = some (.setNode zs) ∧
        accumulate (f + 1) h ((y :: ys).map some) none =
          some (.ok (some r2, h2)) ∧
        hget h2 r2 = some (.setNode zs2) ∧
        (∀ e : Int, e ∈ zs ↔ ∃ u, u ∈ (s :: ss) ∧ e ∈ u) ∧
        (∀ e : Int, e ∈ zs2 ↔ e ∈ zs)) := by
  constructor
  · intro f h x y xs ys n m ns ms hx hxs hy hys hperm
    obtain ⟨r, h', hrun, hval⟩ := accumulate_ints (f := f) hx hxs
    obtain ⟨r2, h2, hrun2, hval2⟩ := accumulate_ints (f := f) hy hys
    refine ⟨r, h', r2, h2, hrun, by simpa using hval, hrun2, ?_⟩
    have hsum : (n :: ns).sum = (m :: ms).sum := hperm.sum_eq
    rw [hsum]
    simpa using hval2
  · intro f h x y xs ys s t ss ts hx hxs hy hys hperm
    obtain ⟨r, h', zs, hrun, hval, hmem⟩ := accumulate_sets (f := f) hx hxs
    obtain ⟨r2, h2, zs2, hrun2, hval2, hmem2⟩ := accumulate_sets (f := f) hy hys
    refine ⟨r, h', r2, h2, zs, zs2, hrun, hval, hrun2, hval2, hmem, ?_⟩
    intro e
    rw [hmem2 e, hmem e]
    constructor
    · rintro ⟨u, hu, hmu⟩
      exact ⟨u, hperm.mem_iff.mpr hu, hmu⟩
    · rintro ⟨u, hu, hmu⟩
      exact ⟨u, hperm.mem_iff.mp hu, hmu⟩

/-- Concrete instance of C5: `accumulate` over the ints `1, 2, 3` (in
two different orders) yields `6` both times, and over the sets
`{1,2}, {2,3}` (in both orders) yields sets with the same members. -/
theorem claim_C5_witness :
    (∃ r h' r2 h2,
      accumulate 2 [Node.intNode 1, Node.intNode 2, Node.intNode 3]
        ([0, 1, 2].map some) none = some (.ok (some r, h')) ∧
      hget h' r = some (.intNode ([(1 : Int), 2, 3]).sum) ∧
      accumulate 2 [Node.intNode 1, Node.intNode 2, Node.intNode 3]
        ([2, 0, 1].map some) none = some (.ok (some r2, h2)) ∧
      hget h2 r2 = some (.intNode ([(1 : Int), 2, 3]).sum)) ∧
    (∃ r h' r2 h2 zs zs2,
      accumulate 2 [Node.setNode [1, 2], Node.setNode [2, 3]]
        ([0, 1].map some) none = some (.ok (some r, h')) ∧
      hget h' r = some (.setNode zs) ∧
      accumulate 2 [Node.setNode [1, 2], Node.setNode [2, 3]]
        ([1, 0].map some) none = some (.ok (some r2, h2)) ∧
      hget h2 r2 = some (.setNode zs2) ∧
      (∀ e : Int, e ∈ zs ↔ ∃ u, u ∈ [[(1 : Int), 2], [2, 3]] ∧ e ∈ u) ∧
      (∀ e : Int, e ∈ zs2 ↔ e ∈ zs)) := by
  constructor
  · exact claim_C5.1 1 [Node.intNode 1, Node.intNode 2, Node.intNode 3]
      0 2 [1, 2] [0, 1] 1 3 [2, 3] [1, 2] rfl
      (List.Forall₂.cons rfl (List.Forall₂.cons rfl List.Forall₂.nil)) rfl
      (List.Forall₂.cons rfl (List.Forall₂.cons rfl List.Forall₂.nil))
      (by decide)
  · exact claim_C5.2 1 [Node.setNode [1, 2], Node.setNode [2, 3]]
      0 1 [1] [0] [1, 2] [2, 3] [[2, 3]] [[1, 2]] rfl
      (List.Forall₂.cons rfl List.Forall₂.nil) rfl
      (List.Forall₂.cons rfl List.Forall₂.nil)
      (by decide)

theorem hasKey_false_lookupEnt {es : List (String × Nat)} {k : String}
    (e : hasKey es k = false) : lookupEnt es k = none := by
  induction es with
  | nil => rfl
  | cons p rest ih =>
    rw [hasKey, List.any_cons, Bool.or_eq_false_iff] at e
    rw [lookupEnt]
    simp only [List.find?, e.1]
    exact ih e.2

/-- C9: values stored under keys exclusive to one operand are deep
copies, never references: after a successful mapping merge every such
value of the output has an object graph lying entirely in the fresh
part of the heap (all addresses `≥` the pre-call heap size), while for
`add` every pre-call object is preserved verbatim and for `iadd` the
read-only operand `b` is preserved — so later mutation of the output
through such a value cannot reach either input. -/
theorem claim_C9 :
    (∀ (f : Nat) (h : Heap) (a b : Nat) (ta tb : MapType)
        (pea peb : List (String × PVal)) (r : Nat) (h' : Heap),
      Reads h a (.vmap ta pea) → Reads h b (.vmap tb peb) →
      wfV (.vmap ta pea) = true → wfV (.vmap tb peb) = true →
      (pureIsAddable (.vmap ta pea) && pureIsAddable (.vmap tb peb)) = false →
      add (f + 1) h a b = some (.ok (r, h')) →
      ∃ ty esF, hget h' r = some (.mapNode ty esF) ∧
        (∀ i nd, hget h i = some nd → hget h' i = some nd) ∧
        ∀ p, p ∈ esF → (hasKey pea p.1 && hasKey peb p.1) = false →
          ∀ g i, i ∈ reachAddrs g h' p.2 → h.length ≤ i) ∧
    (∀ (f : Nat) (h : Heap) (a b : Nat) (ta tb : MapType)
        (pea peb : List (String × PVal)) (Sa : List Nat) (r : Nat) (h' : Heap),
      IsTree h a (.vmap ta pea) Sa → Reads h b (.vmap tb peb) →
      (∀ g i, i ∈ reachAddrs g h b → i ∉ Sa) →
      wfV (.vmap ta pea) = true → wfV (.vmap tb peb) = true →
      (pureIsAddable (.vmap ta pea) && pureIsAddable (.vmap tb peb)) = false →
      iadd f h a b = some (.ok (r, h')) →
      ∃ esF, hget h' r = some (.mapNode ta esF) ∧
        Reads h' b (.vmap tb peb) ∧
        ∀ p, p ∈ esF → hasKey pea p.1 = false →
          ∀ g i, i ∈ reachAddrs g h' p.2 → h.length ≤ i) := by
  constructor
  · intro f h a b ta tb pea peb r h2r ra rb wa wb hA hrun
    have sim := add_sim (f + 1) ra rb wa wb
    match epure : pureAdd (f + 1) (.vmap ta pea) (.vmap tb peb) with
    | none =>
      rw [epure] at sim
      rw [hrun] at sim
      exact absurd sim (by simp)
    | some (.error e) =>
      rw [epure] at sim
      rw [hrun] at sim
      exact absurd sim (by simp)
    | some (.ok v) =>
      obtain ⟨cs, hAgo, hv, hInstT, hallB⟩ := pureAdd_map_inv hA epure
      obtain ⟨ea, ega, era⟩ := reads_vmap_node ra
      obtain ⟨eb, egb, erb⟩ := reads_vmap_node rb
      obtain ⟨eAa, eSa, eMa, eNa⟩ := reads_class ra ega
      obtain ⟨eAb, eSb, eMb, eNb⟩ := reads_class rb egb
      obtain ⟨hndA, hwA⟩ := wfV_map_elim wa
      obtain ⟨hndB, hwB⟩ := wfV_map_elim wb
      have hAh : (isAddable (Node.mapNode ta ea) &&
          isAddable (Node.mapNode tb eb)) = false := by
        rw [eAa, eAb]; exact hA
      have hhs : add (f + 1) h a b =
          (match addEntriesAGo (add f) (deepcopy f)
              (h ++ [Node.mapNode (if tb.isInst ta then ta else tb) []])
              h.length ea eb with
           | some (.ok h2) =>
             match addEntriesBGo (deepcopy f) h2 h.length
                 (eb.filter (fun p => !(hasKey ea p.1))) with
             | some h3 => some (.ok (h.length, h3))
             | none => none
           | some (.error e) => some (.error e)
           | none => none) := by
        simp [add, ega, egb, hAh, hInstT, alloc, isMutableMapping, isMutableSet]
      have hP0 : ∀ i, InReach h a i ∨ InReach h b i → i < h.length := by
        intro i hi
        rcases hi with ⟨g, hg⟩ | ⟨g, hg⟩
        · exact reads_reach_dom ra i hg
        · exact reads_reach_dom rb i hg
      have x01 : Ext h (h ++ [Node.mapNode (if tb.isInst ta then ta else tb) []]) :=
        ext_append h _
      have olda0 : ∀ p, p ∈ ea → ReachIn h p.2 (InReach h a) :=
        fun p hp g i hi => ⟨g + 1, reach_subset_of_entry ega hp hi⟩
      have oldb0 : ∀ p, p ∈ eb → ReachIn h p.2 (InReach h b) :=
        fun p hp g i hi => ⟨g + 1, reach_subset_of_entry egb hp hi⟩
      have tA := entriesRead_transport
        (fun x' v' r' ri' => transport_ext x01 r' ri') era olda0
      have tB := entriesRead_transport
        (fun x' v' r' ri' => transport_ext x01 r' ri') erb oldb0
      have hkea : ea.map Prod.fst = pea.map Prod.fst := entriesRead_keys era
      have hkeb : eb.map Prod.fst = peb.map Prod.fst := entriesRead_keys erb
      have hndea : keysNodup ea = true := by
        rw [keysNodup_congr hkea]; exact hndA
      have houtn1 : hget (h ++ [Node.mapNode (if tb.isInst ta then ta else tb) []])
          h.length = some (.mapNode (if tb.isInst ta then ta else tb) []) :=
        hget_alloc_self h _
      have hdisj0 : ∀ p, p ∈ ea → hasKey ([] : List (String × Nat)) p.1 = false :=
        fun p _ => rfl
      have afold := addEntriesAGo_sim (add_sim f) hP0 (Nat.le_refl h.length) hwB
        tA.1 tB.1 tA.2 tB.2 hwA hndea hdisj0 (by simp) houtn1
      rw [hAgo] at afold
      obtain ⟨h2, newcsA, erunA, xoA, loA, honodeA, ernewA, hknewA,
        rinewA, erbfA, ribfA, hwinA⟩ := afold
      rw [List.nil_append] at honodeA
      simp only [List.length_append, List.length_cons, List.length_nil] at loA
      have erNov : EntriesRead h2 (eb.filter (fun p => !(hasKey ea p.1)))
          (peb.filter (fun p => !(hasKey pea p.1))) :=
        entriesRead_filter_novel hkea erbfA
      have riNov : ∀ p, p ∈ eb.filter (fun p => !(hasKey ea p.1)) →
          ReachIn h2 p.2 (InReach h b) :=
        fun p hp => ribfA p (List.mem_filter.mp hp).1
      have disjB : ∀ p, p ∈ eb.filter (fun p => !(hasKey ea p.1)) →
          hasKey newcsA p.1 = false := by
        intro p hp
        rw [hasKey_congr hknewA p.1]
        have hpred := (List.mem_filter.mp hp).2
        simpa using hpred
      have hndBf : keysNodup (eb.filter (fun p => !(hasKey ea p.1))) = true := by
        refine keysNodup_filter ?_
        rw [keysNodup_congr hkeb]; exact hndB
      have hout2 : h.length < h2.length := by omega
      have bfold := addEntriesBGo_sim (f := f)
        (fun i hi => hP0 i (Or.inr hi)) (Nat.le_refl h.length)
        erNov riNov disjB hndBf hout2 honodeA
      obtain ⟨h3, newcsB, erunB, xoB, loB, honodeB, ernewB, hknewB, hwinB⟩ :=
        bfold.2 hallB
      have hfin : add (f + 1) h a b = some (.ok (h.length, h3)) := by
        rw [hhs, erunA]
        show (match addEntriesBGo (deepcopy f) h2 h.length
                (eb.filter (fun p => !(hasKey ea p.1))) with
              | some h3 => some (Except.ok (h.length, h3))
              | none => none) = some (.ok (h.length, h3))
        rw [erunB]
      rw [hrun] at hfin
      cases hfin
      refine ⟨_, newcsA ++ newcsB, honodeB, ?_, ?_⟩
      · intro i nd hi
        have lt := hget_lt_length hi
        have s1 := hget_append hi
          [Node.mapNode (if tb.isInst ta then ta else tb) []]
        have s2 := xoA i nd (by omega) s1
        exact xoB i nd (by omega) s2
      · intro p hp hexcl g i hi
        rcases List.mem_append.mp hp with hpA | hpB
        · have hkeyA : hasKey pea p.1 = true := by
            refine hasKey_of_mem_fst ?_
            rw [← hkea, ← hknewA]
            exact List.mem_map_of_mem Prod.fst hpA
          rw [hkeyA, Bool.true_and] at hexcl
          have hkeb2 : hasKey eb p.1 = false := by
            rw [hasKey_congr hkeb p.1]
            exact hexcl
          obtain ⟨m1, m2, hm1, hm2, hm3, hm4, hw⟩ :=
            hwinA p hpA (hasKey_false_lookupEnt hkeb2)
          have wfin : WindowClosed m1 m2 h2r := by
            refine windowClosed_extOut hw hm4 ?_ xoB
            simp only [List.length_append, List.length_cons, List.length_nil] at hm1
            omega
          have := windowClosed_reach wfin hm2 hm3 i hi
          simp only [List.length_append, List.length_cons, List.length_nil] at hm1
          omega
        · obtain ⟨m1, m2, hm1, hm2, hm3, hm4, hw⟩ := hwinB p hpB
          have := windowClosed_reach hw hm2 hm3 i hi
          omega
  · intro f h a b ta tb pea peb Sa r h2r t rb hbdis wa wb hA hrun
    have sim := iadd_sim f t rb hbdis wa wb
    match epure : pureIadd f (.vmap ta pea) (.vmap tb peb) with
    | none =>
      rw [epure] at sim
      rw [hrun] at sim
      exact absurd sim (by simp)
    | some (.error e) =>
      rw [epure] at sim
      rw [hrun] at sim
      exact absurd sim (by simp)
    | some (.ok v) =>
      rw [epure] at sim
      obtain ⟨r2, h2, ho, hl, hwbd, hr, hri, hid1, hid2, hmapw⟩ := sim
      rw [hrun] at ho
      cases ho
      obtain ⟨esF, hnode, hwin⟩ := hmapw ta pea rfl hA
      refine ⟨esF, hnode, ?_, ?_⟩
      · refine rb.reach_agree ?_
        intro g i hi
        exact hwbd i (reads_reach_dom rb i hi) (hbdis g i hi)
      · intro p hp hkey g i hi
        obtain ⟨m1, m2, hm1, hm2, hm3, hm4, hw⟩ := hwin p hp hkey
        have := windowClosed_reach hw hm2 hm3 i hi
        omega

/-- Concrete instance of C9: merging `{k: [1,2]}` with `{}` by `add`
deep-copies the list (the copy's graph is fresh), and merging `{n:[5]}`
into `{}` by `iadd` likewise installs only fresh copies. -/
theorem claim_C9_witness :
    (∃ ty esF, hget [Node.listNode [1, 2], Node.mapNode .dictT [("k", 0)],
        Node.mapNode .dictT [], Node.mapNode .dictT [("k", 4)],
        Node.listNode [1, 2]] 3 = some (.mapNode ty esF) ∧
      (∀ i nd, hget [Node.listNode [1, 2], Node.mapNode .dictT [("k", 0)],
          Node.mapNode .dictT []] i = some nd →
        hget [Node.listNode [1, 2], Node.mapNode .dictT [("k", 0)],
          Node.mapNode .dictT [], Node.mapNode .dictT [("k", 4)],
          Node.listNode [1, 2]] i = some nd) ∧
      ∀ p, p ∈ esF →
        (hasKey [("k", PVal.vlist [1, 2])] p.1 &&
          hasKey ([] : List (String × PVal)) p.1) = false →
        ∀ g i, i ∈ reachAddrs g [Node.listNode [1, 2],
          Node.mapNode .dictT [("k", 0)], Node.mapNode .dictT [],
          Node.mapNode .dictT [("k", 4)], Node.listNode [1, 2]] p.2 → 3 ≤ i) ∧
    (∃ esF, hget [Node.mapNode .dictT [("n", 3)], Node.listNode [5],
        Node.mapNode .dictT [("n", 1)], Node.listNode [5]] 0 =
        some (.mapNode .dictT esF) ∧
      Reads [Node.mapNode .dictT [("n", 3)], Node.listNode [5],
        Node.mapNode .dictT [("n", 1)], Node.listNode [5]] 2
        (.vmap .dictT [("n", .vlist [5])]) ∧
      ∀ p, p ∈ esF → hasKey ([] : List (String × PVal)) p.1 = false →
        ∀ g i, i ∈ reachAddrs g [Node.mapNode .dictT [("n", 3)],
          Node.listNode [5], Node.mapNode .dictT [("n", 1)],
          Node.listNode [5]] p.2 → 3 ≤ i) := by
  constructor
  · exact claim_C9.1 2 [Node.listNode [1, 2], Node.mapNode .dictT [("k", 0)],
      Node.mapNode .dictT []] 1 2 .dictT .dictT [("k", .vlist [1, 2])] [] 3
      [Node.listNode [1, 2], Node.mapNode .dictT [("k", 0)],
        Node.mapNode .dictT [], Node.mapNode .dictT [("k", 4)],
        Node.listNode [1, 2]]
      ⟨2, rfl⟩ ⟨2, rfl⟩ rfl rfl rfl rfl
  · have tw : IsTree [Node.mapNode .dictT [], Node.listNode [5],
        Node.mapNode .dictT [("n", 1)]] 0 (.vmap .dictT []) (0 :: []) :=
      @IsTree.map _ _ _ [] _ _ rfl IsEntriesTree.nil (by decide)
    have tbw : IsTree [Node.mapNode .dictT [], Node.listNode [5],
        Node.mapNode .dictT [("n", 1)]] 2
        (.vmap .dictT [("n", .vlist [5])]) (2 :: ([1] ++ [])) :=
      @IsTree.map _ _ _ [("n", 1)] _ _ rfl
        (IsEntriesTree.cons (IsTree.list rfl) IsEntriesTree.nil
          (fun i _ => List.not_mem_nil i))
        (by decide)
    exact claim_C9.2 2 [Node.mapNode .dictT [], Node.listNode [5],
      Node.mapNode .dictT [("n", 1)]] 0 2 .dictT .dictT []
      [("n", .vlist [5])] (0 :: []) 0
      [Node.mapNode .dictT [("n", 3)], Node.listNode [5],
        Node.mapNode .dictT [("n", 1)], Node.listNode [5]]
      tw (isTree_reads tbw) (disjoint_of_trees tbw (by decide)) rfl rfl rfl rfl

/-! ## Shared keys with category-less value pairs abort the merge (C10) -/

theorem pure_noCat_not_ok {f : Nat} {vx vy : PVal}
    (hA : (pureIsAddable vx && pureIsAddable vy) = false)
    (hS : (pureIsSet vx && pureIsSet vy) = false)
    (hM : (pureIsMap vx && pureIsMap vy) = false) :
    ∀ v : PVal, pureAdd f vx vy ≠ some (.ok v) ∧
      pureIadd f vx vy ≠ some (.ok v) := by
  intro v
  match f with
  | 0 => exact ⟨by simp [pureAdd], by simp [pureIadd]⟩
  | f + 1 =>
    constructor
    · simp [pureAdd, hA, hS, hM]
    · simp [pureIadd, hA, hS, hM]

theorem pureCounterA_bad_key {peb : List (String × PVal)} {k : String}
    {vy : PVal} (hy : plookup peb k = some vy) :
    ∀ {pea : List (String × PVal)} {vx : PVal},
      plookup pea k = some vx →
      (pureIsAddable vx && pureIsAddable vy) = false →
      ∀ cs, pureCounterA pea peb ≠ .ok cs := by
  intro pea
  induction pea with
  | nil => intro vx hx _ cs; exact absurd hx (by simp [plookup])
  | cons p rest ih =>
    obtain ⟨k2, x2⟩ := p
    intro vx hx hA cs hok
    rw [pureCounterA] at hok
    rcases ek : k2 == k with _ | _
    · rw [plookup] at hx
      simp only [List.find?, ek] at hx
      rcases hplk2 : plookup peb k2 with _ | y2
      · simp only [hplk2] at hok
        match hr2 : pureCounterA rest peb with
        | .error e => simp only [hr2] at hok; exact absurd hok (by simp)
        | .ok cs2 => exact ih hx hA cs2 hr2
      · simp only [hplk2] at hok
        match x2, y2 with
        | .vint m2, .vint n2 =>
          match hr2 : pureCounterA rest peb with
          | .error e => simp only [hr2] at hok; exact absurd hok (by simp)
          | .ok cs2 => exact ih hx hA cs2 hr2
        | .vint m2, .vlist ys => exact absurd hok (by simp)
        | .vint m2, .vset ys => exact absurd hok (by simp)
        | .vint m2, .vmap ty es => exact absurd hok (by simp)
        | .vint m2, .vopq t => exact absurd hok (by simp)
        | .vlist xs, y => exact absurd hok (by simp)
        | .vset xs, y => exact absurd hok (by simp)
        | .vmap ty es, y => exact absurd hok (by simp)
        | .vopq t, y => exact absurd hok (by simp)
    · have hkk : k2 = k := by
        rw [beq_iff_eq] at ek
        exact ek
      subst hkk
      rw [plookup] at hx
      simp only [List.find?, ek] at hx
      cases hx
      rw [hy] at hok
      simp only at hok
      match hvx : x2, hvy : vy with
      | .vint m2, .vint n2 =>
        simp [pureIsAddable] at hA
      | .vint m2, .vlist ys => exact absurd hok (by simp)
      | .vint m2, .vset ys => exact absurd hok (by simp)
      | .vint m2, .vmap ty es => exact absurd hok (by simp)
      | .vint m2, .vopq t => exact absurd hok (by simp)
      | .vlist xs, y => exact absurd hok (by simp)
      | .vset xs, y => exact absurd hok (by simp)
      | .vmap ty es, y => exact absurd hok (by simp)
      | .vopq t, y => exact absurd hok (by simp)

theorem pureEntriesAGo_bad_key {f : Nat} {peb : List (String × PVal)}
    {k : String} {vy : PVal} (hy : plookup peb k = some vy) :
    ∀ {pes : List (String × PVal)} {vx : PVal},
      plookup pes k = some vx →
      (∀ v : PVal, pureAdd f vx vy ≠ some (.ok v)) →
      ∀ cs, pureEntriesAGo (pureAdd f) (pureCopyOk f) pes peb ≠ some (.ok cs) := by
  intro pes
  induction pes with
  | nil => intro vx hx _ cs; exact absurd hx (by simp [plookup])
  | cons p rest ih =>
    obtain ⟨k2, x2⟩ := p
    intro vx hx hbad cs hok
    rw [pureEntriesAGo] at hok
    rcases ek : k2 == k with _ | _
    · rw [plookup] at hx
      simp only [List.find?, ek] at hx
      rcases hplk2 : plookup peb k2 with _ | y2
      · simp only [hplk2] at hok
        rcases hcp : pureCopyOk f x2 with _ | _
        · rw [hcp, if_neg Bool.false_ne_true] at hok
          exact absurd hok (by simp)
        · rw [hcp, if_pos rfl] at hok
          match hr2 : pureEntriesAGo (pureAdd f) (pureCopyOk f) rest peb with
          | none => simp only [hr2] at hok; exact absurd hok (by simp)
          | some (.error e) => simp only [hr2] at hok; exact absurd hok (by simp)
          | some (.ok cs2) => exact ih hx hbad cs2 hr2
      · simp only [hplk2] at hok
        match hrec : pureAdd f x2 y2 with
        | none => simp only [hrec] at hok; exact absurd hok (by simp)
        | some (.error e) => simp only [hrec] at hok; exact absurd hok (by simp)
        | some (.ok v2) =>
          simp only [hrec] at hok
          match hr2 : pureEntriesAGo (pureAdd f) (pureCopyOk f) rest peb with
          | none => simp only [hr2] at hok; exact absurd hok (by simp)
          | some (.error e) => simp only [hr2] at hok; exact absurd hok (by simp)
          | some (.ok cs2) => exact ih hx hbad cs2 hr2
    · have hkk : k2 = k := by
        rw [beq_iff_eq] at ek
        exact ek
      subst hkk
      rw [plookup] at hx
      simp only [List.find?, ek] at hx
      cases hx
      rw [hy] at hok
      simp only at hok
      match hrec : pureAdd f x2 vy with
      | none => simp only [hrec] at hok; exact absurd hok (by simp)
      | some (.error e) => simp only [hrec] at hok; exact absurd hok (by simp)
      | some (.ok v2) => exact absurd hrec (hbad v2)

theorem pureIaddEntriesAGo_bad_key {f : Nat} {peb : List (String × PVal)}
    {k : String} {vy : PVal} (hy : plookup peb k = some vy) :
    ∀ {pes : List (String × PVal)} {vx : PVal},
      plookup pes k = some vx →
      (∀ v : PVal, pureIadd f vx vy ≠ some (.ok v)) →
      ∀ cs, pureIaddEntriesAGo (pureIadd f) pes peb ≠ some (.ok cs) := by
  intro pes
  induction pes with
  | nil => intro vx hx _ cs; exact absurd hx (by simp [plookup])
  | cons p rest ih =>
    obtain ⟨k2, x2⟩ := p
    intro vx hx hbad cs hok
    rw [pureIaddEntriesAGo] at hok
    rcases ek : k2 == k with _ | _
    · rw [plookup] at hx
      simp only [List.find?, ek] at hx
      rcases hplk2 : plookup peb k2 with _ | y2
      · simp only [hplk2] at hok
        match hr2 : pureIaddEntriesAGo (pureIadd f) rest peb with
        | none => simp only [hr2] at hok; exact absurd hok (by simp)
        | some (.error e) => simp only [hr2] at hok; exact absurd hok (by simp)
        | some (.ok cs2) => exact ih hx hbad cs2 hr2
      · simp only [hplk2] at hok
        match hrec : pureIadd f x2 y2 with
        | none => simp only [hrec] at hok; exact absurd hok (by simp)
        | some (.error e) => simp only [hrec] at hok; exact absurd hok (by simp)
        | some (.ok v2) =>
          simp only [hrec] at hok
          match hr2 : pureIaddEntriesAGo (pureIadd f) rest peb with
          | none => simp only [hr2] at hok; exact absurd hok (by simp)
          | some (.error e) => simp only [hr2] at hok; exact absurd hok (by simp)
          | some (.ok cs2) => exact ih hx hbad cs2 hr2
    · have hkk : k2 = k := by
        rw [beq_iff_eq] at ek
        exact ek
      subst hkk
      rw [plookup] at hx
      simp only [List.find?, ek] at hx
      cases hx
      rw [hy] at hok
      simp only at hok
      match hrec : pureIadd f x2 vy with
      | none => simp only [hrec] at hok; exact absurd hok (by simp)
      | some (.error e) => simp only [hrec] at hok; exact absurd hok (by simp)
      | some (.ok v2) => exact absurd hrec (hbad v2)

theorem pure_bad_shared_not_ok {ta tb : MapType} {pea peb : List (String × PVal)}
    {k : String} {vx vy : PVal}
    (hx : plookup pea k = some vx) (hy : plookup peb k = some vy)
    (hA : (pureIsAddable vx && pureIsAddable vy) = false)
    (hS : (pureIsSet vx && pureIsSet vy) = false)
    (hM : (pureIsMap vx && pureIsMap vy) = false) :
    ∀ (f : Nat) (v : PVal),
      pureAdd f (.vmap ta pea) (.vmap tb peb) ≠ some (.ok v) ∧
      pureIadd f (.vmap ta pea) (.vmap tb peb) ≠ some (.ok v) := by
  intro f v
  match f with
  | 0 => exact ⟨by simp [pureAdd], by simp [pureIadd]⟩
  | f + 1 =>
    constructor
    · intro hok
      rcases hAm : (pureIsAddable (PVal.vmap ta pea) &&
          pureIsAddable (PVal.vmap tb peb)) with _ | _
      · obtain ⟨cs, hAgo, _, _, _⟩ := pureAdd_map_inv hAm hok
        exact pureEntriesAGo_bad_key hy hx
          (fun v2 => (pure_noCat_not_ok hA hS hM v2).1) cs hAgo
      · have hta : ta = .counterT := by
          rw [Bool.and_eq_true] at hAm
          cases ta with
          | counterT => rfl
          | dictT => exact absurd hAm.1 (by simp [pureIsAddable])
          | subDictT => exact absurd hAm.1 (by simp [pureIsAddable])
          | otherT => exact absurd hAm.1 (by simp [pureIsAddable])
        have htb : tb = .counterT := by
          rw [Bool.and_eq_true] at hAm
          cases tb with
          | counterT => rfl
          | dictT => exact absurd hAm.2 (by simp [pureIsAddable])
          | subDictT => exact absurd hAm.2 (by simp [pureIsAddable])
          | otherT => exact absurd hAm.2 (by simp [pureIsAddable])
        subst hta
        subst htb
        obtain ⟨cs, hpc, _⟩ := pureAdd_counter_inv hok
        exact pureCounterA_bad_key hy hx hA cs hpc
    · intro hok
      match hvb : pureIsAddable (PVal.vmap ta pea) &&
          pureIsAddable (PVal.vmap tb peb) with
      | true =>
        have hta : ta = .counterT := by
          rw [Bool.and_eq_true] at hvb
          cases ta with
          | counterT => rfl
          | dictT => exact absurd hvb.1 (by simp [pureIsAddable])
          | subDictT => exact absurd hvb.1 (by simp [pureIsAddable])
          | otherT => exact absurd hvb.1 (by simp [pureIsAddable])
        have htb : tb = .counterT := by
          rw [Bool.and_eq_true] at hvb
          cases tb with
          | counterT => rfl
          | dictT => exact absurd hvb.2 (by simp [pureIsAddable])
          | subDictT => exact absurd hvb.2 (by simp [pureIsAddable])
          | otherT => exact absurd hvb.2 (by simp [pureIsAddable])
        subst hta
        subst htb
        simp only [pureIadd, pureIsAddable, Bool.and_self, if_true,
          pureOpAdd] at hok
        match hpc : pureCounterA pea peb with
        | .error e => simp only [hpc] at hok; exact absurd hok (by simp)
        | .ok cs => exact pureCounterA_bad_key hy hx hA cs hpc
      | false =>
        rw [pureIadd] at hok
        rw [hvb, if_neg Bool.false_ne_true] at hok
        rw [if_neg (show ¬((pureIsSet (PVal.vmap ta pea) &&
            pureIsSet (PVal.vmap tb peb)) = true) by simp [pureIsSet])] at hok
        rw [if_pos (show (pureIsMap (PVal.vmap ta pea) &&
            pureIsMap (PVal.vmap tb peb)) = true by simp [pureIsMap])] at hok
        simp only at hok
        rcases hInst : tb.isInst ta with _ | _
        · rw [hInst, if_neg Bool.false_ne_true] at hok
          exact absurd hok (by simp)
        · rw [hInst, if_pos rfl] at hok
          match hr2 : pureIaddEntriesAGo (pureIadd f) pea peb with
          | none => simp only [hr2] at hok; exact absurd hok (by simp)
          | some (.error e) => simp only [hr2] at hok; exact absurd hok (by simp)
          | some (.ok cs) =>
            exact pureIaddEntriesAGo_bad_key hy hx
              (fun v2 => (pure_noCat_not_ok hA hS hM v2).2) cs hr2

/-- C10 counterexample: two type-compatible `dict`s share key `k`
with two opaque (category-less) payloads, yet `add` and `iadd` do not
raise the type-incompatibility `ValueError`: the earlier shared key
`j` holds an `int` and a `list` — both `Addable` — so `operator.add`
raises its own `TypeError` first and the merge aborts with that error
instead.  The claimed universal "raise the type-incompatibility
error" is therefore wrong, though the merge does abort. -/
theorem claim_C10_counterexample :
    (readVal 3 [Node.intNode 1, Node.listNode [1], Node.opqNode 0,
        Node.opqNode 1, Node.mapNode .dictT [("j", 0), ("k", 2)],
        Node.mapNode .dictT [("j", 1), ("k", 3)]] 4,
     readVal 3 [Node.intNode 1, Node.listNode [1], Node.opqNode 0,
        Node.opqNode 1, Node.mapNode .dictT [("j", 0), ("k", 2)],
        Node.mapNode .dictT [("j", 1), ("k", 3)]] 5,
     MapType.dictT.isInst .dictT,
     (pureIsAddable (.vopq 0) || pureIsSet (.vopq 0) || pureIsMap (.vopq 0)),
     (pureIsAddable (.vopq 1) || pureIsSet (.vopq 1) || pureIsMap (.vopq 1)),
     add 3 [Node.intNode 1, Node.listNode [1], Node.opqNode 0,
        Node.opqNode 1, Node.mapNode .dictT [("j", 0), ("k", 2)],
        Node.mapNode .dictT [("j", 1), ("k", 3)]] 4 5,
     iadd 3 [Node.intNode 1, Node.listNode [1], Node.opqNode 0,
        Node.opqNode 1, Node.mapNode .dictT [("j", 0), ("k", 2)],
        Node.mapNode .dictT [("j", 1), ("k", 3)]] 4 5) =
    (some (.vmap .dictT [("j", .vint 1), ("k", .vopq 0)]),
     some (.vmap .dictT [("j", .vlist [1]), ("k", .vopq 1)]),
     true,
     false,
     false,
     some (.error .otherError),
     some (.error .otherError)) := rfl

/-- C10 amended: if two type-compatible mappings share a key whose two
values have no common structural category, the merge can never
succeed — for any fuel, `add` (and, on tree-shaped disjoint operands,
`iadd`) never returns a result, so such payloads are never silently
copied, skipped, or overwritten; and the recursive combine on the two
offending values themselves is exactly the type-incompatibility error
naming both value types (it surfaces as the call's error when that
shared key is the first failing one, as in the counterexample's
variant with no other shared keys). -/
theorem claim_C10_amended {h : Heap} {a b : Nat} {ta tb : MapType}
    {pea peb : List (String × PVal)} {ea eb : List (String × Nat)}
    {k : String} {vx vy : PVal}
    (ra : Reads h a (.vmap ta pea)) (rb : Reads h b (.vmap tb peb))
    (wa : wfV (.vmap ta pea) = true) (wb : wfV (.vmap tb peb) = true)
    (ega : hget h a = some (.mapNode ta ea)) (egb : hget h b = some (.mapNode tb eb))
    (hx : plookup pea k = some vx) (hy : plookup peb k = some vy)
    (hA : (pureIsAddable vx && pureIsAddable vy) = false)
    (hS : (pureIsSet vx && pureIsSet vy) = false)
    (hM : (pureIsMap vx && pureIsMap vy) = false) :
    (∀ f r h2, add f h a b ≠ some (.ok (r, h2))) ∧
    (∀ Sa, IsTree h a (.vmap ta pea) Sa →
      (∀ g i, i ∈ reachAddrs g h b → i ∉ Sa) →
      ∀ f r h2, iadd f h a b ≠ some (.ok (r, h2))) ∧
    (∀ f x y, lookupEnt ea k = some x → lookupEnt eb k = some y →
      add (f + 1) h x y =
        some (.error (.typeIncompatible (typeNameV vx) (typeNameV vy))) ∧
      iadd (f + 1) h x y =
        some (.error (.typeIncompatible (typeNameV vx) (typeNameV vy)))) := by
  refine ⟨?_, ?_, ?_⟩
  · intro f r h2 hok
    match f with
    | 0 => exact absurd hok (by simp [add])
    | f + 1 =>
      have sim := add_sim (f + 1) ra rb wa wb
      match epure : pureAdd (f + 1) (.vmap ta pea) (.vmap tb peb) with
      | none =>
        rw [epure] at sim
        rw [hok] at sim
        exact absurd sim (by simp)
      | some (.error e) =>
        rw [epure] at sim
        rw [hok] at sim
        exact absurd sim (by simp)
      | some (.ok v) =>
        exact absurd epure ((pure_bad_shared_not_ok hx hy hA hS hM (f + 1) v).1)
  · intro Sa t hbdis f r h2 hok
    match f with
    | 0 => exact absurd hok (by simp [iadd])
    | f + 1 =>
      have sim := iadd_sim (f + 1) t rb hbdis wa wb
      match epure : pureIadd (f + 1) (.vmap ta pea) (.vmap tb peb) with
      | none =>
        rw [epure] at sim
        rw [hok] at sim
        exact absurd sim (by simp)
      | some (.error e) =>
        rw [epure] at sim
        rw [hok] at sim
        exact absurd sim (by simp)
      | some (.ok v) =>
        exact absurd epure ((pure_bad_shared_not_ok hx hy hA hS hM (f + 1) v).2)
  · intro f x y hlkx hlky
    obtain ⟨ea2, ega2, era⟩ := reads_vmap_node ra
    rw [ega] at ega2
    cases ega2
    obtain ⟨eb2, egb2, erb⟩ := reads_vmap_node rb
    rw [egb] at egb2
    cases egb2
    obtain ⟨vx2, hplk2, rx⟩ := (entriesRead_lookup era k).2 x hlkx
    rw [hx] at hplk2
    cases hplk2
    obtain ⟨vy2, hplk3, ry⟩ := (entriesRead_lookup erb k).2 y hlky
    rw [hy] at hplk3
    cases hplk3
    exact (dispatch_chain rx ry).2.2 hA hS hM

/-- Concrete instance of the amended C10: two `dict`s whose only
shared key holds two opaque objects can never be merged, and the
recursive combine on the two opaque payloads is the
type-incompatibility error naming both types. -/
theorem claim_C10_amended_witness :
    (∀ f r h2, add f [Node.opqNode 0, Node.opqNode 1,
      Node.mapNode .dictT [("k", 0)], Node.mapNode .dictT [("k", 1)]] 2 3 ≠
      some (.ok (r, h2))) ∧
    (∀ f r h2, iadd f [Node.opqNode 0, Node.opqNode 1,
      Node.mapNode .dictT [("k", 0)], Node.mapNode .dictT [("k", 1)]] 2 3 ≠
      some (.ok (r, h2))) ∧
    add 1 [Node.opqNode 0, Node.opqNode 1, Node.mapNode .dictT [("k", 0)],
      Node.mapNode .dictT [("k", 1)]] 0 1 =
      some (.error (.typeIncompatible "object" "object")) ∧
    iadd 1 [Node.opqNode 0, Node.opqNode 1, Node.mapNode .dictT [("k", 0)],
      Node.mapNode .dictT [("k", 1)]] 0 1 =
      some (.error (.typeIncompatible "object" "object")) := by
  have tw : IsTree [Node.opqNode 0, Node.opqNode 1,
      Node.mapNode .dictT [("k", 0)], Node.mapNode .dictT [("k", 1)]] 2
      (.vmap .dictT [("k", .vopq 0)]) (2 :: ([0] ++ [])) :=
    @IsTree.map _ _ _ [("k", 0)] _ _ rfl
      (IsEntriesTree.cons (IsTree.opq rfl) IsEntriesTree.nil
        (fun i _ => List.not_mem_nil i))
      (by decide)
  have tbw : IsTree [Node.opqNode 0, Node.opqNode 1,
      Node.mapNode .dictT [("k", 0)], Node.mapNode .dictT [("k", 1)]] 3
      (.vmap .dictT [("k", .vopq 1)]) (3 :: ([1] ++ [])) :=
    @IsTree.map _ _ _ [("k", 1)] _ _ rfl
      (IsEntriesTree.cons (IsTree.opq rfl) IsEntriesTree.nil
        (fun i _ => List.not_mem_nil i))
      (by decide)
  have ap := claim_C10_amended (k := "k")
    (⟨2, rfl⟩ : Reads [Node.opqNode 0, Node.opqNode 1,
      Node.mapNode .dictT [("k", 0)], Node.mapNode .dictT [("k", 1)]] 2
      (.vmap .dictT [("k", .vopq 0)]))
    (⟨2, rfl⟩ : Reads [Node.opqNode 0, Node.opqNode 1,
      Node.mapNode .dictT [("k", 0)], Node.mapNode .dictT [("k", 1)]] 3
      (.vmap .dictT [("k", .vopq 1)]))
    rfl rfl rfl rfl rfl rfl rfl rfl rfl
  exact ⟨ap.1, ap.2.1 _ tw (disjoint_of_trees tbw (by decide)),
    (ap.2.2 0 0 1 rfl rfl).1, (ap.2.2 0 0 1 rfl rfl).2⟩

end Accumulate